import Mathlib

/-!
Bellman-Ford, serial and OpenMP variants.

A shallow embedding of `src/serial_bellman_ford.cpp` and
`src/openmp_bellman_ford.cpp`.

Modelling conventions.

* Weights and distances are integers.  The programs add two `int`s in the
  relaxation test, in the assignment that follows it and in the detection test
  (serial lines 90, 92, 107; OpenMP lines 124, 154).  That addition is the
  parameter `add` of every definition below.  `add32` is the addition of the
  compiled program, which wraps around at 32 bits; `addZ` is the addition of
  unbounded integers.  C++ leaves a signed overflow undefined, so the properties
  that need right sums are stated for every addition that is right whenever the
  sum fits in an `int` (`Exact`), on inputs whose sums all fit (`InRange`).
* Vertex numbers, the vertex count `n` and the worker count `p` are natural
  numbers; the functions are meant for `1 ≤ n` and `1 ≤ p`.
* The matrix `int *mat` is a list read at index `x * n + y`; the distance array
  `int *dist` is a list of length `n`.
* `bellman_ford` returns the pair `(dist, has_negative_cycle)` of its two
  output parameters.
* A round of the OpenMP parallel region, up to its barrier, is a sequence of
  steps, one for each execution of the inner loop body by some worker.  The
  steps of the workers are interleaved in any way, and a worker that reads
  `dist[u]` for a vertex `u` owned by another worker may get any value that
  entry has held since the last barrier (`Step.age`).
-/

namespace BellmanFord

/-- The sentinel `#define INF 1000000`. -/
def INF : Int := 1000000

/-- The function `utils::convert_dimension_2D_1D`: the row-major index. -/
def convert_dimension_2D_1D (x y n : Nat) : Nat := x * n + y

/-! ## The addition of two `int`s -/

/-- The 32-bit two's-complement `int` an integer wraps around to. -/
def wrap32 (x : Int) : Int := (x + 2147483648) % 4294967296 - 2147483648

/-- The addition of two `int`s in the compiled program: the sum, wrapped around
at 32 bits. -/
def add32 (a b : Int) : Int := wrap32 (a + b)

/-- The addition of unbounded integers. -/
def addZ (a b : Int) : Int := a + b

/-- An addition is exact when it returns the sum whenever the sum fits in a
32-bit `int`. -/
def Exact (add : Int → Int → Int) : Prop :=
  ∀ a b, -2147483648 ≤ a + b → a + b ≤ 2147483647 → add a b = a + b

/-! ## The serial program -/

/-- One execution of the body of the two inner loops (serial lines 87-94):
read the weight, and relax `dist[v]` through `u` when the entry is below
`INF` and the `int` sum is smaller.  The state is `(dist, has_change)`. -/
def relax_edge (add : Int → Int → Int) (n : Nat) (mat : List Int) (st : List Int × Bool)
    (u v : Nat) : List Int × Bool :=
  let weight := mat.getD (convert_dimension_2D_1D u v n) 0
  if weight < INF then
    if add (st.1.getD u 0) weight < st.1.getD v 0 then
      (st.1.set v (add (st.1.getD u 0) weight), true)
    else st
  else st

/-- One relaxation round of the serial program (lines 84-96): `has_change` is
cleared, then every pair `(u, v)` is scanned, `u` in the outer loop. -/
def relax_round (add : Int → Int → Int) (n : Nat) (mat : List Int) (dist : List Int) :
    List Int × Bool :=
  (List.range n).foldl
    (fun st u => (List.range n).foldl (fun st v => relax_edge add n mat st u v) st)
    (dist, false)

/-- The serial loop `for (i = 0; i < n - 1; i++)` with its early `return`
(lines 83-101).  The first number counts the iterations that are left.  The
boolean of the result says whether the function returned from inside the
loop. -/
def relax_loop (add : Int → Int → Int) (n : Nat) (mat : List Int) :
    Nat → List Int → List Int × Bool
  | 0, dist => (dist, false)
  | k + 1, dist =>
    let r := relax_round add n mat dist
    if r.2 = false then (r.1, true) else relax_loop add n mat k r.1

/-- The test made on a pair `(u, v)` by the detection scan (serial lines
105-110, OpenMP lines 152-157). -/
def can_relax (add : Int → Int → Int) (n : Nat) (mat : List Int) (dist : List Int)
    (u v : Nat) : Bool :=
  let weight := mat.getD (convert_dimension_2D_1D u v n) 0
  decide (weight < INF) && decide (add (dist.getD u 0) weight < dist.getD v 0)

/-- The detection scan of the serial program (lines 103-113): `true` as soon
as one pair can still be relaxed. -/
def detect (add : Int → Int → Int) (n : Nat) (mat : List Int) (dist : List Int) : Bool :=
  (List.range n).any
    (fun u => (List.range n).any (fun v => can_relax add n mat dist u v))

/-- The serial `bellman_ford(n, mat, dist, has_negative_cycle)`; the result is
`(dist, has_negative_cycle)`. -/
def bellman_ford (add : Int → Int → Int) (n : Nat) (mat : List Int) : List Int × Bool :=
  let dist := (List.replicate n INF).set 0 0
  let r := relax_loop add n mat (n - 1) dist
  if r.2 then (r.1, false) else (r.1, detect add n mat r.1)

/-! ## The OpenMP program -/

/-- The entry `local_start[i]` after the partition loop (lines 92-100). -/
def local_start (p n i : Nat) : Nat := (n / p) * i

/-- The entry `local_end[i]` after the partition loop (lines 92-100). -/
def local_end (p n i : Nat) : Nat := if i = p - 1 then n else (n / p) * (i + 1)

/-- The body of the inner loop of a worker (OpenMP lines 122-129), run with no
other worker writing in between.  The state is `(dist, local_has_change)`. -/
def omp_relax (add : Int → Int → Int) (n : Nat) (mat : List Int) (my_rank : Nat)
    (st : List Int × List Bool) (u v : Nat) : List Int × List Bool :=
  let weight := mat.getD (convert_dimension_2D_1D u v n) 0
  if weight < INF then
    let new_dis := add (st.1.getD u 0) weight
    if new_dis < st.1.getD v 0 then
      (st.1.set v new_dis, st.2.set my_rank true)
    else st
  else st

/-- Phase 1 of a round for the worker `my_rank` (OpenMP lines 119-131), run
with no other worker writing in between: it clears its own flag and scans every
`u` against the `v` of its own range. -/
def omp_phase1 (add : Int → Int → Int) (p n : Nat) (mat : List Int) (my_rank : Nat)
    (st : List Int × List Bool) : List Int × List Bool :=
  (List.range n).foldl
    (fun st u =>
      (List.range' (local_start p n my_rank)
          (local_end p n my_rank - local_start p n my_rank)).foldl
        (fun st v => omp_relax add n mat my_rank st u v) st)
    (st.1, st.2.set my_rank false)

/-- One execution of the inner loop body in a round: the worker `rank` examines
the pair `(u, v)`, and its read of `dist[u]` returns the value that entry had
`age` steps earlier in the round (the value at the barrier when the round has
fewer steps). -/
structure Step where
  /-- The worker that runs the loop body. -/
  rank : Nat
  /-- The source vertex. -/
  u : Nat
  /-- The destination vertex. -/
  v : Nat
  /-- How many steps old the value read for `dist[u]` is. -/
  age : Nat
  deriving DecidableEq

/-- The body of the inner loop of a worker (OpenMP lines 122-129) when its read
of `dist[u]` returns the entry of the array `seen`; `dist[v]`, which only this
worker writes, is read and written in the current array. -/
def omp_relax_seen (add : Int → Int → Int) (n : Nat) (mat : List Int) (my_rank : Nat)
    (seen : List Int) (st : List Int × List Bool) (u v : Nat) : List Int × List Bool :=
  let weight := mat.getD (convert_dimension_2D_1D u v n) 0
  if weight < INF then
    let new_dis := add (seen.getD u 0) weight
    if new_dis < st.1.getD v 0 then
      (st.1.set v new_dis, st.2.set my_rank true)
    else st
  else st

/-- One step of a round.  The state holds the distance arrays since the barrier,
the current one first, and `local_has_change`. -/
def omp_step (add : Int → Int → Int) (n : Nat) (mat : List Int)
    (st : List (List Int) × List Bool) (s : Step) : List (List Int) × List Bool :=
  let cur := st.1.headD []
  let seen := st.1.getD s.age (st.1.getLastD [])
  let r := omp_relax_seen add n mat s.rank seen (cur, st.2) s.u s.v
  (r.1 :: st.1, r.2)

/-- The assignments `local_has_change[my_rank] = false` of the `p` workers
(OpenMP line 119).  A worker clears its flag before its first step of the round
and no other worker touches that flag. -/
def clear_flags (p : Nat) (flags : List Bool) : List Bool :=
  (List.range p).foldl (fun f r => f.set r false) flags

/-- One round up to the barrier (OpenMP lines 119-132): the flags are cleared
and the steps of `trace` are run. -/
def omp_round (add : Int → Int → Int) (p n : Nat) (mat : List Int) (trace : List Step)
    (st : List Int × List Bool) : List Int × List Bool :=
  let r := trace.foldl (omp_step add n mat) ([st.1], clear_flags p st.2)
  (r.1.headD [], r.2)

/-- The `single` block (OpenMP lines 136-139): the OR of the workers' flags. -/
def omp_has_change (p : Nat) (flags : List Bool) : Bool :=
  (List.range p).foldl (fun acc rank => acc || flags.getD rank false) false

/-- The loop of the parallel region (OpenMP lines 118-144).  The first number
counts the iterations that are left, the second is `iter_num`; the result is
the state and `iter_num` when the loop is left.  `sched iter` is the sequence of
steps of round `iter`. -/
def omp_loop (add : Int → Int → Int) (sched : Nat → List Step) (p n : Nat)
    (mat : List Int) : Nat → Nat → List Int × List Bool → (List Int × List Bool) × Nat
  | 0, iter_num, st => (st, iter_num)
  | k + 1, iter_num, st =>
    let st1 := omp_round add p n mat (sched iter_num) st
    if omp_has_change p st1.2 = false then (st1, iter_num + 1)
    else omp_loop add sched p n mat k (iter_num + 1) st1

/-- The detection scan of the OpenMP program (lines 148-159): the OR over all
pairs. -/
def omp_detect (add : Int → Int → Int) (n : Nat) (mat : List Int) (dist : List Int) :
    Bool :=
  (List.range n).foldl
    (fun acc u =>
      (List.range n).foldl (fun acc v => acc || can_relax add n mat dist u v) acc)
    false

/-- The OpenMP `bellman_ford(p, n, mat, dist, has_negative_cycle)` under the
schedule `sched`; the result is `(dist, has_negative_cycle)`.  The array
`local_has_change` starts with arbitrary contents, here `false`: every worker
writes its own entry before it is read. -/
def bellman_ford_omp (add : Int → Int → Int) (sched : Nat → List Step) (p n : Nat)
    (mat : List Int) : List Int × Bool :=
  let dist := (List.replicate n INF).set 0 0
  let r := omp_loop add sched p n mat (n - 1) 0 (dist, List.replicate p false)
  if r.2 = n - 1 then (r.1.1, omp_detect add n mat r.1.1) else (r.1.1, false)

/-- The pairs `(u, v)` visited by two nested loops, `u` in the outer one. -/
def pairs (us vs : List Nat) : List (Nat × Nat) :=
  us.flatMap (fun u => vs.map (fun v => (u, v)))

/-- The pairs scanned by worker `r` in one round, in the order of its loops. -/
def worker_pairs (p n r : Nat) : List (Nat × Nat) :=
  pairs (List.range n) (List.range' (local_start p n r) (local_end p n r - local_start p n r))

/-- A sequence of steps is a round of `p` workers when the steps of every worker
are the pairs of its two loops, in the order of the loops, every step belongs to
one of the workers, and a worker reads the current value of `dist[u]` for the
vertices `u` of its own range. -/
def ValidTrace (p n : Nat) (trace : List Step) : Prop :=
  (∀ r, r < p →
      (trace.filter (fun s => decide (s.rank = r))).map (fun s => (s.u, s.v)) =
        worker_pairs p n r) ∧
    ∀ s ∈ trace, s.rank < p ∧
      (local_start p n s.rank ≤ s.u → s.u < local_end p n s.rank → s.age = 0)

/-- A schedule is valid for `p` workers when each of its rounds is one. -/
def ValidSched (p n : Nat) (sched : Nat → List Step) : Prop :=
  ∀ iter, ValidTrace p n (sched iter)

/-- The round in which the workers run their scans one after another, in the
order `order`, each reading current values only. -/
def atomicTrace (p n : Nat) (order : List Nat) : List Step :=
  order.flatMap (fun r => (worker_pairs p n r).map (fun e => Step.mk r e.1 e.2 0))

/-- The schedule that runs the workers one after another in increasing order of
their ranks in every round. -/
def seqSched (p n : Nat) : Nat → List Step := fun _ => atomicTrace p n (List.range p)

/-- The schedule that runs the workers one after another in decreasing order of
their ranks in every round. -/
def revSched (p n : Nat) : Nat → List Step :=
  fun _ => atomicTrace p n (List.range p).reverse

/-- The schedule in which every read of another worker's `dist[u]` returns the
value at the last barrier. -/
def staleSched (p n : Nat) : Nat → List Step :=
  fun _ => (atomicTrace p n (List.range p)).map
    (fun s =>
      if local_start p n s.rank ≤ s.u ∧ s.u < local_end p n s.rank then s
      else Step.mk s.rank s.u s.v (n * n))

/-! ## Notions used to state the properties -/

/-- The matrix entry `mat[u * n + v]` read by the scans. -/
def W (n : Nat) (mat : List Int) (u v : Nat) : Int :=
  mat.getD (convert_dimension_2D_1D u v n) 0

/-- The effect of one execution of the inner loop body on the distance array
alone, `dist[u]` being read in `seen`. -/
def relax_seen (add : Int → Int → Int) (n : Nat) (mat : List Int) (seen d : List Int)
    (u v : Nat) : List Int :=
  if W n mat u v < INF ∧ add (seen.getD u 0) (W n mat u v) < d.getD v 0 then
    d.set v (add (seen.getD u 0) (W n mat u v))
  else d

/-- The effect of one execution of the serial inner loop body on the distance
array alone. -/
def relax_dist (add : Int → Int → Int) (n : Nat) (mat : List Int) (d : List Int)
    (e : Nat × Nat) : List Int :=
  relax_seen add n mat d d e.1 e.2

/-- The matrix is in range for the bound `B`: no entry is below `-B`, and `B`
times the number of sums of a run, `(n - 1) * n * n + 1`, is at most `2^31`, so
that no sum of a run leaves the range of `int`. -/
def InRange (n : Nat) (mat : List Int) (B : Int) : Prop :=
  0 ≤ B ∧ (∀ x ∈ mat, -B ≤ x) ∧ (((n - 1) * n * n + 1 : Nat) : Int) * B ≤ 2147483648

/-- The value `dist[u]` holds after initialisation. -/
def init (u : Nat) : Int := if u = 0 then 0 else INF

/-- The entries the scans treat as edges: those below `INF`. -/
def adjCode (n : Nat) (mat : List Int) : Nat → Nat → Prop :=
  fun u v => W n mat u v < INF

/-- The edges in the words of the specification: the entries other than the
sentinel. -/
def adjSpec (n : Nat) (mat : List Int) : Nat → Nat → Prop :=
  fun u v => W n mat u v ≠ INF

/-- A walk: a non-empty list of vertices below `n`, consecutive ones joined by
an edge. -/
def IsWalk (adj : Nat → Nat → Prop) (n : Nat) (p : List Nat) : Prop :=
  p ≠ [] ∧ (∀ x ∈ p, x < n) ∧ p.Chain' adj

/-- The total weight of the steps of a list of vertices. -/
def walkWeight (n : Nat) (mat : List Int) : List Nat → Int
  | a :: b :: rest => W n mat a b + walkWeight n mat (b :: rest)
  | _ => 0

/-- The list `p` is a walk from `u` to `v`. -/
def WalkFromTo (adj : Nat → Nat → Prop) (n u v : Nat) (p : List Nat) : Prop :=
  IsWalk adj n p ∧ p.head? = some u ∧ p.getLast? = some v

/-- A cycle: a walk with at least one edge that ends where it starts. -/
def IsCycle (adj : Nat → Nat → Prop) (n : Nat) (c : List Nat) : Prop :=
  IsWalk adj n c ∧ 2 ≤ c.length ∧ c.head? = c.getLast?

/-- A simple cycle: a cycle that visits no vertex twice, its base apart. -/
def IsSimpleCycle (adj : Nat → Nat → Prop) (n : Nat) (c : List Nat) : Prop :=
  IsCycle adj n c ∧ c.tail.Nodup

/-- Some cycle of the graph has a strictly negative total weight. -/
def HasNegCycle (adj : Nat → Nat → Prop) (n : Nat) (mat : List Int) : Prop :=
  ∃ c, IsCycle adj n c ∧ walkWeight n mat c < 0

/-- Some simple cycle of the graph has a strictly negative total weight. -/
def HasNegSimpleCycle (adj : Nat → Nat → Prop) (n : Nat) (mat : List Int) : Prop :=
  ∃ c, IsSimpleCycle adj n c ∧ walkWeight n mat c < 0

/-- Some cycle that can be reached from vertex 0 has a strictly negative total
weight: a walk leads from 0 to a vertex `x`, and a negative cycle runs from `x`
back to `x`. -/
def HasReachableNegCycle (adj : Nat → Nat → Prop) (n : Nat) (mat : List Int) : Prop :=
  ∃ p c x, WalkFromTo adj n 0 x p ∧ IsCycle adj n c ∧ c.head? = some x ∧
    walkWeight n mat c < 0

/-- Vertex `v` can be reached from vertex 0. -/
def Reachable (adj : Nat → Nat → Prop) (n v : Nat) : Prop :=
  ∃ p, WalkFromTo adj n 0 v p

/-- No pair can be relaxed over `d`, the sums being those of unbounded
integers. -/
def Stable (n : Nat) (mat : List Int) (d : List Int) : Prop :=
  ∀ a, a < n → ∀ b, b < n → W n mat a b < INF → d.getD b 0 ≤ d.getD a 0 + W n mat a b

/-- No pair passes the test of the scans over `d`. -/
def StableA (add : Int → Int → Int) (n : Nat) (mat : List Int) (d : List Int) : Prop :=
  ∀ a, a < n → ∀ b, b < n → W n mat a b < INF →
    ¬ add (d.getD a 0) (W n mat a b) < d.getD b 0

/-- Every entry of `d` is the initial distance of some vertex plus the weight
of a walk from that vertex. -/
def Witnessed (n : Nat) (mat : List Int) (d : List Int) : Prop :=
  ∀ v, v < n → ∃ u p, WalkFromTo (adjCode n mat) n u v p ∧
    d.getD v 0 = init u + walkWeight n mat p

/-- The array `d` is below every walk of at most `k` edges: no entry exceeds
the initial distance of a vertex plus the weight of such a walk from it. -/
def BelowWalks (n : Nat) (mat : List Int) (k : Nat) (d : List Int) : Prop :=
  ∀ u v p, WalkFromTo (adjCode n mat) n u v p → p.length ≤ k + 1 →
    d.getD v 0 ≤ init u + walkWeight n mat p

instance adjCode_decidable (n : Nat) (mat : List Int) : DecidableRel (adjCode n mat) :=
  fun u v => inferInstanceAs (Decidable (W n mat u v < INF))

instance adjSpec_decidable (n : Nat) (mat : List Int) : DecidableRel (adjSpec n mat) :=
  fun u v => inferInstanceAs (Decidable (W n mat u v ≠ INF))

/-- The weight `d` is the least total weight of a path (a walk that repeats no
vertex) from vertex 0 to `v`. -/
def IsLeastPathWeight (adj : Nat → Nat → Prop) (n : Nat) (mat : List Int) (v : Nat)
    (d : Int) : Prop :=
  (∃ p, WalkFromTo adj n 0 v p ∧ p.Nodup ∧ walkWeight n mat p = d) ∧
    ∀ q, WalkFromTo adj n 0 v q → q.Nodup → d ≤ walkWeight n mat q

/-- A line of the output file: a number or a text. -/
inductive Line where
  | num (x : Int)
  | text (s : String)
  deriving DecidableEq

/-- The function `utils::print_result`, as the list of the lines it writes for
a flag, a distance array and the vertex count `N`. -/
def print_result (has_negative_cycle : Bool) (dist : List Int) (N : Nat) : List Line :=
  if !has_negative_cycle then
    (List.range N).map
      (fun i => Line.num (if dist.getD i 0 > INF then INF else dist.getD i 0))
  else [Line.text "FOUND NEGATIVE CYCLE!"]

/-! ## Concrete inputs -/

/-- The scenario `N = 4` with the edges `0→1 = 2`, `1→2 = 2`, `2→3 = 2`. -/
def pathGraph4 : List Int :=
  [INF, 2, INF, INF,
   INF, INF, 2, INF,
   INF, INF, INF, 2,
   INF, INF, INF, INF]

/-- The scenario `N = 3` with the edges `0→1 = 1`, `1→2 = 1`, `2→0 = -3`. -/
def negCycle3 : List Int :=
  [INF, 1, INF,
   INF, INF, 1,
   -3, INF, INF]

/-- The scenario `N = 2` with no edge. -/
def noEdge2 : List Int := [INF, INF, INF, INF]

/-- Three vertices, `0→1 = 999999` and `1→2 = 5`: vertex 2 lies at distance
`1000004` from vertex 0. -/
def farGraph3 : List Int :=
  [INF, 999999, INF,
   INF, INF, 5,
   INF, INF, INF]

/-- Three vertices and the single edge `1→2 = -1`, out of reach of vertex 0. -/
def strayEdge3 : List Int :=
  [INF, INF, INF,
   INF, INF, -1,
   INF, INF, INF]

/-- Three vertices and the edges `1→2 = -1`, `2→1 = -1`: a negative cycle out
of reach of vertex 0. -/
def strayCycle3 : List Int :=
  [INF, INF, INF,
   INF, INF, -1,
   INF, -1, INF]

/-- Three vertices, `0→1 = -5` and the entry `W[1][2] = 1000001`, which is
above `INF`. -/
def overInf3 : List Int :=
  [INF, -5, INF,
   INF, INF, 1000001,
   INF, INF, INF]


/-- Two vertices and the edges `0→1 = -2000000000`, `1→0 = -2000000000`: a
negative cycle through vertex 0 whose weight does not fit in an `int`. -/
def overflow2 : List Int :=
  [INF, -2000000000,
   -2000000000, INF]

/-- Three vertices and the edges `0→1 = -2000000000`, `1→2 = -2000000000`: no
cycle, and a path whose weight does not fit in an `int`. -/
def deepGraph3 : List Int :=
  [INF, -2000000000, INF,
   INF, INF, -2000000000,
   INF, INF, INF]

/-- Two vertices and the single edge `1→0 = -1000001`, which leaves a vertex
out of reach of vertex 0. -/
def strayInto2 : List Int :=
  [INF, INF,
   -1000001, INF]

/-! ## Counting the scans -/

/-- The number of relaxation rounds the serial loop `relax_loop` executes
(lines 83-101): a round is counted, then the loop is left when the round has
changed nothing. -/
def relax_loop_rounds (add : Int → Int → Int) (n : Nat) (mat : List Int) :
    Nat → List Int → Nat
  | 0, _ => 0
  | k + 1, dist =>
    let r := relax_round add n mat dist
    if r.2 = false then 1 else 1 + relax_loop_rounds add n mat k r.1

/-- The scans of a run of the serial `bellman_ford`: the number of relaxation
rounds, and the number of detection scans (none after a return from inside the
loop, one otherwise). -/
def serial_scans (add : Int → Int → Int) (n : Nat) (mat : List Int) : Nat × Nat :=
  let dist := (List.replicate n INF).set 0 0
  (relax_loop_rounds add n mat (n - 1) dist,
    if (relax_loop add n mat (n - 1) dist).2 then 0 else 1)

/-- The scans of a run of the OpenMP `bellman_ford`: the final value of
`iter_num`, which counts the rounds, and the number of detection scans (one
when `iter_num == n - 1`, line 147, none otherwise). -/
def omp_scans (add : Int → Int → Int) (sched : Nat → List Step) (p n : Nat)
    (mat : List Int) : Nat × Nat :=
  let dist := (List.replicate n INF).set 0 0
  let r := omp_loop add sched p n mat (n - 1) 0 (dist, List.replicate p false)
  (r.2, if r.2 = n - 1 then 1 else 0)

/-- Every entry of `d` lies between `-c` and `INF`. -/
def Bounded (c : Int) (d : List Int) : Prop :=
  ∀ x, -c ≤ d.getD x 0 ∧ d.getD x 0 ≤ INF

/-- What holds of a state `(dist, local_has_change)` between two rounds of a run
with right sums: the sizes of the arrays, every distance is witnessed by a walk,
and no distance is above its initial value. -/
def RoundInv (p n : Nat) (mat : List Int) (st : List Int × List Bool) : Prop :=
  st.1.length = n ∧ st.2.length = p ∧ Witnessed n mat st.1 ∧
    ∀ u, u < n → st.1.getD u 0 ≤ init u

/-- What holds of a result `(dist, has_negative_cycle)` of a run with right
sums: the size of the array, every distance is witnessed by a walk, no distance
is above its initial value, the flag says that some pair can still be relaxed,
and without a negative cycle no pair can. -/
def Final (n : Nat) (mat : List Int) (r : List Int × Bool) : Prop :=
  r.1.length = n ∧ Witnessed n mat r.1 ∧ (∀ u, u < n → r.1.getD u 0 ≤ init u) ∧
    (r.2 = true ↔ ¬ Stable n mat r.1) ∧
    (¬ HasNegCycle (adjCode n mat) n mat → Stable n mat r.1)

end BellmanFord

open BellmanFord

/-! ## The addition -/

theorem exact_addZ : Exact addZ := fun _ _ _ _ => rfl

theorem exact_add32 : Exact add32 := by
  intro a b h1 h2
  unfold add32 wrap32
  rw [Int.emod_eq_of_lt (by omega) (by omega)]
  omega

/-! ## The distance array under relaxation -/

theorem getD_set_int (d : List Int) (i j : Nat) (a : Int) :
    (d.set i a).getD j 0 = if i = j ∧ i < d.length then a else d.getD j 0 := by
  simp only [List.getD_eq_getElem?_getD, List.getElem?_set]
  by_cases h : i = j
  · subst h
    by_cases h2 : i < d.length
    · simp [h2]
    · simp [h2, List.getElem?_eq_none (Nat.le_of_not_lt h2)]
  · simp [h]

theorem getD_set_bool (f : List Bool) (i j : Nat) (a : Bool) :
    (f.set i a).getD j false = if i = j ∧ i < f.length then a else f.getD j false := by
  simp only [List.getD_eq_getElem?_getD, List.getElem?_set]
  by_cases h : i = j
  · subst h
    by_cases h2 : i < f.length
    · simp [h2]
    · simp [h2, List.getElem?_eq_none (Nat.le_of_not_lt h2)]
  · simp [h]

theorem relax_seen_length (add : Int → Int → Int) (n : Nat) (mat : List Int)
    (seen d : List Int) (u v : Nat) : (relax_seen add n mat seen d u v).length = d.length := by
  unfold relax_seen
  split <;> simp

theorem relax_seen_le (add : Int → Int → Int) (n : Nat) (mat : List Int)
    (seen d : List Int) (u v x : Nat) :
    (relax_seen add n mat seen d u v).getD x 0 ≤ d.getD x 0 := by
  unfold relax_seen
  split
  · rename_i h
    rw [getD_set_int]
    split
    · rename_i h2
      rw [← h2.1]
      exact le_of_lt h.2
    · exact le_refl _
  · exact le_refl _

theorem relax_seen_frame (add : Int → Int → Int) (n : Nat) (mat : List Int)
    (seen d : List Int) (u v x : Nat) (hx : v ≠ x) :
    (relax_seen add n mat seen d u v).getD x 0 = d.getD x 0 := by
  unfold relax_seen
  split
  · rw [getD_set_int, if_neg (fun h => hx h.1)]
  · rfl

theorem relax_seen_edge (add : Int → Int → Int) (n : Nat) (mat : List Int)
    (seen d : List Int) (u v : Nat) (hv : v < d.length) (hw : W n mat u v < INF) :
    (relax_seen add n mat seen d u v).getD v 0 ≤ add (seen.getD u 0) (W n mat u v) := by
  unfold relax_seen
  by_cases h : add (seen.getD u 0) (W n mat u v) < d.getD v 0
  · rw [if_pos ⟨hw, h⟩, getD_set_int, if_pos ⟨rfl, hv⟩]
  · rw [if_neg (fun hh => h hh.2)]
    exact le_of_not_lt h

theorem relax_edge_fst (add : Int → Int → Int) (n : Nat) (mat : List Int)
    (st : List Int × Bool) (u v : Nat) :
    (relax_edge add n mat st u v).1 = relax_dist add n mat st.1 (u, v) := by
  unfold relax_edge relax_dist relax_seen W
  by_cases h1 : mat.getD (convert_dimension_2D_1D u v n) 0 < INF
  · by_cases h2 : add (st.1.getD u 0) (mat.getD (convert_dimension_2D_1D u v n) 0) <
        st.1.getD v 0
    · simp only [h1, h2, and_self, if_true]
    · simp only [h1, h2, and_false, if_true, if_false]
  · simp only [h1, false_and, if_false]

theorem omp_relax_seen_fst (add : Int → Int → Int) (n : Nat) (mat : List Int) (r : Nat)
    (seen : List Int) (st : List Int × List Bool) (u v : Nat) :
    (omp_relax_seen add n mat r seen st u v).1 = relax_seen add n mat seen st.1 u v := by
  unfold omp_relax_seen relax_seen W
  by_cases h1 : mat.getD (convert_dimension_2D_1D u v n) 0 < INF
  · by_cases h2 : add (seen.getD u 0) (mat.getD (convert_dimension_2D_1D u v n) 0) <
        st.1.getD v 0
    · simp only [h1, h2, and_self, if_true]
    · simp only [h1, h2, and_false, if_true, if_false]
  · simp only [h1, false_and, if_false]

theorem omp_relax_eq_seen (add : Int → Int → Int) (n : Nat) (mat : List Int) (r : Nat)
    (st : List Int × List Bool) (u v : Nat) :
    omp_relax add n mat r st u v = omp_relax_seen add n mat r st.1 st u v := rfl

theorem omp_relax_fst (add : Int → Int → Int) (n : Nat) (mat : List Int) (r : Nat)
    (st : List Int × List Bool) (u v : Nat) :
    (omp_relax add n mat r st u v).1 = relax_dist add n mat st.1 (u, v) := by
  rw [omp_relax_eq_seen, omp_relax_seen_fst]
  rfl

theorem relax_dist_length (add : Int → Int → Int) (n : Nat) (mat : List Int) (d : List Int)
    (e : Nat × Nat) : (relax_dist add n mat d e).length = d.length :=
  relax_seen_length add n mat d d e.1 e.2

theorem relax_dist_le (add : Int → Int → Int) (n : Nat) (mat : List Int) (d : List Int)
    (e : Nat × Nat) (x : Nat) : (relax_dist add n mat d e).getD x 0 ≤ d.getD x 0 :=
  relax_seen_le add n mat d d e.1 e.2 x

theorem relax_dist_frame (add : Int → Int → Int) (n : Nat) (mat : List Int) (d : List Int)
    (e : Nat × Nat) (x : Nat) (hx : e.2 ≠ x) :
    (relax_dist add n mat d e).getD x 0 = d.getD x 0 :=
  relax_seen_frame add n mat d d e.1 e.2 x hx

theorem foldl_relax_length (add : Int → Int → Int) (n : Nat) (mat : List Int)
    (L : List (Nat × Nat)) (d : List Int) :
    (L.foldl (relax_dist add n mat) d).length = d.length := by
  induction L generalizing d with
  | nil => rfl
  | cons e L ih => rw [List.foldl_cons, ih, relax_dist_length]

theorem foldl_relax_le (add : Int → Int → Int) (n : Nat) (mat : List Int)
    (L : List (Nat × Nat)) (d : List Int) (x : Nat) :
    (L.foldl (relax_dist add n mat) d).getD x 0 ≤ d.getD x 0 := by
  induction L generalizing d with
  | nil => exact le_refl _
  | cons e L ih =>
    rw [List.foldl_cons]
    exact le_trans (ih _) (relax_dist_le add n mat d e x)

theorem foldl_relax_frame (add : Int → Int → Int) (n : Nat) (mat : List Int)
    (L : List (Nat × Nat)) (d : List Int) (x : Nat) (hx : ∀ e ∈ L, e.2 ≠ x) :
    (L.foldl (relax_dist add n mat) d).getD x 0 = d.getD x 0 := by
  induction L generalizing d with
  | nil => rfl
  | cons e L ih =>
    rw [List.foldl_cons, ih _ (fun e2 he2 => hx e2 (List.mem_cons_of_mem _ he2))]
    exact relax_dist_frame add n mat d e x (hx e (List.mem_cons_self _ _))

/-! ## Nested loops as one scan of a list of pairs -/

theorem foldl_pairs {σ : Type} (g : σ → Nat → Nat → σ) (us vs : List Nat) (s : σ) :
    us.foldl (fun st u => vs.foldl (fun st v => g st u v) st) s =
      (pairs us vs).foldl (fun st e => g st e.1 e.2) s := by
  induction us generalizing s with
  | nil => rfl
  | cons u us ih =>
    have hp : pairs (u :: us) vs = vs.map (fun v => (u, v)) ++ pairs us vs := by
      simp [pairs]
    rw [hp, List.foldl_append, List.foldl_cons, ih, List.foldl_map]

theorem mem_pairs (us vs : List Nat) (a b : Nat) :
    (a, b) ∈ pairs us vs ↔ a ∈ us ∧ b ∈ vs := by
  simp [pairs]

theorem pairs_length (us vs : List Nat) : (pairs us vs).length = us.length * vs.length := by
  induction us with
  | nil => simp [pairs]
  | cons u us ih =>
    have hp : pairs (u :: us) vs = vs.map (fun v => (u, v)) ++ pairs us vs := by
      simp [pairs]
    rw [hp, List.length_append, ih, List.length_map, List.length_cons, Nat.succ_mul,
      Nat.add_comm]

theorem foldl_relax_edge_fst (add : Int → Int → Int) (n : Nat) (mat : List Int)
    (L : List (Nat × Nat)) (s : List Int × Bool) :
    (L.foldl (fun st e => relax_edge add n mat st e.1 e.2) s).1 =
      L.foldl (relax_dist add n mat) s.1 := by
  induction L generalizing s with
  | nil => rfl
  | cons e L ih => rw [List.foldl_cons, List.foldl_cons, ih, relax_edge_fst]

theorem foldl_omp_relax_fst (add : Int → Int → Int) (n : Nat) (mat : List Int) (r : Nat)
    (L : List (Nat × Nat)) (s : List Int × List Bool) :
    (L.foldl (fun st e => omp_relax add n mat r st e.1 e.2) s).1 =
      L.foldl (relax_dist add n mat) s.1 := by
  induction L generalizing s with
  | nil => rfl
  | cons e L ih => rw [List.foldl_cons, List.foldl_cons, ih, omp_relax_fst]

/-! ## The change flag of the serial program -/

theorem relax_edge_unchanged (add : Int → Int → Int) (n : Nat) (mat : List Int)
    (st : List Int × Bool) (u v : Nat) (h : (relax_edge add n mat st u v).2 = false) :
    relax_edge add n mat st u v = st ∧
      ¬ (W n mat u v < INF ∧ add (st.1.getD u 0) (W n mat u v) < st.1.getD v 0) := by
  unfold relax_edge at h
  unfold relax_edge W
  by_cases h1 : mat.getD (convert_dimension_2D_1D u v n) 0 < INF
  · by_cases h2 : add (st.1.getD u 0) (mat.getD (convert_dimension_2D_1D u v n) 0) <
        st.1.getD v 0
    · simp only [h1, h2, if_true] at h
      exact absurd h Bool.noConfusion
    · simp only [h1, h2, if_true, if_false, and_false, not_false_eq_true, and_self]
  · simp only [h1, if_false, false_and, not_false_eq_true, and_self]

/-- A scan of the serial loop body that ends with a clear flag has changed
nothing, and none of its pairs passes the test. -/
theorem foldl_relax_edge_unchanged (add : Int → Int → Int) (n : Nat) (mat : List Int)
    (L : List (Nat × Nat)) (s : List Int × Bool)
    (h : (L.foldl (fun st e => relax_edge add n mat st e.1 e.2) s).2 = false) :
    L.foldl (fun st e => relax_edge add n mat st e.1 e.2) s = s ∧
      ∀ e ∈ L, ¬ (W n mat e.1 e.2 < INF ∧
        add (s.1.getD e.1 0) (W n mat e.1 e.2) < s.1.getD e.2 0) := by
  induction L generalizing s with
  | nil => exact ⟨rfl, fun e he => absurd he (List.not_mem_nil e)⟩
  | cons e L ih =>
    rw [List.foldl_cons] at h ⊢
    obtain ⟨h1, h2⟩ := ih _ h
    rw [h1] at h
    obtain ⟨h3, h4⟩ := relax_edge_unchanged add n mat s e.1 e.2 h
    rw [h3] at h2
    refine ⟨by rw [h1, h3], ?_⟩
    intro e2 he2
    rcases List.mem_cons.1 he2 with he | he
    · rw [he]
      exact h4
    · exact h2 e2 he

/-! ## The partition of the vertices -/

theorem local_start_le_end (p n i : Nat) (hi : i < p) :
    local_start p n i ≤ local_end p n i := by
  unfold local_start local_end
  split
  · rename_i h
    subst h
    calc n / p * (p - 1) ≤ n / p * p := Nat.mul_le_mul_left _ (Nat.sub_le p 1)
      _ ≤ n := Nat.div_mul_le_self n p
  · exact Nat.mul_le_mul_left _ (Nat.le_succ i)

theorem local_end_le (p n i : Nat) (hi : i < p) : local_end p n i ≤ n := by
  unfold local_end
  split
  · exact le_refl n
  · calc n / p * (i + 1) ≤ n / p * p := Nat.mul_le_mul_left _ hi
      _ ≤ n := Nat.div_mul_le_self n p

theorem local_end_le_start (p n i j : Nat) (hij : i < j) (hj : j < p) :
    local_end p n i ≤ local_start p n j := by
  unfold local_start local_end
  rw [if_neg (by omega)]
  exact Nat.mul_le_mul_left _ hij

theorem partition_cover (p n v : Nat) (hp : 1 ≤ p) (hv : v < n) :
    ∃ i, i < p ∧ local_start p n i ≤ v ∧ v < local_end p n i := by
  by_cases hlt : 0 < n / p ∧ v / (n / p) < p - 1
  · obtain ⟨hpos, hlt⟩ := hlt
    refine ⟨v / (n / p), by omega, ?_, ?_⟩
    · unfold local_start
      exact Nat.mul_div_le v (n / p)
    · unfold local_end
      rw [if_neg (by omega)]
      exact Nat.lt_mul_div_succ v hpos
  · refine ⟨p - 1, by omega, ?_, ?_⟩
    · unfold local_start
      rcases Nat.eq_zero_or_pos (n / p) with h0 | h0
      · rw [h0]
        simp
      · have hge : p - 1 ≤ v / (n / p) := by
          by_contra hc
          exact hlt ⟨h0, Nat.lt_of_not_le hc⟩
        calc n / p * (p - 1) ≤ n / p * (v / (n / p)) := Nat.mul_le_mul_left _ hge
          _ ≤ v := Nat.mul_div_le v (n / p)
    · unfold local_end
      rw [if_pos rfl]
      exact hv

theorem mem_worker_pairs (p n r a b : Nat) :
    (a, b) ∈ worker_pairs p n r ↔
      a < n ∧ local_start p n r ≤ b ∧ b < local_end p n r := by
  unfold worker_pairs
  rw [mem_pairs, List.mem_range, List.mem_range'_1]
  constructor
  · rintro ⟨h1, h2, h3⟩
    exact ⟨h1, h2, by omega⟩
  · rintro ⟨h1, h2, h3⟩
    exact ⟨h1, h2, by omega⟩

theorem worker_pairs_length (p n r : Nat) :
    (worker_pairs p n r).length = n * (local_end p n r - local_start p n r) := by
  unfold worker_pairs
  rw [pairs_length, List.length_range, List.length_range']

theorem worker_pairs_lt (p n r a b : Nat) (hr : r < p) (h : (a, b) ∈ worker_pairs p n r) :
    a < n ∧ b < n := by
  obtain ⟨h1, _, h3⟩ := (mem_worker_pairs p n r a b).1 h
  exact ⟨h1, lt_of_lt_of_le h3 (local_end_le p n r hr)⟩

/-! ## A worker's scan run alone -/

theorem omp_relax_flags_length (add : Int → Int → Int) (n : Nat) (mat : List Int) (r : Nat)
    (st : List Int × List Bool) (u v : Nat) :
    (omp_relax add n mat r st u v).2.length = st.2.length := by
  unfold omp_relax
  by_cases h1 : mat.getD (convert_dimension_2D_1D u v n) 0 < INF
  · by_cases h2 : add (st.1.getD u 0) (mat.getD (convert_dimension_2D_1D u v n) 0) <
        st.1.getD v 0
    · simp only [h1, h2, if_true, List.length_set]
    · simp only [h1, h2, if_true, if_false]
  · simp only [h1, if_false]

theorem omp_relax_other (add : Int → Int → Int) (n : Nat) (mat : List Int) (r : Nat)
    (st : List Int × List Bool) (u v r2 : Nat) (hne : r2 ≠ r) :
    (omp_relax add n mat r st u v).2.getD r2 false = st.2.getD r2 false := by
  unfold omp_relax
  by_cases h1 : mat.getD (convert_dimension_2D_1D u v n) 0 < INF
  · by_cases h2 : add (st.1.getD u 0) (mat.getD (convert_dimension_2D_1D u v n) 0) <
        st.1.getD v 0
    · simp only [h1, h2, if_true, getD_set_bool]
      rw [if_neg]
      intro h
      exact hne h.1.symm
    · simp only [h1, h2, if_true, if_false]
  · simp only [h1, if_false]

theorem foldl_omp_relax_flags_length (add : Int → Int → Int) (n : Nat) (mat : List Int)
    (r : Nat) (L : List (Nat × Nat)) (s : List Int × List Bool) :
    (L.foldl (fun st e => omp_relax add n mat r st e.1 e.2) s).2.length = s.2.length := by
  induction L generalizing s with
  | nil => rfl
  | cons e L ih => rw [List.foldl_cons, ih, omp_relax_flags_length]

theorem foldl_omp_relax_other (add : Int → Int → Int) (n : Nat) (mat : List Int) (r : Nat)
    (L : List (Nat × Nat)) (s : List Int × List Bool) (r2 : Nat) (hne : r2 ≠ r) :
    (L.foldl (fun st e => omp_relax add n mat r st e.1 e.2) s).2.getD r2 false =
      s.2.getD r2 false := by
  induction L generalizing s with
  | nil => rfl
  | cons e L ih => rw [List.foldl_cons, ih, omp_relax_other add n mat r s e.1 e.2 r2 hne]

theorem omp_phase1_eq (add : Int → Int → Int) (p n : Nat) (mat : List Int) (r : Nat)
    (st : List Int × List Bool) :
    omp_phase1 add p n mat r st =
      (worker_pairs p n r).foldl (fun st e => omp_relax add n mat r st e.1 e.2)
        (st.1, st.2.set r false) := by
  unfold omp_phase1 worker_pairs
  exact foldl_pairs (fun st u v => omp_relax add n mat r st u v) _ _ _

theorem omp_phase1_fst (add : Int → Int → Int) (p n : Nat) (mat : List Int) (r : Nat)
    (st : List Int × List Bool) :
    (omp_phase1 add p n mat r st).1 =
      (worker_pairs p n r).foldl (relax_dist add n mat) st.1 := by
  rw [omp_phase1_eq, foldl_omp_relax_fst]

theorem omp_phase1_flags_length (add : Int → Int → Int) (p n : Nat) (mat : List Int)
    (r : Nat) (st : List Int × List Bool) :
    (omp_phase1 add p n mat r st).2.length = st.2.length := by
  rw [omp_phase1_eq, foldl_omp_relax_flags_length]
  simp

theorem omp_phase1_other (add : Int → Int → Int) (p n : Nat) (mat : List Int) (r : Nat)
    (st : List Int × List Bool) (r2 : Nat) (hne : r2 ≠ r) :
    (omp_phase1 add p n mat r st).2.getD r2 false = st.2.getD r2 false := by
  rw [omp_phase1_eq, foldl_omp_relax_other add n mat r _ _ r2 hne]
  simp only [getD_set_bool]
  rw [if_neg]
  intro h
  exact hne h.1.symm

/-! ## The steps of a round -/

theorem hist_getD_mem (hist : List (List Int)) (k : Nat) (hne : hist ≠ []) :
    hist.getD k (hist.getLastD []) ∈ hist := by
  rw [List.getD_eq_getElem?_getD]
  cases h : hist[k]? with
  | some d =>
    simp only [Option.getD_some]
    exact List.getElem?_mem h
  | none =>
    simp only [Option.getD_none]
    rw [List.getLastD_eq_getLast?, List.getLast?_eq_getLast hist hne]
    exact List.getLast_mem hne

theorem hist_headD_mem (hist : List (List Int)) (hne : hist ≠ []) : hist.headD [] ∈ hist := by
  cases hist with
  | nil => exact absurd rfl hne
  | cons d hist => exact List.mem_cons_self _ _

theorem omp_step_hist (add : Int → Int → Int) (n : Nat) (mat : List Int)
    (st : List (List Int) × List Bool) (s : Step) :
    (omp_step add n mat st s).1 =
      relax_seen add n mat (st.1.getD s.age (st.1.getLastD [])) (st.1.headD []) s.u s.v ::
        st.1 := by
  unfold omp_step
  simp only
  rw [omp_relax_seen_fst]

theorem omp_relax_seen_flags (add : Int → Int → Int) (n : Nat) (mat : List Int) (r : Nat)
    (seen : List Int) (st : List Int × List Bool) (u v : Nat) :
    (omp_relax_seen add n mat r seen st u v).2 =
      if W n mat u v < INF ∧ add (seen.getD u 0) (W n mat u v) < st.1.getD v 0 then
        st.2.set r true
      else st.2 := by
  unfold omp_relax_seen W
  by_cases h1 : mat.getD (convert_dimension_2D_1D u v n) 0 < INF
  · by_cases h2 : add (seen.getD u 0) (mat.getD (convert_dimension_2D_1D u v n) 0) <
        st.1.getD v 0
    · simp only [h1, h2, and_self, if_true]
    · simp only [h1, h2, and_false, if_true, if_false]
  · simp only [h1, false_and, if_false]

theorem omp_step_flags (add : Int → Int → Int) (n : Nat) (mat : List Int)
    (st : List (List Int) × List Bool) (s : Step) :
    (omp_step add n mat st s).2 =
      if W n mat s.u s.v < INF ∧
          add ((st.1.getD s.age (st.1.getLastD [])).getD s.u 0) (W n mat s.u s.v) <
            (st.1.headD []).getD s.v 0 then
        st.2.set s.rank true
      else st.2 := by
  unfold omp_step
  simp only
  rw [omp_relax_seen_flags]

theorem omp_step_flags_length (add : Int → Int → Int) (n : Nat) (mat : List Int)
    (st : List (List Int) × List Bool) (s : Step) :
    (omp_step add n mat st s).2.length = st.2.length := by
  rw [omp_step_flags]
  split <;> simp

theorem omp_step_flags_true (add : Int → Int → Int) (n : Nat) (mat : List Int)
    (st : List (List Int) × List Bool) (s : Step) (r : Nat)
    (h : st.2.getD r false = true) : (omp_step add n mat st s).2.getD r false = true := by
  rw [omp_step_flags]
  split
  · rw [getD_set_bool]
    split
    · rfl
    · exact h
  · exact h

theorem omp_step_flags_other (add : Int → Int → Int) (n : Nat) (mat : List Int)
    (st : List (List Int) × List Bool) (s : Step) (r : Nat) (hne : r ≠ s.rank) :
    (omp_step add n mat st s).2.getD r false = st.2.getD r false := by
  rw [omp_step_flags]
  split
  · rw [getD_set_bool, if_neg (fun h => hne h.1.symm)]
  · rfl

theorem trace_flags_length (add : Int → Int → Int) (n : Nat) (mat : List Int)
    (trace : List Step) (st : List (List Int) × List Bool) :
    (trace.foldl (omp_step add n mat) st).2.length = st.2.length := by
  induction trace generalizing st with
  | nil => rfl
  | cons s trace ih => rw [List.foldl_cons, ih, omp_step_flags_length]

theorem trace_flags_true (add : Int → Int → Int) (n : Nat) (mat : List Int)
    (trace : List Step) (st : List (List Int) × List Bool) (r : Nat)
    (h : st.2.getD r false = true) :
    (trace.foldl (omp_step add n mat) st).2.getD r false = true := by
  induction trace generalizing st with
  | nil => exact h
  | cons s trace ih =>
    rw [List.foldl_cons]
    exact ih _ (omp_step_flags_true add n mat st s r h)

theorem trace_flags_other (add : Int → Int → Int) (n : Nat) (mat : List Int)
    (trace : List Step) (st : List (List Int) × List Bool) (r : Nat)
    (hne : ∀ s ∈ trace, r ≠ s.rank) :
    (trace.foldl (omp_step add n mat) st).2.getD r false = st.2.getD r false := by
  induction trace generalizing st with
  | nil => rfl
  | cons s trace ih =>
    rw [List.foldl_cons, ih _ (fun s2 h2 => hne s2 (List.mem_cons_of_mem _ h2))]
    exact omp_step_flags_other add n mat st s r (hne s (List.mem_cons_self _ _))

/-- A property of distance arrays that every step keeps holds of all the arrays
of a round. -/
theorem trace_hist_inv (add : Int → Int → Int) (n : Nat) (mat : List Int)
    (P : List Int → Prop) (trace : List Step)
    (hP : ∀ s ∈ trace, ∀ seen cur, P seen → P cur →
      P (relax_seen add n mat seen cur s.u s.v))
    (st : List (List Int) × List Bool) (hne : st.1 ≠ []) (h : ∀ d ∈ st.1, P d) :
    (trace.foldl (omp_step add n mat) st).1 ≠ [] ∧
      ∀ d ∈ (trace.foldl (omp_step add n mat) st).1, P d := by
  induction trace generalizing st with
  | nil => exact ⟨hne, h⟩
  | cons s trace ih =>
    rw [List.foldl_cons]
    apply ih (fun s2 h2 => hP s2 (List.mem_cons_of_mem _ h2))
    · rw [omp_step_hist]
      exact List.cons_ne_nil _ _
    · intro d hd
      rw [omp_step_hist] at hd
      rcases List.mem_cons.1 hd with h1 | h1
      · rw [h1]
        exact hP s (List.mem_cons_self _ _) _ _ (h _ (hist_getD_mem st.1 s.age hne))
          (h _ (hist_headD_mem st.1 hne))
      · exact h d h1

theorem trace_head_le (add : Int → Int → Int) (n : Nat) (mat : List Int)
    (trace : List Step) (st : List (List Int) × List Bool) (x : Nat) :
    ((trace.foldl (omp_step add n mat) st).1.headD []).getD x 0 ≤
      (st.1.headD []).getD x 0 := by
  induction trace generalizing st with
  | nil => exact le_refl _
  | cons s trace ih =>
    rw [List.foldl_cons]
    refine le_trans (ih _) ?_
    rw [omp_step_hist, List.headD_cons]
    exact relax_seen_le add n mat _ _ s.u s.v x

theorem trace_head_length (add : Int → Int → Int) (n : Nat) (mat : List Int)
    (trace : List Step) (st : List (List Int) × List Bool) :
    ((trace.foldl (omp_step add n mat) st).1.headD []).length = (st.1.headD []).length := by
  induction trace generalizing st with
  | nil => rfl
  | cons s trace ih =>
    rw [List.foldl_cons, ih, omp_step_hist, List.headD_cons, relax_seen_length]

theorem trace_head_frame (add : Int → Int → Int) (n : Nat) (mat : List Int)
    (trace : List Step) (st : List (List Int) × List Bool) (x : Nat)
    (hx : ∀ s ∈ trace, s.v ≠ x) :
    ((trace.foldl (omp_step add n mat) st).1.headD []).getD x 0 =
      (st.1.headD []).getD x 0 := by
  induction trace generalizing st with
  | nil => rfl
  | cons s trace ih =>
    rw [List.foldl_cons, ih _ (fun s2 h2 => hx s2 (List.mem_cons_of_mem _ h2)),
      omp_step_hist, List.headD_cons]
    exact relax_seen_frame add n mat _ _ s.u s.v x (hx s (List.mem_cons_self _ _))

/-- A round whose steps leave the flags of their workers clear has changed
nothing, and none of its pairs passes the test. -/
theorem trace_unchanged (add : Int → Int → Int) (n : Nat) (mat : List Int) (d : List Int)
    (trace : List Step) (st : List (List Int) × List Bool) (hne : st.1 ≠ [])
    (hall : ∀ x ∈ st.1, x = d) (hlen : ∀ s ∈ trace, s.rank < st.2.length)
    (h : ∀ s ∈ trace, (trace.foldl (omp_step add n mat) st).2.getD s.rank false = false) :
    (trace.foldl (omp_step add n mat) st).1.headD [] = d ∧
      ∀ s ∈ trace, ¬ (W n mat s.u s.v < INF ∧
        add (d.getD s.u 0) (W n mat s.u s.v) < d.getD s.v 0) := by
  induction trace generalizing st with
  | nil => exact ⟨hall _ (hist_headD_mem st.1 hne), fun s hs => absurd hs (List.not_mem_nil s)⟩
  | cons s trace ih =>
    rw [List.foldl_cons] at h ⊢
    have hseen : st.1.getD s.age (st.1.getLastD []) = d := hall _ (hist_getD_mem st.1 s.age hne)
    have hcur : st.1.headD [] = d := hall _ (hist_headD_mem st.1 hne)
    have hs : (omp_step add n mat st s).2.getD s.rank false = false := by
      cases hb : (omp_step add n mat st s).2.getD s.rank false
      · rfl
      · have := trace_flags_true add n mat trace _ s.rank hb
        rw [h s (List.mem_cons_self _ _)] at this
        exact absurd this Bool.noConfusion
    have htest : ¬ (W n mat s.u s.v < INF ∧
        add (d.getD s.u 0) (W n mat s.u s.v) < d.getD s.v 0) := by
      intro hc
      rw [omp_step_flags, hseen, hcur, if_pos hc, getD_set_bool,
        if_pos ⟨rfl, hlen s (List.mem_cons_self _ _)⟩] at hs
      exact absurd hs Bool.noConfusion
    have hst1 : (omp_step add n mat st s).1 = d :: st.1 := by
      rw [omp_step_hist, hseen, hcur]
      unfold relax_seen
      rw [if_neg htest]
    obtain ⟨h1, h2⟩ := ih (omp_step add n mat st s)
      (by rw [hst1]; exact List.cons_ne_nil _ _)
      (by
        intro x hx
        rw [hst1] at hx
        rcases List.mem_cons.1 hx with hx | hx
        · exact hx
        · exact hall x hx)
      (by
        intro s2 hs2
        rw [omp_step_flags_length]
        exact hlen s2 (List.mem_cons_of_mem _ hs2))
      (fun s2 hs2 => h s2 (List.mem_cons_of_mem _ hs2))
    refine ⟨h1, ?_⟩
    intro s2 hs2
    rcases List.mem_cons.1 hs2 with he | he
    · rw [he]
      exact htest
    · exact h2 s2 he

/-! ## The flags of a round -/

theorem clear_flags_succ (p : Nat) (flags : List Bool) :
    clear_flags (p + 1) flags = (clear_flags p flags).set p false := by
  unfold clear_flags
  rw [List.range_succ, List.foldl_append]
  rfl

theorem clear_flags_length (p : Nat) (flags : List Bool) :
    (clear_flags p flags).length = flags.length := by
  induction p with
  | zero => rfl
  | succ p ih => rw [clear_flags_succ, List.length_set, ih]

theorem clear_flags_getD (p : Nat) (flags : List Bool) (r : Nat) (hr : r < p) :
    (clear_flags p flags).getD r false = false := by
  induction p with
  | zero => exact absurd hr (Nat.not_lt_zero r)
  | succ p ih =>
    rw [clear_flags_succ, getD_set_bool]
    by_cases h : p = r ∧ p < (clear_flags p flags).length
    · rw [if_pos h]
    · rw [if_neg h]
      by_cases hp : r < p
      · exact ih hp
      · have hrp : r = p := by omega
        subst hrp
        have hlen : (clear_flags r flags).length ≤ r := by
          by_contra hc
          exact h ⟨rfl, Nat.lt_of_not_le hc⟩
        exact List.getD_eq_default _ _ hlen

theorem foldl_or_eq (f : Nat → Bool) (L : List Nat) (b : Bool) :
    L.foldl (fun acc x => acc || f x) b = (b || L.any f) := by
  induction L generalizing b with
  | nil => simp
  | cons x L ih =>
    rw [List.foldl_cons, ih, List.any_cons, Bool.or_assoc]

theorem omp_has_change_eq (p : Nat) (flags : List Bool) :
    omp_has_change p flags = (List.range p).any (fun r => flags.getD r false) := by
  unfold omp_has_change
  rw [foldl_or_eq, Bool.false_or]

theorem omp_has_change_false (p : Nat) (flags : List Bool)
    (h : omp_has_change p flags = false) : ∀ r, r < p → flags.getD r false = false := by
  rw [omp_has_change_eq, List.any_eq_false] at h
  intro r hr
  have := h r (List.mem_range.2 hr)
  simpa using this

/-- When every flag but that of worker `q` is clear, the OR of the flags is the
flag of worker `q`. -/
theorem omp_has_change_single (p q : Nat) (flags : List Bool) (hq : q < p)
    (h : ∀ r, r < p → r ≠ q → flags.getD r false = false) :
    omp_has_change p flags = flags.getD q false := by
  rw [omp_has_change_eq]
  cases hb : flags.getD q false
  · rw [List.any_eq_false]
    intro r hr
    by_cases hrq : r = q
    · rw [hrq, hb]
      exact Bool.noConfusion
    · rw [h r (List.mem_range.1 hr) hrq]
      exact Bool.noConfusion
  · rw [List.any_eq_true]
    exact ⟨q, List.mem_range.2 hq, hb⟩

/-! ## Valid rounds -/

theorem validTrace_step (p n : Nat) (trace : List Step) (hv : ValidTrace p n trace)
    (s : Step) (hs : s ∈ trace) :
    s.rank < p ∧ s.u < n ∧ s.v < n ∧
      local_start p n s.rank ≤ s.v ∧ s.v < local_end p n s.rank := by
  have hr := (hv.2 s hs).1
  have hmem : (s.u, s.v) ∈
      (trace.filter (fun t => decide (t.rank = s.rank))).map (fun t => (t.u, t.v)) :=
    List.mem_map.2 ⟨s, List.mem_filter.2 ⟨hs, by simp⟩, rfl⟩
  rw [hv.1 s.rank hr] at hmem
  obtain ⟨h1, h2, h3⟩ := (mem_worker_pairs p n s.rank s.u s.v).1 hmem
  exact ⟨hr, h1, lt_of_lt_of_le h3 (local_end_le p n s.rank hr), h2, h3⟩

theorem validTrace_mem (p n : Nat) (trace : List Step) (hv : ValidTrace p n trace)
    (hp : 1 ≤ p) (a b : Nat) (ha : a < n) (hb : b < n) :
    ∃ s, s ∈ trace ∧ s.u = a ∧ s.v = b := by
  obtain ⟨r, hr, h1, h2⟩ := partition_cover p n b hp hb
  have hmem : (a, b) ∈ worker_pairs p n r := (mem_worker_pairs p n r a b).2 ⟨ha, h1, h2⟩
  rw [← hv.1 r hr] at hmem
  obtain ⟨s, hs, he⟩ := List.mem_map.1 hmem
  refine ⟨s, (List.mem_filter.1 hs).1, ?_, ?_⟩
  · exact congrArg Prod.fst he
  · exact congrArg Prod.snd he

theorem length_eq_sum_filter (p : Nat) (l : List Step) (h : ∀ s ∈ l, s.rank < p) :
    l.length =
      ∑ r ∈ Finset.range p, (l.filter (fun s => decide (s.rank = r))).length := by
  induction l with
  | nil => simp
  | cons s l ih =>
    have hs := h s (List.mem_cons_self _ _)
    have e : ∀ r, ((s :: l).filter (fun t => decide (t.rank = r))).length =
        (l.filter (fun t => decide (t.rank = r))).length + (if s.rank = r then 1 else 0) := by
      intro r
      by_cases hr : s.rank = r
      · simp [List.filter_cons, hr]
      · simp [List.filter_cons, hr]
    simp only [e]
    rw [Finset.sum_add_distrib, ← ih (fun t ht => h t (List.mem_cons_of_mem _ ht)),
      Finset.sum_ite_eq, if_pos (Finset.mem_range.2 hs), List.length_cons]

theorem sum_range_sizes (p n : Nat) (hp : 1 ≤ p) :
    ∑ r ∈ Finset.range p, (local_end p n r - local_start p n r) = n := by
  obtain ⟨q, rfl⟩ : ∃ q, p = q + 1 := ⟨p - 1, by omega⟩
  rw [Finset.sum_range_succ]
  have h1 : ∀ r ∈ Finset.range q,
      local_end (q + 1) n r - local_start (q + 1) n r = n / (q + 1) := by
    intro r hr
    have hrq := Finset.mem_range.1 hr
    unfold local_end local_start
    rw [if_neg (by omega), Nat.mul_succ]
    exact Nat.add_sub_cancel_left _ _
  rw [Finset.sum_congr rfl h1, Finset.sum_const, Finset.card_range, smul_eq_mul]
  have h2 : local_end (q + 1) n q = n := by simp [local_end]
  have h3 : local_start (q + 1) n q = n / (q + 1) * q := rfl
  have h4 : n / (q + 1) * q ≤ n :=
    le_trans (Nat.mul_le_mul_left _ (Nat.le_succ q)) (Nat.div_mul_le_self n (q + 1))
  rw [h2, h3, Nat.mul_comm q]
  omega

theorem validTrace_length (p n : Nat) (trace : List Step) (hv : ValidTrace p n trace)
    (hp : 1 ≤ p) : trace.length = n * n := by
  rw [length_eq_sum_filter p trace (fun s hs => (hv.2 s hs).1)]
  have h1 : ∀ r ∈ Finset.range p,
      (trace.filter (fun s => decide (s.rank = r))).length =
        n * (local_end p n r - local_start p n r) := by
    intro r hr
    rw [← worker_pairs_length, ← hv.1 r (Finset.mem_range.1 hr), List.length_map]
  rw [Finset.sum_congr rfl h1, ← Finset.mul_sum, sum_range_sizes p n hp]

/-! ## One round of the OpenMP program -/

theorem omp_round_le (add : Int → Int → Int) (p n : Nat) (mat : List Int)
    (trace : List Step) (st : List Int × List Bool) (x : Nat) :
    (omp_round add p n mat trace st).1.getD x 0 ≤ st.1.getD x 0 :=
  trace_head_le add n mat trace ([st.1], clear_flags p st.2) x

theorem omp_round_length (add : Int → Int → Int) (p n : Nat) (mat : List Int)
    (trace : List Step) (st : List Int × List Bool) :
    (omp_round add p n mat trace st).1.length = st.1.length :=
  trace_head_length add n mat trace ([st.1], clear_flags p st.2)

theorem omp_round_flags_length (add : Int → Int → Int) (p n : Nat) (mat : List Int)
    (trace : List Step) (st : List Int × List Bool) :
    (omp_round add p n mat trace st).2.length = st.2.length := by
  unfold omp_round
  simp only
  rw [trace_flags_length, clear_flags_length]

/-- A round that ends with all flags clear has changed nothing, and no pair
passes the test over its array. -/
theorem omp_round_no_change (add : Int → Int → Int) (p n : Nat) (mat : List Int)
    (trace : List Step) (st : List Int × List Bool) (hp : 1 ≤ p)
    (hv : ValidTrace p n trace) (hlen : st.2.length = p)
    (h : omp_has_change p (omp_round add p n mat trace st).2 = false) :
    (omp_round add p n mat trace st).1 = st.1 ∧ StableA add n mat st.1 := by
  have hall := omp_has_change_false p _ h
  obtain ⟨h1, h2⟩ := trace_unchanged add n mat st.1 trace ([st.1], clear_flags p st.2)
    (List.cons_ne_nil _ _)
    (by
      intro x hx
      exact List.mem_singleton.1 hx)
    (by
      intro s hs
      rw [clear_flags_length, hlen]
      exact (hv.2 s hs).1)
    (fun s hs => hall s.rank (hv.2 s hs).1)
  refine ⟨h1, ?_⟩
  intro a ha b hb hw hlt
  obtain ⟨s, hs, hsu, hsv⟩ := validTrace_mem p n trace hv hp a b ha hb
  apply h2 s hs
  rw [hsu, hsv]
  exact ⟨hw, hlt⟩

/-! ## The detection scan -/

theorem can_relax_iff (add : Int → Int → Int) (n : Nat) (mat : List Int) (d : List Int)
    (u v : Nat) :
    can_relax add n mat d u v = true ↔
      W n mat u v < INF ∧ add (d.getD u 0) (W n mat u v) < d.getD v 0 := by
  unfold can_relax W
  simp only [Bool.and_eq_true, decide_eq_true_eq]

theorem detect_iff (add : Int → Int → Int) (n : Nat) (mat : List Int) (d : List Int) :
    detect add n mat d = true ↔ ¬ StableA add n mat d := by
  unfold detect StableA
  rw [List.any_eq_true]
  constructor
  · rintro ⟨a, ha, h⟩ hs
    rw [List.any_eq_true] at h
    obtain ⟨b, hb, h2⟩ := h
    rw [can_relax_iff] at h2
    exact hs a (List.mem_range.1 ha) b (List.mem_range.1 hb) h2.1 h2.2
  · intro hs
    by_contra hc
    apply hs
    intro a ha b hb hw hlt
    apply hc
    refine ⟨a, List.mem_range.2 ha, ?_⟩
    rw [List.any_eq_true]
    refine ⟨b, List.mem_range.2 hb, ?_⟩
    rw [can_relax_iff]
    exact ⟨hw, hlt⟩

theorem omp_detect_eq (add : Int → Int → Int) (n : Nat) (mat : List Int) (d : List Int) :
    omp_detect add n mat d = detect add n mat d := by
  unfold omp_detect detect
  have inner : ∀ (u : Nat) (acc : Bool),
      (List.range n).foldl (fun acc v => acc || can_relax add n mat d u v) acc =
        (acc || (List.range n).any (fun v => can_relax add n mat d u v)) :=
    fun u acc => foldl_or_eq (fun v => can_relax add n mat d u v) (List.range n) acc
  simp only [inner]
  rw [foldl_or_eq (fun u => (List.range n).any (fun v => can_relax add n mat d u v))]
  simp

theorem detect_false_of_stable (add : Int → Int → Int) (n : Nat) (mat : List Int)
    (d : List Int) (h : StableA add n mat d) : detect add n mat d = false := by
  cases hb : detect add n mat d
  · rfl
  · exact absurd h ((detect_iff add n mat d).1 hb)

/-! ## The rounds of the serial program -/

theorem relax_round_eq (add : Int → Int → Int) (n : Nat) (mat : List Int) (d : List Int) :
    relax_round add n mat d =
      (pairs (List.range n) (List.range n)).foldl
        (fun st e => relax_edge add n mat st e.1 e.2) (d, false) := by
  unfold relax_round
  exact foldl_pairs (fun st u v => relax_edge add n mat st u v) _ _ _

theorem relax_round_fst (add : Int → Int → Int) (n : Nat) (mat : List Int) (d : List Int) :
    (relax_round add n mat d).1 =
      (pairs (List.range n) (List.range n)).foldl (relax_dist add n mat) d := by
  rw [relax_round_eq, foldl_relax_edge_fst]

theorem relax_round_length (add : Int → Int → Int) (n : Nat) (mat : List Int)
    (d : List Int) : (relax_round add n mat d).1.length = d.length := by
  rw [relax_round_fst, foldl_relax_length]

/-- A serial round that reports no change has left the array as it was, and no
pair passes the test over it. -/
theorem relax_round_stable (add : Int → Int → Int) (n : Nat) (mat : List Int)
    (d : List Int) (h : (relax_round add n mat d).2 = false) :
    (relax_round add n mat d).1 = d ∧ StableA add n mat d := by
  rw [relax_round_eq] at h ⊢
  obtain ⟨h1, h2⟩ := foldl_relax_edge_unchanged add n mat _ _ h
  refine ⟨by rw [h1], ?_⟩
  intro a ha b hb hw hlt
  exact h2 (a, b) ((mem_pairs _ _ a b).2 ⟨List.mem_range.2 ha, List.mem_range.2 hb⟩)
    ⟨hw, hlt⟩

/-! ## A single active worker -/

theorem worker_pairs_last (p n : Nat) (h : n / p * (p - 1) = 0) :
    worker_pairs p n (p - 1) = pairs (List.range n) (List.range n) := by
  unfold worker_pairs local_start local_end
  rw [if_pos rfl, h, Nat.sub_zero, List.range_eq_range' n]

theorem worker_pairs_idle (p n r : Nat) (h : n / p * (p - 1) = 0) (hr : r < p - 1) :
    worker_pairs p n r = [] := by
  have h0 : n / p = 0 := by
    rcases Nat.mul_eq_zero.1 h with h1 | h1
    · exact h1
    · omega
  unfold worker_pairs local_start local_end
  rw [if_neg (by omega), h0]
  simp [pairs]

/-- When the last worker owns every vertex, a valid round is the scan of the
serial program, run by the last worker on current values. -/
theorem validTrace_single (p n : Nat) (trace : List Step) (hp : 1 ≤ p)
    (h : n / p * (p - 1) = 0) (hv : ValidTrace p n trace) :
    trace = (pairs (List.range n) (List.range n)).map (fun e => Step.mk (p - 1) e.1 e.2 0) := by
  have hrank : ∀ s ∈ trace, s.rank = p - 1 := by
    intro s hs
    by_contra hne
    have hr := (hv.2 s hs).1
    have hlt : s.rank < p - 1 := by omega
    have hmem : (s.u, s.v) ∈
        (trace.filter (fun t => decide (t.rank = s.rank))).map (fun t => (t.u, t.v)) :=
      List.mem_map.2 ⟨s, List.mem_filter.2 ⟨hs, by simp⟩, rfl⟩
    rw [hv.1 s.rank hr, worker_pairs_idle p n s.rank h hlt] at hmem
    exact absurd hmem (List.not_mem_nil _)
  have hage : ∀ s ∈ trace, s.age = 0 := by
    intro s hs
    have hs2 := validTrace_step p n trace hv s hs
    apply (hv.2 s hs).2
    · rw [hrank s hs]
      unfold local_start
      rw [h]
      exact Nat.zero_le _
    · rw [hrank s hs]
      unfold local_end
      rw [if_pos rfl]
      exact hs2.2.1
  have hfilter : trace.filter (fun t => decide (t.rank = p - 1)) = trace := by
    rw [List.filter_eq_self]
    intro s hs
    simp [hrank s hs]
  have hmap := hv.1 (p - 1) (by omega)
  rw [hfilter, worker_pairs_last p n h] at hmap
  rw [← hmap, List.map_map]
  have hid : ∀ s ∈ trace, ((fun e : Nat × Nat => Step.mk (p - 1) e.1 e.2 0) ∘
      (fun s : Step => (s.u, s.v))) s = s := by
    intro s hs
    cases s with
    | mk r u v a =>
      have h1 := hrank _ hs
      have h2 := hage _ hs
      simp only at h1 h2
      simp [h1, h2]
  rw [List.map_congr_left hid, List.map_id']

theorem step_serial_rel (add : Int → Int → Int) (n : Nat) (mat : List Int) (q : Nat)
    (s : List Int × Bool) (t : List (List Int) × List Bool) (e : Nat × Nat)
    (h : t.1.headD [] = s.1 ∧ t.1 ≠ [] ∧ t.2.getD q false = s.2 ∧ q < t.2.length) :
    (omp_step add n mat t (Step.mk q e.1 e.2 0)).1.headD [] =
        (relax_edge add n mat s e.1 e.2).1 ∧
      (omp_step add n mat t (Step.mk q e.1 e.2 0)).1 ≠ [] ∧
      (omp_step add n mat t (Step.mk q e.1 e.2 0)).2.getD q false =
        (relax_edge add n mat s e.1 e.2).2 ∧
      q < (omp_step add n mat t (Step.mk q e.1 e.2 0)).2.length := by
  obtain ⟨h1, h2, h3, h4⟩ := h
  have hseen : t.1.getD 0 (t.1.getLastD []) = s.1 := by
    cases ht : t.1 with
    | nil => exact absurd ht h2
    | cons d rest =>
      rw [ht] at h1
      simpa using h1
  refine ⟨?_, ?_, ?_, ?_⟩
  · rw [omp_step_hist, List.headD_cons, relax_edge_fst]
    simp only
    rw [hseen, h1]
    rfl
  · rw [omp_step_hist]
    exact List.cons_ne_nil _ _
  · rw [omp_step_flags]
    simp only
    rw [hseen, h1]
    unfold relax_edge W
    by_cases c1 : mat.getD (convert_dimension_2D_1D e.1 e.2 n) 0 < INF
    · by_cases c2 : add (s.1.getD e.1 0) (mat.getD (convert_dimension_2D_1D e.1 e.2 n) 0) <
          s.1.getD e.2 0
      · simp only [c1, c2, and_self, if_true, getD_set_bool]
        rw [if_pos ⟨trivial, h4⟩]
      · simp only [c1, c2, and_false, if_true, if_false]
        exact h3
    · simp only [c1, false_and, if_false]
      exact h3
  · rw [omp_step_flags_length]
    exact h4

theorem trace_serial_rel (add : Int → Int → Int) (n : Nat) (mat : List Int) (q : Nat)
    (L : List (Nat × Nat)) :
    ∀ (s : List Int × Bool) (t : List (List Int) × List Bool),
      (t.1.headD [] = s.1 ∧ t.1 ≠ [] ∧ t.2.getD q false = s.2 ∧ q < t.2.length) →
      ((L.map (fun e => Step.mk q e.1 e.2 0)).foldl (omp_step add n mat) t).1.headD [] =
          (L.foldl (fun st e => relax_edge add n mat st e.1 e.2) s).1 ∧
        ((L.map (fun e => Step.mk q e.1 e.2 0)).foldl (omp_step add n mat) t).2.getD q false =
          (L.foldl (fun st e => relax_edge add n mat st e.1 e.2) s).2 := by
  induction L with
  | nil =>
    intro s t h
    exact ⟨h.1, h.2.2.1⟩
  | cons e L ih =>
    intro s t h
    rw [List.map_cons, List.foldl_cons, List.foldl_cons]
    exact ih _ _ (step_serial_rel add n mat q s t e h)

/-- When the last worker owns every vertex, a valid round of the OpenMP program
is a round of the serial program. -/
theorem omp_round_single (add : Int → Int → Int) (p n : Nat) (mat : List Int)
    (trace : List Step) (st : List Int × List Bool) (hp : 1 ≤ p)
    (h : n / p * (p - 1) = 0) (hv : ValidTrace p n trace) (hlen : st.2.length = p) :
    (omp_round add p n mat trace st).1 = (relax_round add n mat st.1).1 ∧
      omp_has_change p (omp_round add p n mat trace st).2 =
        (relax_round add n mat st.1).2 := by
  have hq : p - 1 < p := by omega
  have htr := validTrace_single p n trace hp h hv
  have hrel := trace_serial_rel add n mat (p - 1) (pairs (List.range n) (List.range n))
    (st.1, false) ([st.1], clear_flags p st.2)
    ⟨rfl, List.cons_ne_nil _ _, clear_flags_getD p st.2 (p - 1) hq, by
      rw [clear_flags_length, hlen]; exact hq⟩
  rw [← htr, ← relax_round_eq] at hrel
  refine ⟨hrel.1, ?_⟩
  rw [← hrel.2]
  apply omp_has_change_single p (p - 1) _ hq
  intro r hr hne
  unfold omp_round
  simp only
  rw [trace_flags_other add n mat trace _ r, clear_flags_getD p st.2 r hr]
  intro s hs
  rw [htr] at hs
  obtain ⟨e, _, he⟩ := List.mem_map.1 hs
  rw [← he]
  exact hne

theorem loop_single (add : Int → Int → Int) (sched : Nat → List Step) (p n : Nat)
    (mat : List Int) (hp : 1 ≤ p) (h : n / p * (p - 1) = 0) (hs : ValidSched p n sched)
    (f : Nat) :
    ∀ (k : Nat) (st : List Int × List Bool), st.2.length = p →
      (omp_loop add sched p n mat f k st).1.1 = (relax_loop add n mat f st.1).1 ∧
        ((relax_loop add n mat f st.1).2 = false →
          (omp_loop add sched p n mat f k st).2 = k + f) ∧
        ((relax_loop add n mat f st.1).2 = true →
          StableA add n mat (relax_loop add n mat f st.1).1) := by
  induction f with
  | zero =>
    intro k st _
    exact ⟨rfl, fun _ => rfl, fun h => absurd h Bool.noConfusion⟩
  | succ f ih =>
    intro k st hlen
    obtain ⟨h1, h2⟩ := omp_round_single add p n mat (sched k) st hp h (hs k) hlen
    have e1 : omp_loop add sched p n mat (f + 1) k st =
        if omp_has_change p (omp_round add p n mat (sched k) st).2 = false then
          (omp_round add p n mat (sched k) st, k + 1)
        else omp_loop add sched p n mat f (k + 1) (omp_round add p n mat (sched k) st) := rfl
    have e2 : relax_loop add n mat (f + 1) st.1 =
        if (relax_round add n mat st.1).2 = false then ((relax_round add n mat st.1).1, true)
        else relax_loop add n mat f (relax_round add n mat st.1).1 := rfl
    by_cases hc : (relax_round add n mat st.1).2 = false
    · rw [e1, e2, if_pos hc, if_pos (by rw [h2]; exact hc)]
      refine ⟨h1, fun hh => absurd hh Bool.noConfusion, fun _ => ?_⟩
      obtain ⟨e, hst⟩ := relax_round_stable add n mat st.1 hc
      simp only
      rw [e]
      exact hst
    · rw [e1, e2, if_neg hc, if_neg (by rw [h2]; exact hc)]
      have := ih (k + 1) (omp_round add p n mat (sched k) st)
        (by rw [omp_round_flags_length]; exact hlen)
      rw [h1] at this
      have e3 : k + 1 + f = k + (f + 1) := by omega
      rw [e3] at this
      exact this

/-- When the last worker owns every vertex (one worker, or more workers than
vertices), the OpenMP program computes what the serial program computes. -/
theorem omp_single_eq_serial (add : Int → Int → Int) (sched : Nat → List Step) (p n : Nat)
    (mat : List Int) (hp : 1 ≤ p) (h : n / p * (p - 1) = 0) (hs : ValidSched p n sched) :
    bellman_ford_omp add sched p n mat = bellman_ford add n mat := by
  obtain ⟨h1, h2, h3⟩ := loop_single add sched p n mat hp h hs (n - 1) 0
    ((List.replicate n INF).set 0 0, List.replicate p false) (by simp)
  simp only at h1 h2 h3
  unfold bellman_ford_omp bellman_ford
  simp only
  cases hc : (relax_loop add n mat (n - 1) ((List.replicate n INF).set 0 0)).2
  · have := h2 hc
    rw [Nat.zero_add] at this
    rw [if_pos this, h1, omp_detect_eq]
    simp
  · have hd := detect_false_of_stable add n mat _ (h3 hc)
    rw [h1, omp_detect_eq, hd]
    simp

/-! ## Rounds in which the workers run one after another -/

theorem atomicTrace_cons (p n r : Nat) (order : List Nat) :
    atomicTrace p n (r :: order) =
      (worker_pairs p n r).map (fun e => Step.mk r e.1 e.2 0) ++ atomicTrace p n order := by
  unfold atomicTrace
  rw [List.flatMap_cons]

theorem atomicTrace_filter (p n r : Nat) (order : List Nat) (hnd : order.Nodup) :
    ((atomicTrace p n order).filter (fun s => decide (s.rank = r))).map (fun s => (s.u, s.v)) =
      if r ∈ order then worker_pairs p n r else [] := by
  induction order with
  | nil => rfl
  | cons r0 order ih =>
    have hnd2 := List.nodup_cons.1 hnd
    rw [atomicTrace_cons, List.filter_append, List.map_append, ih hnd2.2]
    by_cases h : r0 = r
    · subst h
      have hf : ((worker_pairs p n r0).map (fun e => Step.mk r0 e.1 e.2 0)).filter
          (fun s => decide (s.rank = r0)) =
          (worker_pairs p n r0).map (fun e => Step.mk r0 e.1 e.2 0) := by
        rw [List.filter_eq_self]
        intro s hs
        obtain ⟨e, _, he⟩ := List.mem_map.1 hs
        rw [← he]
        simp
      rw [hf, if_neg hnd2.1, if_pos (List.mem_cons_self _ _), List.append_nil, List.map_map]
      have hid : ∀ e ∈ worker_pairs p n r0,
          ((fun s : Step => (s.u, s.v)) ∘ (fun e : Nat × Nat => Step.mk r0 e.1 e.2 0)) e = e :=
        fun e _ => rfl
      rw [List.map_congr_left hid, List.map_id']
    · have hf : ((worker_pairs p n r0).map (fun e => Step.mk r0 e.1 e.2 0)).filter
          (fun s => decide (s.rank = r)) = [] := by
        rw [List.filter_eq_nil_iff]
        intro s hs
        obtain ⟨e, _, he⟩ := List.mem_map.1 hs
        rw [← he]
        simp [h]
      rw [hf, List.map_nil, List.nil_append]
      by_cases hr : r ∈ order
      · rw [if_pos hr, if_pos (List.mem_cons_of_mem _ hr)]
      · rw [if_neg hr, if_neg]
        intro hc
        rcases List.mem_cons.1 hc with h1 | h1
        · exact h h1.symm
        · exact hr h1

theorem validTrace_atomic (p n : Nat) (order : List Nat)
    (hperm : order.Perm (List.range p)) : ValidTrace p n (atomicTrace p n order) := by
  constructor
  · intro r hr
    rw [atomicTrace_filter p n r order (hperm.nodup_iff.2 (List.nodup_range p)),
      if_pos (hperm.mem_iff.2 (List.mem_range.2 hr))]
  · intro s hs
    unfold atomicTrace at hs
    obtain ⟨r, hr, hs2⟩ := List.mem_flatMap.1 hs
    obtain ⟨e, _, he⟩ := List.mem_map.1 hs2
    rw [← he]
    exact ⟨List.mem_range.1 (hperm.mem_iff.1 hr), fun _ _ => rfl⟩

theorem validSched_seq (p n : Nat) : ValidSched p n (seqSched p n) :=
  fun _ => validTrace_atomic p n _ (List.Perm.refl _)

theorem validSched_rev (p n : Nat) : ValidSched p n (revSched p n) :=
  fun _ => validTrace_atomic p n _ (List.reverse_perm _)

/-! ## The flag says whether a pair passes the test -/

theorem relax_loop_stable (add : Int → Int → Int) (n : Nat) (mat : List Int) (f : Nat) :
    ∀ d : List Int, (relax_loop add n mat f d).2 = true →
      StableA add n mat (relax_loop add n mat f d).1 := by
  induction f with
  | zero =>
    intro d h
    exact absurd h Bool.noConfusion
  | succ f ih =>
    intro d h
    have e2 : relax_loop add n mat (f + 1) d =
        if (relax_round add n mat d).2 = false then ((relax_round add n mat d).1, true)
        else relax_loop add n mat f (relax_round add n mat d).1 := rfl
    by_cases hc : (relax_round add n mat d).2 = false
    · rw [e2, if_pos hc]
      obtain ⟨e, hst⟩ := relax_round_stable add n mat d hc
      simp only
      rw [e]
      exact hst
    · rw [e2, if_neg hc] at h ⊢
      exact ih _ h

/-- The serial program sets the flag exactly when some pair passes the test of
the scans over the final array. -/
theorem serial_flag_iff (add : Int → Int → Int) (n : Nat) (mat : List Int) :
    (bellman_ford add n mat).2 = true ↔ ¬ StableA add n mat (bellman_ford add n mat).1 := by
  unfold bellman_ford
  simp only
  cases hc : (relax_loop add n mat (n - 1) ((List.replicate n INF).set 0 0)).2
  · simp only [Bool.false_eq_true, if_false]
    exact detect_iff add n mat _
  · simp only [if_true]
    constructor
    · intro h
      exact absurd h Bool.noConfusion
    · intro h
      exact absurd (relax_loop_stable add n mat (n - 1) _ hc) h

theorem omp_loop_generic (add : Int → Int → Int) (sched : Nat → List Step) (p n : Nat)
    (mat : List Int) (hp : 1 ≤ p) (hs : ValidSched p n sched) (f : Nat) :
    ∀ (k : Nat) (st : List Int × List Bool), st.2.length = p →
      (omp_loop add sched p n mat f k st).1.2.length = p ∧
        (StableA add n mat (omp_loop add sched p n mat f k st).1.1 ∨
          (omp_loop add sched p n mat f k st).2 = k + f) := by
  induction f with
  | zero =>
    intro k st hlen
    exact ⟨hlen, Or.inr rfl⟩
  | succ f ih =>
    intro k st hlen
    have e1 : omp_loop add sched p n mat (f + 1) k st =
        if omp_has_change p (omp_round add p n mat (sched k) st).2 = false then
          (omp_round add p n mat (sched k) st, k + 1)
        else omp_loop add sched p n mat f (k + 1) (omp_round add p n mat (sched k) st) := rfl
    have hlen1 : (omp_round add p n mat (sched k) st).2.length = p := by
      rw [omp_round_flags_length]; exact hlen
    by_cases hc : omp_has_change p (omp_round add p n mat (sched k) st).2 = false
    · rw [e1, if_pos hc]
      obtain ⟨h1, h2⟩ := omp_round_no_change add p n mat (sched k) st hp (hs k) hlen hc
      refine ⟨hlen1, Or.inl ?_⟩
      simp only
      rw [h1]
      exact h2
    · rw [e1, if_neg hc]
      have := ih (k + 1) _ hlen1
      have e3 : k + 1 + f = k + (f + 1) := by omega
      rw [e3] at this
      exact this

/-- The OpenMP program sets the flag exactly when some pair passes the test of
the scans over the final array. -/
theorem omp_flag_iff (add : Int → Int → Int) (sched : Nat → List Step) (p n : Nat)
    (mat : List Int) (hp : 1 ≤ p) (hs : ValidSched p n sched) :
    (bellman_ford_omp add sched p n mat).2 = true ↔
      ¬ StableA add n mat (bellman_ford_omp add sched p n mat).1 := by
  obtain ⟨_, h⟩ := omp_loop_generic add sched p n mat hp hs (n - 1) 0
    ((List.replicate n INF).set 0 0, List.replicate p false) (by simp)
  rw [Nat.zero_add] at h
  unfold bellman_ford_omp
  simp only
  by_cases hc : (omp_loop add sched p n mat (n - 1) 0
      ((List.replicate n INF).set 0 0, List.replicate p false)).2 = n - 1
  · rw [if_pos hc, omp_detect_eq]
    exact detect_iff add n mat _
  · rw [if_neg hc]
    rcases h with h | h
    · constructor
      · intro hf
        exact absurd hf Bool.noConfusion
      · intro hns
        exact absurd h hns
    · exact absurd h hc

/-! ## Rounds with stale reads -/

theorem filter_map_reage (f : Step → Step) (hr : ∀ s, (f s).rank = s.rank)
    (hu : ∀ s, (f s).u = s.u) (hv : ∀ s, (f s).v = s.v) (r : Nat) (trace : List Step) :
    (((trace.map f).filter (fun s => decide (s.rank = r))).map (fun s => (s.u, s.v))) =
      ((trace.filter (fun s => decide (s.rank = r))).map (fun s => (s.u, s.v))) := by
  induction trace with
  | nil => rfl
  | cons s trace ih =>
    rw [List.map_cons]
    by_cases h : s.rank = r
    · have h2 : (f s).rank = r := by rw [hr s, h]
      rw [List.filter_cons_of_pos (by simpa using h2),
        List.filter_cons_of_pos (by simpa using h), List.map_cons, List.map_cons, ih, hu s,
        hv s]
    · have h2 : ¬ (f s).rank = r := by rw [hr s]; exact h
      rw [List.filter_cons_of_neg (by simpa using h2),
        List.filter_cons_of_neg (by simpa using h), ih]

theorem validTrace_reage (p n : Nat) (f : Step → Step) (hr : ∀ s, (f s).rank = s.rank)
    (hu : ∀ s, (f s).u = s.u) (hv : ∀ s, (f s).v = s.v)
    (hage : ∀ s, local_start p n s.rank ≤ s.u → s.u < local_end p n s.rank →
      (f s).age = s.age)
    (trace : List Step) (h : ValidTrace p n trace) : ValidTrace p n (trace.map f) := by
  constructor
  · intro r hrp
    rw [filter_map_reage f hr hu hv r trace]
    exact h.1 r hrp
  · intro s hs
    obtain ⟨s0, hs0, e⟩ := List.mem_map.1 hs
    have h0 := h.2 s0 hs0
    rw [← e, hr s0, hu s0]
    exact ⟨h0.1, fun h1 h2 => by rw [hage s0 h1 h2]; exact h0.2 h1 h2⟩

theorem validSched_stale (p n : Nat) : ValidSched p n (staleSched p n) := by
  intro _
  unfold staleSched
  apply validTrace_reage p n _ ?_ ?_ ?_ ?_ _
    (validTrace_atomic p n _ (List.Perm.refl _))
  · intro s
    split <;> rfl
  · intro s
    split <;> rfl
  · intro s
    split <;> rfl
  · intro s h1 h2
    rw [if_pos ⟨h1, h2⟩]

/-! ## Walks -/

theorem walkWeight_split (n : Nat) (mat : List Int) (l1 : List Nat) (x : Nat) (l2 : List Nat) :
    walkWeight n mat (l1 ++ x :: l2) =
      walkWeight n mat (l1 ++ [x]) + walkWeight n mat (x :: l2) := by
  induction l1 with
  | nil => simp [walkWeight]
  | cons a l ih =>
    cases l with
    | nil => simp [walkWeight]
    | cons b l =>
      have e1 : (a :: b :: l) ++ x :: l2 = a :: b :: (l ++ x :: l2) := rfl
      have e2 : (a :: b :: l) ++ [x] = a :: b :: (l ++ [x]) := rfl
      have e3 : (b :: l) ++ x :: l2 = b :: (l ++ x :: l2) := rfl
      have e4 : (b :: l) ++ [x] = b :: (l ++ [x]) := rfl
      rw [e1, e2, walkWeight, walkWeight]
      rw [e3, e4] at ih
      rw [ih]
      ring

theorem walkWeight_snoc (n : Nat) (mat : List Int) (l : List Nat) (a b : Nat) :
    walkWeight n mat (l ++ [a] ++ [b]) = walkWeight n mat (l ++ [a]) + W n mat a b := by
  have h : l ++ [a] ++ [b] = l ++ a :: [b] := by simp
  rw [h, walkWeight_split]
  simp [walkWeight]

theorem isWalk_singleton (adj : Nat → Nat → Prop) (n v : Nat) (hv : v < n) :
    IsWalk adj n [v] := by
  refine ⟨by simp, ?_, List.chain'_singleton v⟩
  intro x hx
  rw [List.mem_singleton] at hx
  rw [hx]
  exact hv

theorem walkFromTo_singleton (adj : Nat → Nat → Prop) (n v : Nat) (hv : v < n) :
    WalkFromTo adj n v v [v] :=
  ⟨isWalk_singleton adj n v hv, rfl, rfl⟩

theorem isWalk_split (adj : Nat → Nat → Prop) (n : Nat) (l1 : List Nat) (x : Nat)
    (l2 : List Nat) :
    IsWalk adj n (l1 ++ x :: l2) ↔ IsWalk adj n (l1 ++ [x]) ∧ IsWalk adj n (x :: l2) := by
  unfold IsWalk
  rw [List.chain'_split]
  constructor
  · rintro ⟨_, h2, h3, h4⟩
    refine ⟨⟨by simp, ?_, h3⟩, ⟨by simp, ?_, h4⟩⟩
    · intro y hy
      apply h2
      rcases List.mem_append.1 hy with h | h
      · exact List.mem_append_left _ h
      · rw [List.mem_singleton] at h
        rw [h]
        exact List.mem_append_right _ (List.mem_cons_self _ _)
    · intro y hy
      exact h2 y (List.mem_append_right _ hy)
  · rintro ⟨⟨_, h2, h3⟩, ⟨_, h5, h6⟩⟩
    refine ⟨by simp, ?_, h3, h6⟩
    intro y hy
    rcases List.mem_append.1 hy with h | h
    · exact h2 y (List.mem_append_left _ h)
    · exact h5 y h

theorem walkFromTo_snoc (adj : Nat → Nat → Prop) (n u a b : Nat) (p : List Nat)
    (hp : WalkFromTo adj n u a p) (hb : b < n) (hadj : adj a b) :
    WalkFromTo adj n u b (p ++ [b]) := by
  obtain ⟨hw, hh, hl⟩ := hp
  obtain ⟨l, rfl⟩ := List.getLast?_eq_some_iff.1 hl
  refine ⟨?_, ?_, by simp⟩
  · have : l ++ [a] ++ [b] = l ++ a :: [b] := by simp
    rw [this, isWalk_split]
    refine ⟨hw, by simp, ?_, ?_⟩
    · intro y hy
      rcases List.mem_cons.1 hy with h | h
      · rw [h]
        exact hw.2.1 a (by simp)
      · rw [List.mem_singleton] at h
        rw [h]
        exact hb
    · exact List.chain'_pair.2 hadj
  · cases l with
    | nil => simpa using hh
    | cons c l => simpa using hh

/-- A walk with more than one vertex is a walk to the last but one vertex
followed by one edge. -/
theorem walkFromTo_unsnoc (adj : Nat → Nat → Prop) (n u v b : Nat) (l : List Nat)
    (hl : l ≠ []) (hp : WalkFromTo adj n u v (l ++ [b])) :
    v = b ∧ ∃ a, WalkFromTo adj n u a l ∧ adj a b ∧ b < n := by
  obtain ⟨hw, hh, hlast⟩ := hp
  rw [List.getLast?_concat] at hlast
  refine ⟨(Option.some.inj hlast).symm, ?_⟩
  obtain ⟨l0, a, rfl⟩ : ∃ l0 a, l = l0 ++ [a] := by
    rcases List.eq_nil_or_concat l with h | ⟨l0, a, h⟩
    · exact absurd h hl
    · exact ⟨l0, a, by simpa using h⟩
  have e : l0 ++ [a] ++ [b] = l0 ++ a :: [b] := by simp
  rw [e, isWalk_split] at hw
  refine ⟨a, ⟨hw.1, ?_, by simp⟩, ?_, ?_⟩
  · cases l0 with
    | nil => simpa using hh
    | cons c l0 => simpa using hh
  · exact List.chain'_pair.1 hw.2.2.2
  · exact hw.2.2.1 b (by simp)

theorem walkFromTo_single_eq (adj : Nat → Nat → Prop) (n u v b : Nat)
    (hp : WalkFromTo adj n u v [b]) : u = b ∧ v = b ∧ b < n := by
  obtain ⟨hw, hh, hl⟩ := hp
  refine ⟨?_, ?_, hw.2.1 b (by simp)⟩
  · simpa using hh.symm
  · simpa using hl.symm

theorem walkWeight_concat (n : Nat) (mat : List Int) (l : List Nat) (a b : Nat)
    (hl : l.getLast? = some a) :
    walkWeight n mat (l ++ [b]) = walkWeight n mat l + W n mat a b := by
  obtain ⟨l0, rfl⟩ := List.getLast?_eq_some_iff.1 hl
  exact walkWeight_snoc n mat l0 a b

theorem walkFromTo_lt (adj : Nat → Nat → Prop) (n u v : Nat) (p : List Nat)
    (hp : WalkFromTo adj n u v p) : u < n ∧ v < n := by
  obtain ⟨hw, hh, hl⟩ := hp
  constructor
  · obtain ⟨ys, rfl⟩ := List.head?_eq_some_iff.1 hh
    exact hw.2.1 u (by simp)
  · obtain ⟨ys, rfl⟩ := List.getLast?_eq_some_iff.1 hl
    exact hw.2.1 v (by simp)

/-! ## Stable arrays -/

theorem stable_walk (n : Nat) (mat : List Int) (d : List Int) (hs : Stable n mat d)
    (u : Nat) (p : List Nat) :
    ∀ v, WalkFromTo (adjCode n mat) n u v p →
      d.getD v 0 ≤ d.getD u 0 + walkWeight n mat p := by
  induction p using List.reverseRecOn with
  | nil =>
    intro v hp
    exact absurd rfl hp.1.1
  | append_singleton l b ih =>
    intro v hp
    by_cases hl : l = []
    · subst hl
      obtain ⟨h1, h2, _⟩ := walkFromTo_single_eq _ n u v b hp
      subst h1
      subst h2
      simp [walkWeight]
    · obtain ⟨hv, a, hwa, hadj, hb⟩ := walkFromTo_unsnoc _ n u v b l hl hp
      subst hv
      have h1 := ih a hwa
      have h2 := hs a (walkFromTo_lt _ n u a l hwa).2 v hb hadj
      rw [walkWeight_concat n mat l a v hwa.2.2]
      omega

theorem stable_cycle_nonneg (n : Nat) (mat : List Int) (d : List Int)
    (hs : Stable n mat d) (c : List Nat) (hc : IsCycle (adjCode n mat) n c) :
    0 ≤ walkWeight n mat c := by
  obtain ⟨hw, hlen, hclosed⟩ := hc
  obtain ⟨x, hx⟩ : ∃ x, c.head? = some x := by
    cases c with
    | nil => exact absurd rfl hw.1
    | cons x c => exact ⟨x, rfl⟩
  have := stable_walk n mat d hs x c x ⟨hw, hx, by rw [← hclosed, hx]⟩
  omega

theorem stable_below (n : Nat) (mat : List Int) (d : List Int) (hs : Stable n mat d)
    (hinit : ∀ u, u < n → d.getD u 0 ≤ init u) (k : Nat) : BelowWalks n mat k d := by
  intro u v p hp _
  have h1 := stable_walk n mat d hs u p v hp
  have h2 := hinit u (walkFromTo_lt _ n u v p hp).1
  omega

theorem witnessed_below_stable (n : Nat) (mat : List Int) (d : List Int)
    (hw : Witnessed n mat d) (hb : ∀ k, BelowWalks n mat k d) : Stable n mat d := by
  intro a ha b hb2 hadj
  obtain ⟨u, p, hp, hd⟩ := hw a ha
  have hq := walkFromTo_snoc (adjCode n mat) n u a b p hp hb2 hadj
  have h := hb (p ++ [b]).length u b (p ++ [b]) hq (Nat.le_succ _)
  rw [walkWeight_concat n mat p a b hp.2.2] at h
  omega

/-- Two arrays of length `n` that are witnessed by walks and below every walk
are equal. -/
theorem witnessed_below_unique (n : Nat) (mat : List Int) (d1 d2 : List Int)
    (hl1 : d1.length = n) (hl2 : d2.length = n)
    (hw1 : Witnessed n mat d1) (hw2 : Witnessed n mat d2)
    (hb1 : ∀ k, BelowWalks n mat k d1) (hb2 : ∀ k, BelowWalks n mat k d2) : d1 = d2 := by
  apply List.ext_getElem (by rw [hl1, hl2])
  intro v h1 h2
  have hv : v < n := by rw [← hl1]; exact h1
  obtain ⟨u1, p1, hp1, e1⟩ := hw1 v hv
  obtain ⟨u2, p2, hp2, e2⟩ := hw2 v hv
  have c1 := hb2 p1.length u1 v p1 hp1 (Nat.le_succ _)
  have c2 := hb1 p2.length u2 v p2 hp2 (Nat.le_succ _)
  have g1 : d1.getD v 0 = d1[v] := by
    rw [List.getD_eq_getElem?_getD, List.getElem?_eq_getElem h1]; rfl
  have g2 : d2.getD v 0 = d2[v] := by
    rw [List.getD_eq_getElem?_getD, List.getElem?_eq_getElem h2]; rfl
  rw [← g1, ← g2]
  omega


/-! ## The initial array -/

theorem init_dist_length (n : Nat) : ((List.replicate n INF).set 0 0).length = n := by
  simp

theorem init_dist_getD (n v : Nat) (hv : v < n) :
    ((List.replicate n INF).set 0 0).getD v 0 = init v := by
  rw [getD_set_int]
  unfold init
  by_cases h : v = 0
  · subst h
    simp [hv]
  · have h2 : ¬ (0 = v ∧ 0 < (List.replicate n INF).length) := fun hh => h hh.1.symm
    rw [if_neg h2, if_neg h, List.getD_eq_getElem?_getD]
    simp [hv]

theorem witnessed_init (n : Nat) (mat : List Int) :
    Witnessed n mat ((List.replicate n INF).set 0 0) := by
  intro v hv
  refine ⟨v, [v], walkFromTo_singleton _ n v hv, ?_⟩
  rw [init_dist_getD n v hv]
  simp [walkWeight]


/-! ## Removing cycles from walks -/

theorem exists_dup_split (l : List Nat) (h : ¬ l.Nodup) :
    ∃ x l1 l2 l3, l = l1 ++ x :: (l2 ++ x :: l3) := by
  induction l with
  | nil => exact absurd List.nodup_nil h
  | cons a l ih =>
    by_cases ha : a ∈ l
    · obtain ⟨s, t, hst⟩ := List.append_of_mem ha
      exact ⟨a, [], s, t, by rw [hst]; rfl⟩
    · have hl : ¬ l.Nodup := fun hn => h (List.nodup_cons.2 ⟨ha, hn⟩)
      obtain ⟨x, l1, l2, l3, e⟩ := ih hl
      exact ⟨x, a :: l1, l2, l3, by rw [e]; rfl⟩

theorem nodup_length_le (n : Nat) (p : List Nat) (hnd : p.Nodup) (hlt : ∀ x ∈ p, x < n) :
    p.length ≤ n := by
  have h1 : p.toFinset ⊆ Finset.range n := by
    intro x hx
    rw [List.mem_toFinset] at hx
    exact Finset.mem_range.2 (hlt x hx)
  have h2 := Finset.card_le_card h1
  rw [List.toFinset_card_of_nodup hnd, Finset.card_range] at h2
  exact h2

/-- Cutting the part between two visits of `x` out of a walk leaves a walk
with the same ends, and splits the weight. -/
theorem walk_cut (adj : Nat → Nat → Prop) (n : Nat) (mat : List Int) (u v x : Nat)
    (l1 l2 l3 : List Nat) (hp : WalkFromTo adj n u v (l1 ++ x :: (l2 ++ x :: l3))) :
    WalkFromTo adj n u v (l1 ++ x :: l3) ∧ IsCycle adj n (x :: (l2 ++ [x])) ∧
      walkWeight n mat (l1 ++ x :: (l2 ++ x :: l3)) =
        walkWeight n mat (l1 ++ x :: l3) + walkWeight n mat (x :: (l2 ++ [x])) := by
  obtain ⟨hw, hh, hl⟩ := hp
  have hs1 := (isWalk_split adj n l1 x (l2 ++ x :: l3)).1 hw
  have e1 : x :: (l2 ++ x :: l3) = (x :: l2) ++ x :: l3 := rfl
  have hs2 := hs1.2
  rw [e1, isWalk_split] at hs2
  refine ⟨⟨(isWalk_split adj n l1 x l3).2 ⟨hs1.1, hs2.2⟩, ?_, ?_⟩, ⟨hs2.1, ?_, ?_⟩, ?_⟩
  · rw [List.head?_append] at hh ⊢
    cases l1 with
    | nil => simpa using hh
    | cons a l1 => simpa using hh
  · rw [List.getLast?_append] at hl ⊢
    rw [e1, List.getLast?_append] at hl
    rw [← hl]
    cases h : (x :: l3).getLast? with
    | none => simp at h
    | some y => simp
  · simp
  · have : x :: (l2 ++ [x]) = (x :: l2) ++ [x] := rfl
    rw [this, List.getLast?_concat]
    rfl
  · rw [walkWeight_split n mat l1 x (l2 ++ x :: l3), e1, walkWeight_split n mat (x :: l2) x l3,
      walkWeight_split n mat l1 x l3]
    have : x :: (l2 ++ [x]) = (x :: l2) ++ [x] := rfl
    rw [this]
    ring

theorem walk_shorten (adj : Nat → Nat → Prop) (n : Nat) (mat : List Int)
    (hno : ¬ HasNegCycle adj n mat) (u v : Nat) :
    ∀ (k : Nat) (p : List Nat), p.length ≤ k → WalkFromTo adj n u v p →
      ∃ q, WalkFromTo adj n u v q ∧ q.Nodup ∧ walkWeight n mat q ≤ walkWeight n mat p := by
  intro k
  induction k with
  | zero =>
    intro p hlen hp
    have : p = [] := List.length_eq_zero.1 (Nat.le_zero.1 hlen)
    exact absurd this hp.1.1
  | succ k ih =>
    intro p hlen hp
    by_cases hnd : p.Nodup
    · exact ⟨p, hp, hnd, le_refl _⟩
    · obtain ⟨x, l1, l2, l3, e⟩ := exists_dup_split p hnd
      subst e
      obtain ⟨hq, hc, hwt⟩ := walk_cut adj n mat u v x l1 l2 l3 hp
      have hcw : 0 ≤ walkWeight n mat (x :: (l2 ++ [x])) := by
        by_contra hneg
        exact hno ⟨_, hc, lt_of_not_le hneg⟩
      have hlen2 : (l1 ++ x :: l3).length ≤ k := by
        simp only [List.length_append, List.length_cons] at hlen ⊢
        omega
      obtain ⟨q, hq1, hq2, hq3⟩ := ih (l1 ++ x :: l3) hlen2 hq
      exact ⟨q, hq1, hq2, by omega⟩

theorem below_all_of_no_neg_cycle (n : Nat) (mat : List Int) (d : List Int) (hn : 1 ≤ n)
    (hno : ¬ HasNegCycle (adjCode n mat) n mat) (hb : BelowWalks n mat (n - 1) d) :
    ∀ k, BelowWalks n mat k d := by
  intro k u v p hp _
  obtain ⟨q, hq1, hq2, hq3⟩ := walk_shorten _ n mat hno u v p.length p (le_refl _) hp
  have hlen := nodup_length_le n q hq2 hq1.1.2.1
  have := hb u v q hq1 (by omega)
  omega


/-! ## Consequences for a result -/

theorem final_flag_iff (n : Nat) (mat : List Int) (r : List Int × Bool) (h : Final n mat r) :
    r.2 = true ↔ HasNegCycle (adjCode n mat) n mat := by
  obtain ⟨_, _, _, h4, h5⟩ := h
  constructor
  · intro hf
    by_contra hno
    exact (h4.1 hf) (h5 hno)
  · rintro ⟨c, hc, hneg⟩
    apply h4.2
    intro hs
    have := stable_cycle_nonneg n mat r.1 hs c hc
    omega

theorem final_below (n : Nat) (mat : List Int) (r : List Int × Bool) (h : Final n mat r)
    (hf : r.2 = false) : ∀ k, BelowWalks n mat k r.1 := by
  obtain ⟨_, _, h3, h4, _⟩ := h
  have hs : Stable n mat r.1 := by
    by_contra hns
    have := h4.2 hns
    rw [hf] at this
    exact absurd this Bool.false_ne_true
  exact stable_below n mat r.1 hs h3

theorem final_unique (n : Nat) (mat : List Int) (r1 r2 : List Int × Bool)
    (h1 : Final n mat r1) (h2 : Final n mat r2) (hf1 : r1.2 = false) (hf2 : r2.2 = false) :
    r1.1 = r2.1 :=
  witnessed_below_unique n mat r1.1 r2.1 h1.1 h2.1 h1.2.1 h2.2.1
    (final_below n mat r1 h1 hf1) (final_below n mat r2 h2 hf2)

theorem final_flag_eq (n : Nat) (mat : List Int) (r1 r2 : List Int × Bool)
    (h1 : Final n mat r1) (h2 : Final n mat r2) : r1.2 = r2.2 := by
  have e1 := final_flag_iff n mat r1 h1
  have e2 := final_flag_iff n mat r2 h2
  cases hb1 : r1.2 <;> cases hb2 : r2.2
  · rfl
  · exact absurd (e1.2 (e2.1 hb2)) (by rw [hb1]; exact Bool.false_ne_true)
  · exact absurd (e2.2 (e1.1 hb1)) (by rw [hb2]; exact Bool.false_ne_true)
  · rfl

/-! ## Simple cycles -/

theorem neg_cycle_simple (adj : Nat → Nat → Prop) (n : Nat) (mat : List Int) :
    ∀ (k : Nat) (c : List Nat), c.length ≤ k → IsCycle adj n c → walkWeight n mat c < 0 →
      HasNegSimpleCycle adj n mat := by
  intro k
  induction k with
  | zero =>
    intro c hlen hc _
    have := hc.2.1
    omega
  | succ k ih =>
    intro c hlen hc hneg
    by_cases hnd : c.tail.Nodup
    · exact ⟨c, ⟨hc, hnd⟩, hneg⟩
    · obtain ⟨hw, hlen2, hclosed⟩ := hc
      cases c with
      | nil => exact absurd rfl hw.1
      | cons x t =>
        obtain ⟨y, l1, l2, l3, e⟩ := exists_dup_split t hnd
        subst e
        have hp : WalkFromTo adj n x x ((x :: l1) ++ y :: (l2 ++ y :: l3)) :=
          ⟨hw, rfl, hclosed.symm⟩
        obtain ⟨hq, hin, hwt⟩ := walk_cut adj n mat x x y (x :: l1) l2 l3 hp
        have hout : IsCycle adj n ((x :: l1) ++ y :: l3) := by
          refine ⟨hq.1, ?_, ?_⟩
          · simp only [List.length_cons, List.length_append]
            omega
          · rw [hq.2.2]
            rfl
        have hsum : walkWeight n mat ((x :: l1) ++ y :: l3) < 0 ∨
            walkWeight n mat (y :: (l2 ++ [y])) < 0 := by
          have e : walkWeight n mat (x :: (l1 ++ y :: (l2 ++ y :: l3))) =
              walkWeight n mat ((x :: l1) ++ y :: (l2 ++ y :: l3)) := rfl
          rw [e] at hneg
          omega
        simp only [List.length_cons, List.length_append] at hlen
        rcases hsum with h | h
        · exact ih _ (by simp only [List.length_cons, List.length_append]; omega) hout h
        · exact ih _ (by
            simp only [List.length_cons, List.length_append, List.length_nil]; omega) hin h

theorem hasNegCycle_iff_simple (adj : Nat → Nat → Prop) (n : Nat) (mat : List Int) :
    HasNegCycle adj n mat ↔ HasNegSimpleCycle adj n mat := by
  constructor
  · rintro ⟨c, hc, hneg⟩
    exact neg_cycle_simple adj n mat c.length c (le_refl _) hc hneg
  · rintro ⟨c, hc, hneg⟩
    exact ⟨c, hc.1, hneg⟩

theorem hasNegCycle_of_reachable (adj : Nat → Nat → Prop) (n : Nat) (mat : List Int)
    (h : HasReachableNegCycle adj n mat) : HasNegCycle adj n mat := by
  obtain ⟨_, c, _, _, hc, _, hneg⟩ := h
  exact ⟨c, hc, hneg⟩

theorem walkWeight_nonneg (n : Nat) (mat : List Int) (hmat : ∀ x ∈ mat, 0 ≤ x)
    (p : List Nat) : 0 ≤ walkWeight n mat p := by
  have hW : ∀ a b, 0 ≤ W n mat a b := by
    intro a b
    unfold W
    rw [List.getD_eq_getElem?_getD]
    cases h : mat[convert_dimension_2D_1D a b n]? with
    | none => simp
    | some x =>
      simp only [Option.getD_some]
      exact hmat x (List.getElem?_mem h)
  induction p with
  | nil => simp [walkWeight]
  | cons a p ih =>
    cases p with
    | nil => simp [walkWeight]
    | cons b p =>
      have := hW a b
      rw [walkWeight]
      omega

theorem no_neg_cycle_of_nonneg (adj : Nat → Nat → Prop) (n : Nat) (mat : List Int)
    (hmat : ∀ x ∈ mat, 0 ≤ x) : ¬ HasNegCycle adj n mat := by
  rintro ⟨c, _, hneg⟩
  have := walkWeight_nonneg n mat hmat c
  omega


theorem below_init (n : Nat) (mat : List Int) :
    BelowWalks n mat 0 ((List.replicate n INF).set 0 0) := by
  intro u v p hp hlen
  obtain ⟨hw, hh, hl⟩ := hp
  cases p with
  | nil => exact absurd rfl hw.1
  | cons b p =>
    cases p with
    | nil =>
      obtain ⟨h1, h2, h3⟩ := walkFromTo_single_eq _ n u v b ⟨hw, hh, hl⟩
      rw [h1, h2, init_dist_getD n b h3]
      simp [walkWeight]
    | cons c p => simp at hlen

theorem below_mono (n : Nat) (mat : List Int) (k : Nat) (d d2 : List Int)
    (hb : BelowWalks n mat k d) (hle : ∀ x, d2.getD x 0 ≤ d.getD x 0) :
    BelowWalks n mat k d2 := by
  intro u v p hp hlen
  exact le_trans (hle v) (hb u v p hp hlen)


/-! ## Rounds with right sums -/

theorem stableA_addZ (n : Nat) (mat : List Int) (d : List Int) :
    StableA addZ n mat d ↔ Stable n mat d := by
  unfold StableA Stable addZ
  constructor
  · intro h a ha b hb hw
    exact le_of_not_lt (h a ha b hb hw)
  · intro h a ha b hb hw
    exact not_lt_of_le (h a ha b hb hw)

theorem witnessed_relax_seen (n : Nat) (mat : List Int) (seen cur : List Int) (u v : Nat)
    (hs : Witnessed n mat seen) (hc : Witnessed n mat cur) (hu : u < n) :
    Witnessed n mat (relax_seen addZ n mat seen cur u v) := by
  intro x hx
  unfold relax_seen
  by_cases hcond : W n mat u v < INF ∧ addZ (seen.getD u 0) (W n mat u v) < cur.getD v 0
  · rw [if_pos hcond, getD_set_int]
    by_cases hv2 : v = x ∧ v < cur.length
    · rw [if_pos hv2]
      obtain ⟨a, p, hp, hd⟩ := hs u hu
      refine ⟨a, p ++ [x], walkFromTo_snoc _ n a u x p hp hx ?_, ?_⟩
      · rw [← hv2.1]
        exact hcond.1
      · rw [walkWeight_concat n mat p u x hp.2.2, ← hv2.1]
        unfold addZ
        rw [hd]
        ring
    · rw [if_neg hv2]
      exact hc x hx
  · rw [if_neg hcond]
    exact hc x hx

theorem omp_round_witnessed (p n : Nat) (mat : List Int) (trace : List Step)
    (st : List Int × List Bool) (hv : ValidTrace p n trace) (hw : Witnessed n mat st.1) :
    Witnessed n mat (omp_round addZ p n mat trace st).1 := by
  obtain ⟨h1, h2⟩ := trace_hist_inv addZ n mat (Witnessed n mat) trace
    (fun s hs seen cur h1 h2 =>
      witnessed_relax_seen n mat seen cur s.u s.v h1 h2 (validTrace_step p n trace hv s hs).2.1)
    ([st.1], clear_flags p st.2) (List.cons_ne_nil _ _)
    (by
      intro d hd
      rw [List.mem_singleton.1 hd]
      exact hw)
  exact h2 _ (hist_headD_mem _ h1)

theorem omp_round_inv (p n : Nat) (mat : List Int) (trace : List Step)
    (st : List Int × List Bool) (hv : ValidTrace p n trace) (hinv : RoundInv p n mat st) :
    RoundInv p n mat (omp_round addZ p n mat trace st) := by
  obtain ⟨h1, h2, h3, h4⟩ := hinv
  refine ⟨?_, ?_, omp_round_witnessed p n mat trace st hv h3, ?_⟩
  · rw [omp_round_length, h1]
  · rw [omp_round_flags_length, h2]
  · intro u hu
    exact le_trans (omp_round_le addZ p n mat trace st u) (h4 u hu)

/-- After the steps of a round, the entry of `v` is at most the value `u` had at
the barrier plus the weight, for every pair `(u, v)` among the steps. -/
theorem trace_edge (n : Nat) (mat : List Int) (d0 : List Int) (trace : List Step)
    (st : List (List Int) × List Bool) (hne : st.1 ≠ [])
    (hle : ∀ d ∈ st.1, ∀ x, d.getD x 0 ≤ d0.getD x 0) (hlen : (st.1.headD []).length = n)
    (s : Step) (hs : s ∈ trace) (hw : W n mat s.u s.v < INF) (hv : s.v < n) :
    ((trace.foldl (omp_step addZ n mat) st).1.headD []).getD s.v 0 ≤
      d0.getD s.u 0 + W n mat s.u s.v := by
  induction trace generalizing st with
  | nil => exact absurd hs (List.not_mem_nil s)
  | cons t trace ih =>
    rw [List.foldl_cons]
    have hne1 : (omp_step addZ n mat st t).1 ≠ [] := by
      rw [omp_step_hist]
      exact List.cons_ne_nil _ _
    have hle1 : ∀ d ∈ (omp_step addZ n mat st t).1, ∀ x, d.getD x 0 ≤ d0.getD x 0 := by
      intro d hd x
      rw [omp_step_hist] at hd
      rcases List.mem_cons.1 hd with h1 | h1
      · rw [h1]
        exact le_trans (relax_seen_le addZ n mat _ _ t.u t.v x)
          (hle _ (hist_headD_mem st.1 hne) x)
      · exact hle d h1 x
    have hlen1 : ((omp_step addZ n mat st t).1.headD []).length = n := by
      rw [omp_step_hist, List.headD_cons, relax_seen_length]
      exact hlen
    rcases List.mem_cons.1 hs with h | h
    · rw [← h]
      refine le_trans (trace_head_le addZ n mat trace _ s.v) ?_
      rw [omp_step_hist, List.headD_cons]
      have h1 : (relax_seen addZ n mat (st.1.getD s.age (st.1.getLastD []))
          (st.1.headD []) s.u s.v).getD s.v 0 ≤
          (st.1.getD s.age (st.1.getLastD [])).getD s.u 0 + W n mat s.u s.v :=
        relax_seen_edge addZ n mat (st.1.getD s.age (st.1.getLastD []))
          (st.1.headD []) s.u s.v (by rw [hlen]; exact hv) hw
      have h2 := hle _ (hist_getD_mem st.1 s.age hne) s.u
      omega
    · exact ih _ hne1 hle1 hlen1 h

theorem omp_round_below (p n : Nat) (mat : List Int) (trace : List Step)
    (st : List Int × List Bool) (hp : 1 ≤ p) (hv : ValidTrace p n trace)
    (hlen : st.1.length = n) (k : Nat) (hb : BelowWalks n mat k st.1) :
    BelowWalks n mat (k + 1) (omp_round addZ p n mat trace st).1 := by
  intro u v q hq hql
  obtain ⟨l, b, rfl⟩ : ∃ l b, q = l ++ [b] := by
    rcases List.eq_nil_or_concat q with h | ⟨l, b, h⟩
    · exact absurd h hq.1.1
    · exact ⟨l, b, by simpa using h⟩
  by_cases hl : l = []
  · subst hl
    obtain ⟨h1, h2, h3⟩ := walkFromTo_single_eq _ n u v b hq
    rw [h1, h2]
    have h4 := hb b b [b] (walkFromTo_singleton _ n b h3) (by simp)
    exact le_trans (omp_round_le addZ p n mat trace st b) h4
  · obtain ⟨hv2, a, hwa, hadj, hbn⟩ := walkFromTo_unsnoc _ n u v b l hl hq
    subst hv2
    have ha := (walkFromTo_lt _ n u a l hwa).2
    have h1 := hb u a l hwa (by simp at hql; omega)
    obtain ⟨s, hs, hsu, hsv⟩ := validTrace_mem p n trace hv hp a v ha hbn
    have h2 := trace_edge n mat st.1 trace ([st.1], clear_flags p st.2)
      (List.cons_ne_nil _ _)
      (by
        intro d hd x
        rw [List.mem_singleton.1 hd])
      hlen s hs (by rw [hsu, hsv]; exact hadj) (by rw [hsv]; exact hbn)
    rw [hsu, hsv] at h2
    rw [walkWeight_concat n mat l a v hwa.2.2]
    have e : (omp_round addZ p n mat trace st).1 =
        (trace.foldl (omp_step addZ n mat) ([st.1], clear_flags p st.2)).1.headD [] := rfl
    rw [e]
    omega

theorem roundInv_init (p n : Nat) (mat : List Int) :
    RoundInv p n mat ((List.replicate n INF).set 0 0, List.replicate p false) := by
  refine ⟨init_dist_length n, by simp, witnessed_init n mat, ?_⟩
  intro u hu
  rw [init_dist_getD n u hu]

theorem omp_loop_post (sched : Nat → List Step) (p n : Nat) (mat : List Int) (hp : 1 ≤ p)
    (hs : ValidSched p n sched) (f : Nat) :
    ∀ (k : Nat) (st : List Int × List Bool), RoundInv p n mat st → BelowWalks n mat k st.1 →
      RoundInv p n mat (omp_loop addZ sched p n mat f k st).1 ∧
        (Stable n mat (omp_loop addZ sched p n mat f k st).1.1 ∨
          ((omp_loop addZ sched p n mat f k st).2 = k + f ∧
            BelowWalks n mat (k + f) (omp_loop addZ sched p n mat f k st).1.1)) := by
  induction f with
  | zero =>
    intro k st hinv hb
    exact ⟨hinv, Or.inr ⟨rfl, hb⟩⟩
  | succ f ih =>
    intro k st hinv hb
    have hinv1 := omp_round_inv p n mat (sched k) st (hs k) hinv
    have e1 : omp_loop addZ sched p n mat (f + 1) k st =
        if omp_has_change p (omp_round addZ p n mat (sched k) st).2 = false then
          (omp_round addZ p n mat (sched k) st, k + 1)
        else omp_loop addZ sched p n mat f (k + 1) (omp_round addZ p n mat (sched k) st) := rfl
    by_cases hc : omp_has_change p (omp_round addZ p n mat (sched k) st).2 = false
    · rw [e1, if_pos hc]
      obtain ⟨h1, h2⟩ := omp_round_no_change addZ p n mat (sched k) st hp (hs k) hinv.2.1 hc
      refine ⟨hinv1, Or.inl ?_⟩
      simp only
      rw [h1]
      exact (stableA_addZ n mat st.1).1 h2
    · rw [e1, if_neg hc]
      have hb1 := omp_round_below p n mat (sched k) st hp (hs k) hinv.1 k hb
      have := ih (k + 1) _ hinv1 hb1
      have e : k + 1 + f = k + (f + 1) := by omega
      rw [e] at this
      exact this

theorem omp_final (sched : Nat → List Step) (p n : Nat) (mat : List Int) (hn : 1 ≤ n)
    (hp : 1 ≤ p) (hs : ValidSched p n sched) :
    Final n mat (bellman_ford_omp addZ sched p n mat) := by
  have hpost := omp_loop_post sched p n mat hp hs (n - 1) 0 _ (roundInv_init p n mat)
    (below_init n mat)
  obtain ⟨⟨h1, _, h3, h4⟩, h5⟩ := hpost
  have hflag := omp_flag_iff addZ sched p n mat hp hs
  rw [stableA_addZ] at hflag
  have hd : (bellman_ford_omp addZ sched p n mat).1 =
      (omp_loop addZ sched p n mat (n - 1) 0
        ((List.replicate n INF).set 0 0, List.replicate p false)).1.1 := by
    unfold bellman_ford_omp
    simp only
    split <;> rfl
  rw [← hd] at h1 h3 h4 h5
  refine ⟨h1, h3, h4, hflag, ?_⟩
  intro hno
  rcases h5 with h | ⟨_, h⟩
  · exact h
  · rw [Nat.zero_add] at h
    exact witnessed_below_stable n mat _ h3 (below_all_of_no_neg_cycle n mat _ hn hno h)

theorem serial_final (n : Nat) (mat : List Int) (hn : 1 ≤ n) :
    Final n mat (bellman_ford addZ n mat) := by
  rw [← omp_single_eq_serial addZ (seqSched 1 n) 1 n mat (le_refl 1) (by simp)
    (validSched_seq 1 n)]
  exact omp_final (seqSched 1 n) 1 n mat hn (le_refl 1) (validSched_seq 1 n)

/-! ## Runs whose sums fit in an `int` -/

theorem W_ge (n : Nat) (mat : List Int) (B : Int) (hB : 0 ≤ B) (hmat : ∀ x ∈ mat, -B ≤ x)
    (u v : Nat) : -B ≤ W n mat u v := by
  unfold W
  rw [List.getD_eq_getElem?_getD]
  cases h : mat[convert_dimension_2D_1D u v n]? with
  | none =>
    simp only [Option.getD_none]
    omega
  | some x =>
    simp only [Option.getD_some]
    exact hmat x (List.getElem?_mem h)

theorem scale_le (B : Int) (hB : 0 ≤ B) (a b : Nat) (h : a ≤ b) :
    (a : Int) * B ≤ (b : Int) * B :=
  mul_le_mul_of_nonneg_right (Int.ofNat_le.2 h) hB

theorem bounded_mono (c c2 : Int) (d : List Int) (h : c ≤ c2) (hb : Bounded c d) :
    Bounded c2 d := by
  intro x
  have := hb x
  exact ⟨by omega, this.2⟩

theorem add_exact_at (add : Int → Int → Int) (hadd : Exact add) (n : Nat) (mat : List Int)
    (B : Int) (hB : 0 ≤ B) (hmat : ∀ x ∈ mat, -B ≤ x) (c : Int) (seen : List Int)
    (hs : Bounded c seen) (hc : c + B ≤ 2147483648) (u v : Nat) (hw : W n mat u v < INF) :
    add (seen.getD u 0) (W n mat u v) = seen.getD u 0 + W n mat u v := by
  have h1 := hs u
  have h2 := W_ge n mat B hB hmat u v
  unfold INF at hw h1
  exact hadd _ _ (by omega) (by omega)

theorem relax_seen_exact (add : Int → Int → Int) (hadd : Exact add) (n : Nat)
    (mat : List Int) (B : Int) (hB : 0 ≤ B) (hmat : ∀ x ∈ mat, -B ≤ x) (c : Int)
    (seen cur : List Int) (hs : Bounded c seen) (hc : c + B ≤ 2147483648) (u v : Nat) :
    relax_seen add n mat seen cur u v = relax_seen addZ n mat seen cur u v := by
  unfold relax_seen
  by_cases hw : W n mat u v < INF
  · rw [add_exact_at add hadd n mat B hB hmat c seen hs hc u v hw]
    rfl
  · rw [if_neg (fun h => hw h.1), if_neg (fun h => hw h.1)]

theorem relax_seen_bounded (n : Nat) (mat : List Int) (B : Int) (hB : 0 ≤ B)
    (hmat : ∀ x ∈ mat, -B ≤ x) (c : Int) (seen cur : List Int) (hs : Bounded c seen)
    (hcur : Bounded c cur) (u v : Nat) :
    Bounded (c + B) (relax_seen addZ n mat seen cur u v) := by
  intro x
  refine ⟨?_, le_trans (relax_seen_le addZ n mat seen cur u v x) (hcur x).2⟩
  unfold relax_seen
  by_cases hcond : W n mat u v < INF ∧ addZ (seen.getD u 0) (W n mat u v) < cur.getD v 0
  · rw [if_pos hcond, getD_set_int]
    by_cases hv : v = x ∧ v < cur.length
    · rw [if_pos hv]
      have h1 := (hs u).1
      have h2 := W_ge n mat B hB hmat u v
      unfold addZ
      omega
    · rw [if_neg hv]
      have := (hcur x).1
      omega
  · rw [if_neg hcond]
    have := (hcur x).1
    omega

theorem omp_step_exact (add : Int → Int → Int) (hadd : Exact add) (n : Nat)
    (mat : List Int) (B : Int) (hB : 0 ≤ B) (hmat : ∀ x ∈ mat, -B ≤ x) (c : Int)
    (st : List (List Int) × List Bool) (hne : st.1 ≠ []) (hb : ∀ d ∈ st.1, Bounded c d)
    (hc : c + B ≤ 2147483648) (s : Step) :
    omp_step add n mat st s = omp_step addZ n mat st s := by
  have hs := hb _ (hist_getD_mem st.1 s.age hne)
  apply Prod.ext
  · rw [omp_step_hist, omp_step_hist,
      relax_seen_exact add hadd n mat B hB hmat c _ _ hs hc]
  · rw [omp_step_flags, omp_step_flags]
    by_cases hw : W n mat s.u s.v < INF
    · rw [add_exact_at add hadd n mat B hB hmat c _ hs hc s.u s.v hw]
      rfl
    · rw [if_neg (fun h => hw h.1), if_neg (fun h => hw h.1)]

theorem trace_exact (add : Int → Int → Int) (hadd : Exact add) (n : Nat) (mat : List Int)
    (B : Int) (hB : 0 ≤ B) (hmat : ∀ x ∈ mat, -B ≤ x) (trace : List Step) :
    ∀ (T : Nat) (st : List (List Int) × List Bool), st.1 ≠ [] →
      (∀ d ∈ st.1, Bounded ((T : Int) * B) d) →
      ((T + trace.length : Nat) : Int) * B ≤ 2147483648 →
      trace.foldl (omp_step add n mat) st = trace.foldl (omp_step addZ n mat) st ∧
        (trace.foldl (omp_step addZ n mat) st).1 ≠ [] ∧
        ∀ d ∈ (trace.foldl (omp_step addZ n mat) st).1,
          Bounded (((T + trace.length : Nat) : Int) * B) d := by
  induction trace with
  | nil =>
    intro T st hne hb _
    exact ⟨rfl, hne, hb⟩
  | cons s trace ih =>
    intro T st hne hb hc
    have hlen : T + (s :: trace).length = (T + 1) + trace.length := by
      rw [List.length_cons]
      omega
    rw [hlen] at hc ⊢
    have hT1 : ((T + 1 : Nat) : Int) * B = (T : Int) * B + B := by
      push_cast
      ring
    have hc1 : (T : Int) * B + B ≤ 2147483648 := by
      rw [← hT1]
      exact le_trans (scale_le B hB _ _ (Nat.le_add_right _ _)) hc
    rw [List.foldl_cons, List.foldl_cons,
      omp_step_exact add hadd n mat B hB hmat _ st hne hb hc1 s]
    apply ih (T + 1) (omp_step addZ n mat st s)
    · rw [omp_step_hist]
      exact List.cons_ne_nil _ _
    · intro d hd
      rw [omp_step_hist] at hd
      rw [hT1]
      rcases List.mem_cons.1 hd with h1 | h1
      · rw [h1]
        exact relax_seen_bounded n mat B hB hmat _ _ _ (hb _ (hist_getD_mem st.1 s.age hne))
          (hb _ (hist_headD_mem st.1 hne)) s.u s.v
      · exact bounded_mono _ _ d (by omega) (hb d h1)
    · exact hc

theorem omp_round_exact (add : Int → Int → Int) (hadd : Exact add) (p n : Nat)
    (mat : List Int) (B : Int) (hB : 0 ≤ B) (hmat : ∀ x ∈ mat, -B ≤ x) (trace : List Step)
    (hp : 1 ≤ p) (hv : ValidTrace p n trace) (T : Nat) (st : List Int × List Bool)
    (hb : Bounded ((T : Int) * B) st.1)
    (hc : ((T + n * n : Nat) : Int) * B ≤ 2147483648) :
    omp_round add p n mat trace st = omp_round addZ p n mat trace st ∧
      Bounded (((T + n * n : Nat) : Int) * B) (omp_round addZ p n mat trace st).1 := by
  have hlen := validTrace_length p n trace hv hp
  rw [← hlen] at hc ⊢
  obtain ⟨h1, h2, h3⟩ := trace_exact add hadd n mat B hB hmat trace T
    ([st.1], clear_flags p st.2) (List.cons_ne_nil _ _)
    (by
      intro d hd
      rw [List.mem_singleton.1 hd]
      exact hb)
    hc
  constructor
  · unfold omp_round
    simp only
    rw [h1]
  · exact h3 _ (hist_headD_mem _ h2)

theorem omp_loop_exact (add : Int → Int → Int) (hadd : Exact add) (sched : Nat → List Step)
    (p n : Nat) (mat : List Int) (B : Int) (hB : 0 ≤ B) (hmat : ∀ x ∈ mat, -B ≤ x)
    (hp : 1 ≤ p) (hs : ValidSched p n sched) (f : Nat) :
    ∀ (k : Nat) (st : List Int × List Bool),
      Bounded (((k * (n * n) : Nat) : Int) * B) st.1 →
      (((k + f) * (n * n) : Nat) : Int) * B ≤ 2147483648 →
      omp_loop add sched p n mat f k st = omp_loop addZ sched p n mat f k st ∧
        Bounded ((((k + f) * (n * n) : Nat) : Int) * B)
          (omp_loop addZ sched p n mat f k st).1.1 := by
  induction f with
  | zero =>
    intro k st hb _
    exact ⟨rfl, hb⟩
  | succ f ih =>
    intro k st hb hc
    have e1 : ∀ a, omp_loop a sched p n mat (f + 1) k st =
        if omp_has_change p (omp_round a p n mat (sched k) st).2 = false then
          (omp_round a p n mat (sched k) st, k + 1)
        else omp_loop a sched p n mat f (k + 1) (omp_round a p n mat (sched k) st) :=
      fun _ => rfl
    have hk1 : k * (n * n) + n * n = (k + 1) * (n * n) := by ring
    have hle : (k + 1) * (n * n) ≤ (k + (f + 1)) * (n * n) :=
      Nat.mul_le_mul_right _ (by omega)
    have hc1 : ((k * (n * n) + n * n : Nat) : Int) * B ≤ 2147483648 := by
      rw [hk1]
      exact le_trans (scale_le B hB _ _ hle) hc
    obtain ⟨h1, h2⟩ := omp_round_exact add hadd p n mat B hB hmat (sched k) hp (hs k)
      (k * (n * n)) st hb hc1
    rw [hk1] at h2
    rw [e1 add, e1 addZ, h1]
    by_cases hch : omp_has_change p (omp_round addZ p n mat (sched k) st).2 = false
    · rw [if_pos hch, if_pos hch]
      exact ⟨rfl, bounded_mono _ _ _ (scale_le B hB _ _ hle) h2⟩
    · rw [if_neg hch, if_neg hch]
      have e3 : k + 1 + f = k + (f + 1) := by omega
      have := ih (k + 1) (omp_round addZ p n mat (sched k) st) h2 (by rw [e3]; exact hc)
      rw [e3] at this
      exact this

theorem detect_exact (add : Int → Int → Int) (hadd : Exact add) (n : Nat) (mat : List Int)
    (B : Int) (hB : 0 ≤ B) (hmat : ∀ x ∈ mat, -B ≤ x) (c : Int) (d : List Int)
    (hb : Bounded c d) (hc : c + B ≤ 2147483648) :
    detect add n mat d = detect addZ n mat d := by
  have h : ∀ u v, can_relax add n mat d u v = can_relax addZ n mat d u v := by
    intro u v
    by_cases hw : W n mat u v < INF
    · have e := add_exact_at add hadd n mat B hB hmat c d hb hc u v hw
      unfold can_relax
      unfold W at e
      simp only
      rw [e]
      rfl
    · unfold can_relax
      unfold W at hw
      simp only [hw, decide_False, Bool.false_and]
  unfold detect
  simp only [h]

theorem inRange_rounds (n : Nat) (mat : List Int) (B : Int) (h : InRange n mat B) :
    (((0 + (n - 1)) * (n * n) : Nat) : Int) * B ≤ 2147483648 ∧
      (((0 + (n - 1)) * (n * n) : Nat) : Int) * B + B ≤ 2147483648 := by
  obtain ⟨hB, _, hc⟩ := h
  have e : (((n - 1) * n * n + 1 : Nat) : Int) * B =
      (((0 + (n - 1)) * (n * n) : Nat) : Int) * B + B := by
    push_cast
    ring
  rw [e] at hc
  exact ⟨by omega, hc⟩

/-- On a matrix in range, a run of the OpenMP program with an exact addition is
the run with the addition of unbounded integers. -/
theorem omp_exact (add : Int → Int → Int) (hadd : Exact add) (sched : Nat → List Step)
    (p n : Nat) (mat : List Int) (B : Int) (hr : InRange n mat B) (hp : 1 ≤ p)
    (hs : ValidSched p n sched) :
    bellman_ford_omp add sched p n mat = bellman_ford_omp addZ sched p n mat := by
  obtain ⟨hc1, hc2⟩ := inRange_rounds n mat B hr
  obtain ⟨hB, hmat, _⟩ := hr
  have hinit : Bounded (((0 * (n * n) : Nat) : Int) * B)
      ((List.replicate n INF).set 0 0, List.replicate p false).1 := by
    intro x
    simp only [Nat.zero_mul, Nat.cast_zero, Int.zero_mul, neg_zero]
    rw [getD_set_int]
    split
    · exact ⟨le_refl 0, by decide⟩
    · rw [List.getD_eq_getElem?_getD]
      by_cases hx : x < n
      · simp [hx, INF]
      · rw [List.getElem?_eq_none (by simpa using hx)]
        exact ⟨le_refl 0, by decide⟩
  obtain ⟨h1, h2⟩ := omp_loop_exact add hadd sched p n mat B hB hmat hp hs (n - 1) 0 _
    hinit hc1
  unfold bellman_ford_omp
  simp only
  rw [h1, omp_detect_eq, omp_detect_eq, detect_exact add hadd n mat B hB hmat _ _ h2 hc2]

/-- On a matrix in range, a run of the serial program with an exact addition is
the run with the addition of unbounded integers. -/
theorem serial_exact (add : Int → Int → Int) (hadd : Exact add) (n : Nat) (mat : List Int)
    (B : Int) (hr : InRange n mat B) :
    bellman_ford add n mat = bellman_ford addZ n mat := by
  rw [← omp_single_eq_serial add (seqSched 1 n) 1 n mat (le_refl 1) (by simp)
      (validSched_seq 1 n),
    ← omp_single_eq_serial addZ (seqSched 1 n) 1 n mat (le_refl 1) (by simp)
      (validSched_seq 1 n)]
  exact omp_exact add hadd (seqSched 1 n) 1 n mat B hr (le_refl 1) (validSched_seq 1 n)

/-! ## Walks of the concrete inputs -/

theorem walk_head_cases (adj : Nat → Nat → Prop) (n u v : Nat) (p : List Nat)
    (hp : WalkFromTo adj n u v p) :
    (p = [u] ∧ v = u) ∨
      ∃ b r, p = u :: b :: r ∧ adj u b ∧ b < n ∧ WalkFromTo adj n b v (b :: r) := by
  obtain ⟨hw, hh, hl⟩ := hp
  cases p with
  | nil => exact absurd rfl hw.1
  | cons a p =>
    have ha : a = u := by simpa using hh
    subst ha
    cases p with
    | nil =>
      left
      exact ⟨rfl, by simpa using hl.symm⟩
    | cons b r =>
      right
      refine ⟨b, r, rfl, ?_, hw.2.1 b (by simp), ⟨by simp, ?_, ?_⟩, rfl, ?_⟩
      · exact (List.chain'_cons.1 hw.2.2).1
      · intro x hx
        exact hw.2.1 x (List.mem_cons_of_mem _ hx)
      · exact (List.chain'_cons.1 hw.2.2).2
      · rw [← hl, List.getLast?_cons_cons]

theorem walk_build (adj : Nat → Nat → Prop) (n a b v : Nat) (r : List Nat)
    (hadj : adj a b) (ha : a < n) (h : WalkFromTo adj n b v (b :: r)) :
    WalkFromTo adj n a v (a :: b :: r) := by
  obtain ⟨hw, _, hl⟩ := h
  refine ⟨⟨by simp, ?_, List.chain'_cons.2 ⟨hadj, hw.2.2⟩⟩, rfl, ?_⟩
  · intro x hx
    rcases List.mem_cons.1 hx with h | h
    · rw [h]
      exact ha
    · exact hw.2.1 x h
  · rw [List.getLast?_cons_cons]
    exact hl

theorem walk_from_isolated (adj : Nat → Nat → Prop) (n u v : Nat) (p : List Nat)
    (hiso : ∀ b, b < n → ¬ adj u b) (hp : WalkFromTo adj n u v p) : p = [u] ∧ v = u := by
  rcases walk_head_cases adj n u v p hp with h | ⟨b, r, _, hadj, hb, _⟩
  · exact h
  · exact absurd hadj (hiso b hb)

theorem no_reachable_cycle_of_isolated (adj : Nat → Nat → Prop) (n : Nat) (mat : List Int)
    (hiso : ∀ b, b < n → ¬ adj 0 b) : ¬ HasReachableNegCycle adj n mat := by
  rintro ⟨p, c, x, hp, hc, hx, _⟩
  obtain ⟨_, hx0⟩ := walk_from_isolated adj n 0 x p hiso hp
  subst hx0
  obtain ⟨hw, hlen, hclosed⟩ := hc
  have hwalk : WalkFromTo adj n 0 0 c := ⟨hw, hx, by rw [← hclosed, hx]⟩
  obtain ⟨e, _⟩ := walk_from_isolated adj n 0 0 c hiso hwalk
  rw [e] at hlen
  simp at hlen

theorem strayCycle3_isolated : ∀ b, b < 3 → ¬ adjSpec 3 strayCycle3 0 b := by
  decide

theorem strayEdge3_isolated : ∀ b, b < 3 → ¬ adjSpec 3 strayEdge3 0 b := by
  decide


/-! ## Runs with an exact addition on matrices in range -/

theorem serial_final_exact (add : Int → Int → Int) (hadd : Exact add) (n : Nat)
    (mat : List Int) (B : Int) (hr : InRange n mat B) (hn : 1 ≤ n) :
    Final n mat (bellman_ford add n mat) := by
  rw [serial_exact add hadd n mat B hr]
  exact serial_final n mat hn

theorem omp_final_exact (add : Int → Int → Int) (hadd : Exact add) (sched : Nat → List Step)
    (p n : Nat) (mat : List Int) (B : Int) (hr : InRange n mat B) (hn : 1 ≤ n) (hp : 1 ≤ p)
    (hs : ValidSched p n sched) : Final n mat (bellman_ford_omp add sched p n mat) := by
  rw [omp_exact add hadd sched p n mat B hr hp hs]
  exact omp_final sched p n mat hn hp hs

theorem inRange_of_nonneg (n : Nat) (mat : List Int) (h : ∀ x ∈ mat, 0 ≤ x) :
    InRange n mat 0 := by
  refine ⟨le_refl 0, ?_, by simp⟩
  intro x hx
  have := h x hx
  omega

theorem final_flag_false (n : Nat) (mat : List Int) (r : List Int × Bool)
    (h : Final n mat r) (hno : ¬ HasNegCycle (adjCode n mat) n mat) : r.2 = false := by
  cases hb : r.2
  · rfl
  · exact absurd ((final_flag_iff n mat r h).1 hb) hno

theorem print_result_final (n : Nat) (mat : List Int) (r1 r2 : List Int × Bool)
    (h1 : Final n mat r1) (h2 : Final n mat r2) :
    print_result r1.2 r1.1 n = print_result r2.2 r2.1 n := by
  have hf := final_flag_eq n mat r1 r2 h1 h2
  cases hb : r1.2
  · rw [hb] at hf
    rw [← hf, final_unique n mat r1 r2 h1 h2 hb hf.symm]
  · rw [hb] at hf
    rw [← hf]
    rfl

theorem init_le_INF (u : Nat) : init u ≤ INF := by
  unfold init INF
  split <;> decide

theorem not_stableA_iff (add : Int → Int → Int) (n : Nat) (mat : List Int) (d : List Int) :
    ¬ StableA add n mat d ↔
      ∃ u v, u < n ∧ v < n ∧ W n mat u v < INF ∧
        add (d.getD u 0) (W n mat u v) < d.getD v 0 := by
  unfold StableA
  constructor
  · intro h
    by_contra hc
    apply h
    intro a ha b hb hw hlt
    exact hc ⟨a, b, ha, hb, hw, hlt⟩
  · rintro ⟨u, v, hu, hv, hw, hlt⟩ hs
    exact hs u hu v hv hw hlt

theorem relax_round_le (add : Int → Int → Int) (n : Nat) (mat : List Int) (d : List Int)
    (x : Nat) : (relax_round add n mat d).1.getD x 0 ≤ d.getD x 0 := by
  rw [relax_round_fst]
  exact foldl_relax_le add n mat _ d x

theorem relax_loop_le (add : Int → Int → Int) (n : Nat) (mat : List Int) (x : Nat)
    (f : Nat) : ∀ d : List Int, (relax_loop add n mat f d).1.getD x 0 ≤ d.getD x 0 := by
  induction f with
  | zero =>
    intro d
    exact le_refl _
  | succ f ih =>
    intro d
    have e : relax_loop add n mat (f + 1) d =
        if (relax_round add n mat d).2 = false then ((relax_round add n mat d).1, true)
        else relax_loop add n mat f (relax_round add n mat d).1 := rfl
    rw [e]
    split
    · exact relax_round_le add n mat d x
    · exact le_trans (ih _) (relax_round_le add n mat d x)

theorem omp_loop_le (add : Int → Int → Int) (sched : Nat → List Step) (p n : Nat)
    (mat : List Int) (x : Nat) (f : Nat) :
    ∀ (k : Nat) (st : List Int × List Bool),
      (omp_loop add sched p n mat f k st).1.1.getD x 0 ≤ st.1.getD x 0 := by
  induction f with
  | zero =>
    intro k st
    exact le_refl _
  | succ f ih =>
    intro k st
    have e : omp_loop add sched p n mat (f + 1) k st =
        if omp_has_change p (omp_round add p n mat (sched k) st).2 = false then
          (omp_round add p n mat (sched k) st, k + 1)
        else omp_loop add sched p n mat f (k + 1) (omp_round add p n mat (sched k) st) := rfl
    rw [e]
    split
    · exact omp_round_le add p n mat (sched k) st x
    · exact le_trans (ih _ _) (omp_round_le add p n mat (sched k) st x)

theorem serial_le_init (add : Int → Int → Int) (n : Nat) (mat : List Int) (x : Nat)
    (hx : x < n) : (bellman_ford add n mat).1.getD x 0 ≤ init x := by
  have h := relax_loop_le add n mat x (n - 1) ((List.replicate n INF).set 0 0)
  rw [init_dist_getD n x hx] at h
  unfold bellman_ford
  simp only
  split <;> exact h

theorem omp_le_init (add : Int → Int → Int) (sched : Nat → List Step) (p n : Nat)
    (mat : List Int) (x : Nat) (hx : x < n) :
    (bellman_ford_omp add sched p n mat).1.getD x 0 ≤ init x := by
  have h := omp_loop_le add sched p n mat x (n - 1) 0
    ((List.replicate n INF).set 0 0, List.replicate p false)
  simp only at h
  rw [init_dist_getD n x hx] at h
  unfold bellman_ford_omp
  simp only
  split <;> exact h

/-! ## Counting the rounds -/

theorem relax_loop_rounds_le (add : Int → Int → Int) (n : Nat) (mat : List Int) (k : Nat) :
    ∀ d : List Int, relax_loop_rounds add n mat k d ≤ k ∧
      ((relax_loop add n mat k d).2 = false → relax_loop_rounds add n mat k d = k) ∧
      (relax_loop add n mat k d).1 =
        (fun d => (relax_round add n mat d).1)^[relax_loop_rounds add n mat k d] d := by
  induction k with
  | zero =>
    intro d
    exact ⟨le_refl 0, fun _ => rfl, rfl⟩
  | succ k ih =>
    intro d
    have e1 : relax_loop_rounds add n mat (k + 1) d =
        if (relax_round add n mat d).2 = false then 1
        else 1 + relax_loop_rounds add n mat k (relax_round add n mat d).1 := rfl
    have e2 : relax_loop add n mat (k + 1) d =
        if (relax_round add n mat d).2 = false then ((relax_round add n mat d).1, true)
        else relax_loop add n mat k (relax_round add n mat d).1 := rfl
    by_cases hc : (relax_round add n mat d).2 = false
    · rw [e1, e2, if_pos hc, if_pos hc]
      exact ⟨by omega, fun h => absurd h Bool.noConfusion, rfl⟩
    · rw [e1, e2, if_neg hc, if_neg hc]
      obtain ⟨h1, h2, h3⟩ := ih (relax_round add n mat d).1
      refine ⟨by omega, fun h => by rw [h2 h]; omega, ?_⟩
      rw [h3, Nat.add_comm 1, Function.iterate_succ_apply]

theorem omp_loop_iter_le (add : Int → Int → Int) (sched : Nat → List Step) (p n : Nat)
    (mat : List Int) (f : Nat) :
    ∀ (k : Nat) (st : List Int × List Bool),
      (omp_loop add sched p n mat f k st).2 ≤ k + f := by
  induction f with
  | zero =>
    intro k st
    exact le_refl k
  | succ f ih =>
    intro k st
    have e : omp_loop add sched p n mat (f + 1) k st =
        if omp_has_change p (omp_round add p n mat (sched k) st).2 = false then
          (omp_round add p n mat (sched k) st, k + 1)
        else omp_loop add sched p n mat f (k + 1) (omp_round add p n mat (sched k) st) := rfl
    by_cases hc : omp_has_change p (omp_round add p n mat (sched k) st).2 = false
    · rw [e, if_pos hc]
      exact Nat.add_le_add_left (Nat.le_add_left 1 f) k
    · rw [e, if_neg hc]
      have := ih (k + 1) (omp_round add p n mat (sched k) st)
      omega

/-! ## Edges in the words of the specification -/

theorem W_le_INF (n : Nat) (mat : List Int) (h : ∀ x ∈ mat, x ≤ INF) (u v : Nat) :
    W n mat u v ≤ INF := by
  unfold W
  rw [List.getD_eq_getElem?_getD]
  cases hx : mat[convert_dimension_2D_1D u v n]? with
  | none =>
    simp only [Option.getD_none]
    decide
  | some x =>
    simp only [Option.getD_some]
    exact h x (List.getElem?_mem hx)

theorem adjSpec_imp_adjCode (n : Nat) (mat : List Int) (h : ∀ x ∈ mat, x ≤ INF) (u v : Nat)
    (hs : adjSpec n mat u v) : adjCode n mat u v :=
  lt_of_le_of_ne (W_le_INF n mat h u v) hs

theorem isCycle_mono (adj1 adj2 : Nat → Nat → Prop) (n : Nat)
    (h : ∀ u v, adj1 u v → adj2 u v) (c : List Nat) (hc : IsCycle adj1 n c) :
    IsCycle adj2 n c :=
  ⟨⟨hc.1.1, hc.1.2.1, List.Chain'.imp (fun a b hab => h a b hab) hc.1.2.2⟩, hc.2⟩

theorem hasNegCycle_mono (adj1 adj2 : Nat → Nat → Prop) (n : Nat) (mat : List Int)
    (h : ∀ u v, adj1 u v → adj2 u v) (hc : HasNegCycle adj1 n mat) :
    HasNegCycle adj2 n mat := by
  obtain ⟨c, hc1, hc2⟩ := hc
  exact ⟨c, isCycle_mono adj1 adj2 n h c hc1, hc2⟩

theorem no_cycle_of_stable (n : Nat) (mat : List Int) (h : ∀ x ∈ mat, x ≤ INF)
    (d : List Int) (hs : Stable n mat d) : ¬ HasNegCycle (adjSpec n mat) n mat := by
  intro hc
  obtain ⟨c, hc1, hc2⟩ := hasNegCycle_mono _ (adjCode n mat) n mat
    (adjSpec_imp_adjCode n mat h) hc
  have := stable_cycle_nonneg n mat d hs c hc1
  omega

theorem deepGraph3_no_cycle : ¬ HasNegCycle (adjSpec 3 deepGraph3) 3 deepGraph3 :=
  no_cycle_of_stable 3 deepGraph3 (by decide) [0, -2000000000, -4000000000]
    (by unfold Stable; decide)

/-- C2 fails on the code.  In `strayEdge3` the only edge is `1→2 = -1`; vertex
2 is not reachable from vertex 0, yet the serial program ends with
`has_negative_cycle = false` and `dist[2] = 999999`, not `INF`; no sum of the
run is near the limits of an `int`. -/
theorem stray_edge_lowers_unreachable :
    1 ≤ 3 ∧ strayEdge3.length = 3 * 3 ∧ ¬ Reachable (adjSpec 3 strayEdge3) 3 2 ∧
      bellman_ford add32 3 strayEdge3 = ([0, 1000000, 999999], false) ∧
      bellman_ford addZ 3 strayEdge3 = ([0, 1000000, 999999], false) ∧
      print_result false (bellman_ford add32 3 strayEdge3).1 3 =
        [Line.num 0, Line.num 1000000, Line.num 999999] := by
  refine ⟨by decide, by decide, ?_, by decide, by decide, by decide⟩
  rintro ⟨p, hp⟩
  have := (walk_from_isolated _ 3 0 2 p strayEdge3_isolated hp).2
  exact absurd this (by decide)

/-! ## The negative-cycle flag of the serial program -/

/-- C5 fails on the code.  In `strayInto2` (`N = 2`, the single edge
`1→0 = -1000001`) the serial program ends with `has_negative_cycle = false` and
`dist = [-1, 1000000]`, and `print_result` writes `-1` for vertex 0.  On the
scenario `N = 3`, edges `0→1 = 1`, `1→2 = 1`, `2→0 = -3`, it ends with
`dist[0] = -2`.  No sum of the two runs is near the limits of an `int`. -/
theorem source_distance_fails :
    (1 ≤ 2 ∧ strayInto2.length = 2 * 2 ∧
      bellman_ford add32 2 strayInto2 = ([-1, 1000000], false) ∧
      bellman_ford addZ 2 strayInto2 = ([-1, 1000000], false) ∧
      print_result (bellman_ford add32 2 strayInto2).2 (bellman_ford add32 2 strayInto2).1 2 =
        [Line.num (-1), Line.num 1000000] ∧
      (bellman_ford add32 2 strayInto2).1.getD 0 0 ≠ 0) ∧
    (1 ≤ 3 ∧ negCycle3.length = 3 * 3 ∧
      bellman_ford add32 3 negCycle3 = ([-2, 0, 1], true) ∧
      bellman_ford addZ 3 negCycle3 = ([-2, 0, 1], true) ∧
      (bellman_ford add32 3 negCycle3).1.getD 0 0 ≠ 0) :=
  ⟨⟨by decide, by decide, by decide, by decide, by decide, by decide⟩,
    ⟨by decide, by decide, by decide, by decide, by decide⟩⟩

/-! ## The serial program and the OpenMP program -/

/-- C6.  For every `n ≥ 1` and every `n × n` matrix, the OpenMP program called
with `p = 1` returns the distance array and the flag of the serial program,
whatever the addition of two `int`s does on an overflow; this covers the runs
in which the OpenMP loop converges in round `n - 1` and the detection scan still
runs, and `n = 1`. -/
theorem omp_one_worker_is_serial (add : Int → Int → Int) (sched : Nat → List Step)
    (n : Nat) (mat : List Int) (hn : 1 ≤ n) (hmat : mat.length = n * n)
    (hs : ValidSched 1 n sched) :
    bellman_ford_omp add sched 1 n mat = bellman_ford add n mat :=
  omp_single_eq_serial add sched 1 n mat (le_refl 1) (by simp) hs

/-- C6 at `N = 2` without edges, where the OpenMP loop converges in round
`n - 1 = 1` and leaves `iter_num = n - 1`, so that the detection scan runs, at
`N = 1` with a negative loop at the only vertex, and at `overflow2`, where a sum
does not fit in an `int`. -/
theorem omp_one_worker_is_serial_witness :
    (1 ≤ 2 ∧ noEdge2.length = 2 * 2 ∧ ValidSched 1 2 (seqSched 1 2) ∧
      (omp_loop add32 (seqSched 1 2) 1 2 noEdge2 (2 - 1) 0
        ((List.replicate 2 INF).set 0 0, List.replicate 1 false)).2 = 2 - 1 ∧
      bellman_ford add32 2 noEdge2 = ([0, 1000000], false) ∧
      bellman_ford_omp add32 (seqSched 1 2) 1 2 noEdge2 = bellman_ford add32 2 noEdge2) ∧
    (1 ≤ 1 ∧ [(-5 : Int)].length = 1 * 1 ∧ bellman_ford add32 1 [-5] = ([0], true) ∧
      bellman_ford_omp add32 (seqSched 1 1) 1 1 [-5] = bellman_ford add32 1 [-5]) ∧
    (bellman_ford add32 2 overflow2 = ([0, -2000000000], false) ∧
      bellman_ford_omp add32 (seqSched 1 2) 1 2 overflow2 = bellman_ford add32 2 overflow2) :=
  ⟨⟨by decide, by decide, validSched_seq 1 2, by decide, by decide,
      omp_one_worker_is_serial add32 (seqSched 1 2) 2 noEdge2 (by decide) (by decide)
        (validSched_seq 1 2)⟩,
    ⟨by decide, by decide, by decide,
      omp_one_worker_is_serial add32 (seqSched 1 1) 1 [-5] (by decide) (by decide)
        (validSched_seq 1 1)⟩,
    ⟨by decide,
      omp_one_worker_is_serial add32 (seqSched 1 2) 2 overflow2 (by decide) (by decide)
        (validSched_seq 1 2)⟩⟩

/-- C7, as stated, fails.  In `strayCycle3` no negative cycle is reachable from
vertex 0, yet the OpenMP program ends with the distance array
`[0, 999996, 999997]` for one worker, with `[0, 999997, 999996]` for three
workers that run one after another in the order of their ranks, and with
`[0, 999998, 999998]` for three workers that read the values of the last
barrier.  In `deepGraph3` there is no cycle at all, the weight of the path
`0 → 1 → 2` does not fit in an `int`, and the compiled program ends with
`[0, -2000000000, 1000000]` for one worker and with
`[0, -2000000000, -1999000000]` for three workers that run in decreasing order
of their ranks. -/
theorem omp_dist_depends_on_workers :
    (1 ≤ 3 ∧ strayCycle3.length = 3 * 3 ∧
      ¬ HasReachableNegCycle (adjSpec 3 strayCycle3) 3 strayCycle3 ∧
      ValidSched 1 3 (seqSched 1 3) ∧ ValidSched 3 3 (seqSched 3 3) ∧
      ValidSched 3 3 (staleSched 3 3) ∧
      (bellman_ford_omp add32 (seqSched 1 3) 1 3 strayCycle3).1 = [0, 999996, 999997] ∧
      (bellman_ford_omp add32 (seqSched 3 3) 3 3 strayCycle3).1 = [0, 999997, 999996] ∧
      (bellman_ford_omp add32 (staleSched 3 3) 3 3 strayCycle3).1 = [0, 999998, 999998] ∧
      (bellman_ford_omp add32 (seqSched 1 3) 1 3 strayCycle3).1 ≠
        (bellman_ford_omp add32 (seqSched 3 3) 3 3 strayCycle3).1) ∧
    (1 ≤ 3 ∧ deepGraph3.length = 3 * 3 ∧
      ¬ HasReachableNegCycle (adjSpec 3 deepGraph3) 3 deepGraph3 ∧
      ValidSched 1 3 (seqSched 1 3) ∧ ValidSched 3 3 (revSched 3 3) ∧
      bellman_ford_omp add32 (seqSched 1 3) 1 3 deepGraph3 =
        ([0, -2000000000, 1000000], false) ∧
      bellman_ford_omp add32 (revSched 3 3) 3 3 deepGraph3 =
        ([0, -2000000000, -1999000000], false) ∧
      (bellman_ford_omp add32 (seqSched 1 3) 1 3 deepGraph3).1 ≠
        (bellman_ford_omp add32 (revSched 3 3) 3 3 deepGraph3).1) :=
  ⟨⟨by decide, by decide,
      no_reachable_cycle_of_isolated _ 3 strayCycle3 strayCycle3_isolated,
      validSched_seq 1 3, validSched_seq 3 3, validSched_stale 3 3, by decide, by decide,
      by decide, by decide⟩,
    ⟨by decide, by decide,
      fun h => deepGraph3_no_cycle (hasNegCycle_of_reachable _ _ _ h),
      validSched_seq 1 3, validSched_rev 3 3, by decide, by decide, by decide⟩⟩

/-- C7, amended.  Let the addition of two `int`s be right whenever the sum fits
in an `int`.  For every `n ≥ 1`, every `n × n` matrix that is in range for a
bound `B` (no entry below `-B`, and `((n - 1) * n * n + 1) * B ≤ 2^31`) and whose
graph (edges = entries below `INF`) has no negative cycle at all, reachable from
vertex 0 or not, and every two worker counts `P, P' ≥ 1`, the OpenMP program
ends with the same distance array for `P` as for `P'`, however the steps of the
workers are interleaved in each round and whichever value of the round a worker
reads in another worker's range. -/
theorem omp_dist_independent_of_workers (add : Int → Int → Int) (hadd : Exact add)
    (n : Nat) (mat : List Int) (hn : 1 ≤ n) (hmat : mat.length = n * n) (B : Int)
    (hr : InRange n mat B) (hno : ¬ HasNegCycle (adjCode n mat) n mat)
    (P P2 : Nat) (hP : 1 ≤ P) (hP2 : 1 ≤ P2) (s s2 : Nat → List Step)
    (hs : ValidSched P n s) (hs2 : ValidSched P2 n s2) :
    (bellman_ford_omp add s P n mat).1 = (bellman_ford_omp add s2 P2 n mat).1 := by
  have h1 := omp_final_exact add hadd s P n mat B hr hn hP hs
  have h2 := omp_final_exact add hadd s2 P2 n mat B hr hn hP2 hs2
  exact final_unique n mat _ _ h1 h2 (final_flag_false n mat _ h1 hno)
    (final_flag_false n mat _ h2 hno)

/-- The amended C7 at the scenario `N = 4`, edges `0→1 = 2`, `1→2 = 2`,
`2→3 = 2`, with the 32-bit addition: one worker, three workers run against the
order of their ranks, and three workers that read the values of the last
barrier end with the same array. -/
theorem omp_dist_independent_of_workers_witness :
    Exact add32 ∧ 1 ≤ 4 ∧ pathGraph4.length = 4 * 4 ∧ InRange 4 pathGraph4 0 ∧
      ¬ HasNegCycle (adjCode 4 pathGraph4) 4 pathGraph4 ∧
      ValidSched 1 4 (seqSched 1 4) ∧ ValidSched 3 4 (revSched 3 4) ∧
      ValidSched 3 4 (staleSched 3 4) ∧
      (bellman_ford_omp add32 (seqSched 1 4) 1 4 pathGraph4).1 = [0, 2, 4, 6] ∧
      (bellman_ford_omp add32 (staleSched 3 4) 3 4 pathGraph4).1 = [0, 2, 4, 6] ∧
      (bellman_ford_omp add32 (seqSched 1 4) 1 4 pathGraph4).1 =
        (bellman_ford_omp add32 (revSched 3 4) 3 4 pathGraph4).1 ∧
      (bellman_ford_omp add32 (seqSched 1 4) 1 4 pathGraph4).1 =
        (bellman_ford_omp add32 (staleSched 3 4) 3 4 pathGraph4).1 := by
  have hno : ¬ HasNegCycle (adjCode 4 pathGraph4) 4 pathGraph4 :=
    no_neg_cycle_of_nonneg _ 4 pathGraph4 (by decide)
  have hr : InRange 4 pathGraph4 0 := inRange_of_nonneg 4 pathGraph4 (by decide)
  exact ⟨exact_add32, by decide, by decide, hr, hno, validSched_seq 1 4,
    validSched_rev 3 4, validSched_stale 3 4, by decide, by decide,
    omp_dist_independent_of_workers add32 exact_add32 4 pathGraph4 (by decide) (by decide)
      0 hr hno 1 3 (by decide) (by decide) (seqSched 1 4) (revSched 3 4)
      (validSched_seq 1 4) (validSched_rev 3 4),
    omp_dist_independent_of_workers add32 exact_add32 4 pathGraph4 (by decide) (by decide)
      0 hr hno 1 3 (by decide) (by decide) (seqSched 1 4) (staleSched 3 4)
      (validSched_seq 1 4) (validSched_stale 3 4)⟩

/-- C8, as stated, fails.  In `overflow2` (`N = 2`, edges `0→1 = -2000000000`,
`1→0 = -2000000000`) the compiled OpenMP program ends with
`dist = [0, -2000000000]` for `P = 3 > N` and for `P = 1`, and with
`dist = [-1999000000, 1000000]` for `P = N = 2` (worker 0 first); the flag is
false in the three runs, so the distances are written, and they differ. -/
theorem omp_workers_change_result :
    1 ≤ 2 ∧ overflow2.length = 2 * 2 ∧ 2 < 3 ∧
      ValidSched 3 2 (seqSched 3 2) ∧ ValidSched 1 2 (seqSched 1 2) ∧
      ValidSched 2 2 (seqSched 2 2) ∧
      bellman_ford_omp add32 (seqSched 3 2) 3 2 overflow2 = ([0, -2000000000], false) ∧
      bellman_ford_omp add32 (seqSched 1 2) 1 2 overflow2 = ([0, -2000000000], false) ∧
      bellman_ford_omp add32 (seqSched 2 2) 2 2 overflow2 =
        ([-1999000000, 1000000], false) ∧
      print_result (bellman_ford_omp add32 (seqSched 3 2) 3 2 overflow2).2
          (bellman_ford_omp add32 (seqSched 3 2) 3 2 overflow2).1 2 =
        [Line.num 0, Line.num (-2000000000)] ∧
      print_result (bellman_ford_omp add32 (seqSched 2 2) 2 2 overflow2).2
          (bellman_ford_omp add32 (seqSched 2 2) 2 2 overflow2).1 2 =
        [Line.num (-1999000000), Line.num 1000000] ∧
      print_result (bellman_ford_omp add32 (seqSched 3 2) 3 2 overflow2).2
          (bellman_ford_omp add32 (seqSched 3 2) 3 2 overflow2).1 2 ≠
        print_result (bellman_ford_omp add32 (seqSched 2 2) 2 2 overflow2).2
          (bellman_ford_omp add32 (seqSched 2 2) 2 2 overflow2).1 2 :=
  ⟨by decide, by decide, by decide, validSched_seq 3 2, validSched_seq 1 2,
    validSched_seq 2 2, by decide, by decide, by decide, by decide, by decide, by decide⟩

/-- C8, amended.  For every `n ≥ 1`, every `n × n` matrix and every worker count
`P > n`, the OpenMP program returns the distance array and the flag it returns
with one worker, which are those of the serial program, however the steps are
interleaved and whatever the addition of two `int`s does on an overflow.  When
the addition is right whenever the sum fits in an `int` and the matrix is in
range for a bound `B` (no entry below `-B`, and
`((n - 1) * n * n + 1) * B ≤ 2^31`), the program moreover gives the same flag and
writes the same lines (the distances when the flag is false, the marker
otherwise) as it does with `n` workers, and the same distance array when the
flag is false. -/
theorem omp_more_workers_than_vertices (add : Int → Int → Int) (n : Nat) (mat : List Int)
    (hn : 1 ≤ n) (hmat : mat.length = n * n) (P : Nat) (hP : n < P)
    (sP s1 sN : Nat → List Step) (hsP : ValidSched P n sP) (hs1 : ValidSched 1 n s1)
    (hsN : ValidSched n n sN) :
    bellman_ford_omp add sP P n mat = bellman_ford_omp add s1 1 n mat ∧
      bellman_ford_omp add sP P n mat = bellman_ford add n mat ∧
      (Exact add → ∀ B, InRange n mat B →
        (bellman_ford_omp add sP P n mat).2 = (bellman_ford_omp add sN n n mat).2 ∧
          print_result (bellman_ford_omp add sP P n mat).2
              (bellman_ford_omp add sP P n mat).1 n =
            print_result (bellman_ford_omp add sN n n mat).2
              (bellman_ford_omp add sN n n mat).1 n ∧
          ((bellman_ford_omp add sP P n mat).2 = false →
            (bellman_ford_omp add sP P n mat).1 = (bellman_ford_omp add sN n n mat).1)) := by
  have hPs : bellman_ford_omp add sP P n mat = bellman_ford add n mat :=
    omp_single_eq_serial add sP P n mat (by omega)
      (by rw [Nat.div_eq_of_lt hP, Nat.zero_mul]) hsP
  have h1s : bellman_ford_omp add s1 1 n mat = bellman_ford add n mat :=
    omp_single_eq_serial add s1 1 n mat (le_refl 1) (by simp) hs1
  refine ⟨by rw [hPs, h1s], hPs, ?_⟩
  intro hadd B hr
  have hFP := omp_final_exact add hadd sP P n mat B hr hn (by omega) hsP
  have hFN := omp_final_exact add hadd sN n n mat B hr hn hn hsN
  have eN := final_flag_eq n mat _ _ hFP hFN
  refine ⟨eN, print_result_final n mat _ _ hFP hFN, fun hf => ?_⟩
  exact final_unique n mat _ _ hFP hFN hf (by rw [← eN]; exact hf)

/-- The amended C8 at the scenario `N = 4`, edges `0→1 = 2`, `1→2 = 2`,
`2→3 = 2`, with the 32-bit addition and `P = 6` workers run against the order of
their ranks. -/
theorem omp_more_workers_than_vertices_witness :
    1 ≤ 4 ∧ pathGraph4.length = 4 * 4 ∧ 4 < 6 ∧
      ValidSched 6 4 (revSched 6 4) ∧ ValidSched 1 4 (seqSched 1 4) ∧
      ValidSched 4 4 (seqSched 4 4) ∧
      bellman_ford_omp add32 (revSched 6 4) 6 4 pathGraph4 = ([0, 2, 4, 6], false) ∧
      bellman_ford_omp add32 (revSched 6 4) 6 4 pathGraph4 =
        bellman_ford_omp add32 (seqSched 1 4) 1 4 pathGraph4 ∧
      print_result (bellman_ford_omp add32 (revSched 6 4) 6 4 pathGraph4).2
          (bellman_ford_omp add32 (revSched 6 4) 6 4 pathGraph4).1 4 =
        print_result (bellman_ford_omp add32 (seqSched 4 4) 4 4 pathGraph4).2
          (bellman_ford_omp add32 (seqSched 4 4) 4 4 pathGraph4).1 4 :=
  ⟨by decide, by decide, by decide, validSched_rev 6 4, validSched_seq 1 4,
    validSched_seq 4 4, by decide,
    (omp_more_workers_than_vertices add32 4 pathGraph4 (by decide) (by decide) 6 (by decide)
      (revSched 6 4) (seqSched 1 4) (seqSched 4 4) (validSched_rev 6 4) (validSched_seq 1 4)
      (validSched_seq 4 4)).1,
    ((omp_more_workers_than_vertices add32 4 pathGraph4 (by decide) (by decide) 6 (by decide)
      (revSched 6 4) (seqSched 1 4) (seqSched 4 4) (validSched_rev 6 4) (validSched_seq 1 4)
      (validSched_seq 4 4)).2.2 exact_add32 0
        (inRange_of_nonneg 4 pathGraph4 (by decide))).2.1⟩
/-! ## The partition step -/

/-- C9.  For every `n ≥ 1` and `p ≥ 1` the ranges
`[local_start[i], local_end[i])`, `i < p`, satisfy `start ≤ end ≤ n` (and
`0 ≤ start`, the entries being natural numbers), they are contiguous (the first
starts at 0, each ends where the next one starts, the last ends at `n`),
pairwise disjoint, every vertex `v < n` lies in exactly one of them, and they
hold nothing but vertices below `n`. -/
theorem partition_ranges (n p : Nat) (hn : 1 ≤ n) (hp : 1 ≤ p) :
    (∀ i, i < p → local_start p n i ≤ local_end p n i ∧ local_end p n i ≤ n) ∧
      local_start p n 0 = 0 ∧ local_end p n (p - 1) = n ∧
      (∀ i, i + 1 < p → local_end p n i = local_start p n (i + 1)) ∧
      (∀ i j, i < p → j < p → i ≠ j → ∀ v,
        ¬ ((local_start p n i ≤ v ∧ v < local_end p n i) ∧
          (local_start p n j ≤ v ∧ v < local_end p n j))) ∧
      (∀ v, v < n → ∃! i, i < p ∧ local_start p n i ≤ v ∧ v < local_end p n i) ∧
      (∀ i v, i < p → local_start p n i ≤ v → v < local_end p n i → v < n) := by
  have hdisj : ∀ i j, i < p → j < p → i ≠ j → ∀ v,
      ¬ ((local_start p n i ≤ v ∧ v < local_end p n i) ∧
        (local_start p n j ≤ v ∧ v < local_end p n j)) := by
    intro i j _ hj hij v ⟨⟨h1, h2⟩, ⟨h3, h4⟩⟩
    rcases Nat.lt_or_gt_of_ne hij with h | h
    · have := local_end_le_start p n i j h hj
      omega
    · have := local_end_le_start p n j i h (by omega)
      omega
  refine ⟨fun i hi => ⟨local_start_le_end p n i hi, local_end_le p n i hi⟩, ?_, ?_, ?_, hdisj,
    ?_, ?_⟩
  · simp [local_start]
  · simp [local_end]
  · intro i hi
    unfold local_end local_start
    rw [if_neg (by omega)]
  · intro v hv
    obtain ⟨i, hi, h1, h2⟩ := partition_cover p n v hp hv
    refine ⟨i, ⟨hi, h1, h2⟩, ?_⟩
    rintro j ⟨hj, h3, h4⟩
    by_contra hne
    exact hdisj j i hj hi hne v ⟨⟨h3, h4⟩, ⟨h1, h2⟩⟩
  · intro i v hi _ h2
    exact lt_of_lt_of_le h2 (local_end_le p n i hi)

/-- C9 at `n = 10`, `p = 3`: the ranges are `[0, 3)`, `[3, 6)`, `[6, 10)`. -/
theorem partition_ranges_witness :
    1 ≤ 10 ∧ 1 ≤ 3 ∧
      (List.range 3).map (fun i => (local_start 3 10 i, local_end 3 10 i)) =
        [(0, 3), (3, 6), (6, 10)] ∧
      (∀ v, v < 10 → ∃! i, i < 3 ∧ local_start 3 10 i ≤ v ∧ v < local_end 3 10 i) :=
  ⟨by decide, by decide, by decide,
    (partition_ranges 10 3 (by decide) (by decide)).2.2.2.2.2.1⟩


/-! ## The flag and the pairs that can still be relaxed -/

/-- C10, as stated, fails.  In `overInf3` the entry `W[1][2] = 1000001` is not
the sentinel; the serial program ends with `dist = [0, -5, 1000000]` and the
flag false although `dist[1] + W[1][2] = 999996 < dist[2]`.  In `overflow2` the
compiled program ends with `dist = [0, -2000000000]` and the flag false although
`dist[1] + W[1][0] = -4000000000 < dist[0]`: the sum the program computes does
not fit in an `int`. -/
theorem relaxable_pair_without_flag :
    (1 ≤ 3 ∧ overInf3.length = 3 * 3 ∧
      bellman_ford add32 3 overInf3 = ([0, -5, 1000000], false) ∧
      W 3 overInf3 1 2 ≠ INF ∧
      (bellman_ford add32 3 overInf3).1.getD 1 0 + W 3 overInf3 1 2 <
        (bellman_ford add32 3 overInf3).1.getD 2 0) ∧
    (1 ≤ 2 ∧ overflow2.length = 2 * 2 ∧
      bellman_ford add32 2 overflow2 = ([0, -2000000000], false) ∧
      W 2 overflow2 1 0 ≠ INF ∧ W 2 overflow2 1 0 < INF ∧
      (bellman_ford add32 2 overflow2).1.getD 1 0 + W 2 overflow2 1 0 <
        (bellman_ford add32 2 overflow2).1.getD 0 0) :=
  ⟨⟨by decide, by decide, by decide, by decide, by decide⟩,
    ⟨by decide, by decide, by decide, by decide, by decide, by decide⟩⟩

/-- C10, amended.  For every `n ≥ 1` and every `n × n` matrix, after the serial
program and after the OpenMP program with any `p ≥ 1` workers (their steps
interleaved in any way), `has_negative_cycle = true` if and only if some pair
`(u, v)` with an entry `W[u][v]` below `INF` still passes the test
`dist[u] + W[u][v] < dist[v]` over the final distance array, the sum being the
one the program computes in `int`; when the flag is false, also after an early
exit, no pair passes.  When the addition is right whenever the sum fits in an
`int` and the matrix is in range for a bound `B` (no entry below `-B`, and
`((n - 1) * n * n + 1) * B ≤ 2^31`), the sum is the sum of the integers. -/
theorem flag_iff_relaxable (add : Int → Int → Int) (n : Nat) (mat : List Int)
    (hn : 1 ≤ n) (hmat : mat.length = n * n) :
    ((bellman_ford add n mat).2 = true ↔
        ∃ u v, u < n ∧ v < n ∧ W n mat u v < INF ∧
          add ((bellman_ford add n mat).1.getD u 0) (W n mat u v) <
            (bellman_ford add n mat).1.getD v 0) ∧
      (∀ (sched : Nat → List Step) (p : Nat), 1 ≤ p → ValidSched p n sched →
        ((bellman_ford_omp add sched p n mat).2 = true ↔
          ∃ u v, u < n ∧ v < n ∧ W n mat u v < INF ∧
            add ((bellman_ford_omp add sched p n mat).1.getD u 0) (W n mat u v) <
              (bellman_ford_omp add sched p n mat).1.getD v 0)) ∧
      (Exact add → ∀ B, InRange n mat B →
        ((bellman_ford add n mat).2 = true ↔
          ∃ u v, u < n ∧ v < n ∧ W n mat u v < INF ∧
            (bellman_ford add n mat).1.getD u 0 + W n mat u v <
              (bellman_ford add n mat).1.getD v 0) ∧
        ∀ (sched : Nat → List Step) (p : Nat), 1 ≤ p → ValidSched p n sched →
          ((bellman_ford_omp add sched p n mat).2 = true ↔
            ∃ u v, u < n ∧ v < n ∧ W n mat u v < INF ∧
              (bellman_ford_omp add sched p n mat).1.getD u 0 + W n mat u v <
                (bellman_ford_omp add sched p n mat).1.getD v 0)) := by
  refine ⟨?_, ?_, ?_⟩
  · rw [← not_stableA_iff]
    exact serial_flag_iff add n mat
  · intro sched p hp hs
    rw [← not_stableA_iff]
    exact omp_flag_iff add sched p n mat hp hs
  · intro hadd B hr
    constructor
    · rw [serial_exact add hadd n mat B hr]
      have h := serial_flag_iff addZ n mat
      rw [not_stableA_iff] at h
      exact h
    · intro sched p hp hs
      rw [omp_exact add hadd sched p n mat B hr hp hs]
      have h := omp_flag_iff addZ sched p n mat hp hs
      rw [not_stableA_iff] at h
      exact h

/-- The amended C10 at the scenario `N = 3`, edges `0→1 = 1`, `1→2 = 1`,
`2→0 = -3`, with the 32-bit addition: the flag is set, and a pair still passes
the test over the final array. -/
theorem flag_iff_relaxable_witness :
    1 ≤ 3 ∧ negCycle3.length = 3 * 3 ∧ (bellman_ford add32 3 negCycle3).2 = true ∧
      ∃ u v, u < 3 ∧ v < 3 ∧ W 3 negCycle3 u v < INF ∧
        add32 ((bellman_ford add32 3 negCycle3).1.getD u 0) (W 3 negCycle3 u v) <
          (bellman_ford add32 3 negCycle3).1.getD v 0 :=
  ⟨by decide, by decide, by decide,
    (flag_iff_relaxable add32 3 negCycle3 (by decide) (by decide)).1.1 (by decide)⟩
/-! ## The lines written by `print_result` -/

/-- C11.  As a function of the flag, the distance array and `N`,
`print_result` writes, when the flag is false, exactly `N` numbers in vertex
order, the `i`-th being `min(dist[i], INF)`; when the flag is true it writes
the single line `FOUND NEGATIVE CYCLE!` and no number. -/
theorem print_result_lines (dist : List Int) (N : Nat) :
    print_result false dist N =
        (List.range N).map (fun i => Line.num (min (dist.getD i 0) INF)) ∧
      (print_result false dist N).length = N ∧
      print_result true dist N = [Line.text "FOUND NEGATIVE CYCLE!"] := by
  have h : print_result false dist N =
      (List.range N).map (fun i => Line.num (min (dist.getD i 0) INF)) := by
    unfold print_result
    simp only [Bool.not_false, if_true]
    apply List.map_congr_left
    intro i _
    by_cases hc : dist.getD i 0 > INF
    · rw [if_pos hc, min_eq_right (le_of_lt hc)]
    · rw [if_neg hc, min_eq_left (le_of_not_lt hc)]
  refine ⟨h, ?_, rfl⟩
  rw [h]
  simp


/-! ## Distances never increase -/

/-- C12.  For every `n ≥ 1`, every `n × n` matrix and every vertex `x`, whatever
the addition of two `int`s does on an overflow: a single relaxation (serial or
OpenMP, also with a value of `dist[u]` read earlier in the round), a worker's
phase-1 scan, a serial round and an OpenMP round (the steps of the workers
interleaved in any way) leave `dist[x]` less than or equal to its value before;
and from initialisation to the end of the run, serial or OpenMP, `dist[x]` has
not risen above its initial value. -/
theorem distances_never_increase (add : Int → Int → Int) (n : Nat) (mat : List Int)
    (hn : 1 ≤ n) (hmat : mat.length = n * n) (x : Nat) :
    (∀ (st : List Int × Bool) (u v : Nat),
        (relax_edge add n mat st u v).1.getD x 0 ≤ st.1.getD x 0) ∧
      (∀ (r : Nat) (st : List Int × List Bool) (u v : Nat),
        (omp_relax add n mat r st u v).1.getD x 0 ≤ st.1.getD x 0) ∧
      (∀ (r : Nat) (seen : List Int) (st : List Int × List Bool) (u v : Nat),
        (omp_relax_seen add n mat r seen st u v).1.getD x 0 ≤ st.1.getD x 0) ∧
      (∀ d : List Int, (relax_round add n mat d).1.getD x 0 ≤ d.getD x 0) ∧
      (∀ (p r : Nat) (st : List Int × List Bool),
        (omp_phase1 add p n mat r st).1.getD x 0 ≤ st.1.getD x 0) ∧
      (∀ (p : Nat) (trace : List Step) (st : List Int × List Bool),
        (omp_round add p n mat trace st).1.getD x 0 ≤ st.1.getD x 0) ∧
      (x < n → (bellman_ford add n mat).1.getD x 0 ≤ init x) ∧
      (∀ (sched : Nat → List Step) (p : Nat), 1 ≤ p → ValidSched p n sched → x < n →
        (bellman_ford_omp add sched p n mat).1.getD x 0 ≤ init x) := by
  refine ⟨?_, ?_, ?_, ?_, ?_, ?_, ?_, ?_⟩
  · intro st u v
    rw [relax_edge_fst]
    exact relax_dist_le add n mat st.1 (u, v) x
  · intro r st u v
    rw [omp_relax_fst]
    exact relax_dist_le add n mat st.1 (u, v) x
  · intro r seen st u v
    rw [omp_relax_seen_fst]
    exact relax_seen_le add n mat seen st.1 u v x
  · intro d
    exact relax_round_le add n mat d x
  · intro p r st
    rw [omp_phase1_fst]
    exact foldl_relax_le add n mat _ st.1 x
  · intro p trace st
    exact omp_round_le add p n mat trace st x
  · intro hx
    exact serial_le_init add n mat x hx
  · intro sched p _ _ hx
    exact omp_le_init add sched p n mat x hx

/-- C12 at the scenario `N = 4`, edges `0→1 = 2`, `1→2 = 2`, `2→3 = 2`, for
vertex 3, with the 32-bit addition: the first serial round lowers `dist[3]` from
`INF` to 6. -/
theorem distances_never_increase_witness :
    1 ≤ 4 ∧ pathGraph4.length = 4 * 4 ∧
      (relax_round add32 4 pathGraph4 [0, INF, INF, INF]).1 = [0, 2, 4, 6] ∧
      (relax_round add32 4 pathGraph4 [0, INF, INF, INF]).1.getD 3 0 ≤
        ([0, INF, INF, INF] : List Int).getD 3 0 :=
  ⟨by decide, by decide, by decide,
    (distances_never_increase add32 4 pathGraph4 (by decide) (by decide) 3).2.2.2.1
      [0, INF, INF, INF]⟩

/-! ## One relaxation -/

/-- C14.  For every `n ≥ 1` and `p ≥ 1`, every worker `i < p - 1` has the range
that starts at `i * (n / p)` and holds exactly `n / p` vertices, and the last
worker has the range that starts at `(p - 1) * (n / p)` and holds the remaining
`n - (p - 1) * (n / p)` vertices, up to `n`; for `p = 1` the single range is
`[0, n)`. -/
theorem partition_sizes (n p : Nat) (hn : 1 ≤ n) (hp : 1 ≤ p) :
    (∀ i, i < p - 1 →
        local_start p n i = i * (n / p) ∧
          local_end p n i - local_start p n i = n / p) ∧
      local_start p n (p - 1) = (p - 1) * (n / p) ∧
      local_end p n (p - 1) = n ∧
      local_end p n (p - 1) - local_start p n (p - 1) = n - (p - 1) * (n / p) ∧
      (local_start 1 n 0 = 0 ∧ local_end 1 n 0 = n) := by
  refine ⟨?_, ?_, ?_, ?_, ?_, ?_⟩
  · intro i hi
    unfold local_start local_end
    rw [if_neg (by omega)]
    refine ⟨Nat.mul_comm _ _, ?_⟩
    rw [Nat.mul_succ]
    exact Nat.add_sub_cancel_left _ _
  · unfold local_start
    exact Nat.mul_comm _ _
  · simp [local_end]
  · unfold local_start local_end
    rw [if_pos rfl, Nat.mul_comm]
  · simp [local_start]
  · simp [local_end]

/-- C14 at `n = 10`, `p = 4`: the ranges are `[0, 2)`, `[2, 4)`, `[4, 6)` and
`[6, 10)`, of sizes 2, 2, 2 and 4. -/
theorem partition_sizes_witness :
    1 ≤ 10 ∧ 1 ≤ 4 ∧
      (List.range 4).map (fun i => (local_start 4 10 i, local_end 4 10 i)) =
        [(0, 2), (2, 4), (4, 6), (6, 10)] ∧
      local_end 4 10 (4 - 1) - local_start 4 10 (4 - 1) = 10 - (4 - 1) * (10 / 4) :=
  ⟨by decide, by decide, by decide,
    (partition_sizes 10 4 (by decide) (by decide)).2.2.2.1⟩

/-- C15, as stated, fails.  For `N = 1` and `P = 2` worker 0 has the empty
range `[0, 0)` and worker 1, the last, has the range `[0, 1)`: no `k` splits
the workers into non-empty ranges below `k` and empty ranges from `k` on. -/
theorem empty_ranges_not_trailing :
    1 ≤ 1 ∧ 1 < 2 ∧
      (List.range 2).map (fun i => (local_start 2 1 i, local_end 2 1 i)) =
        [(0, 0), (0, 1)] ∧
      ¬ ∃ k, (∀ i, i < 2 → i < k → local_start 2 1 i < local_end 2 1 i) ∧
        (∀ i, i < 2 → k ≤ i → ¬ local_start 2 1 i < local_end 2 1 i) := by
  refine ⟨by decide, by decide, by decide, ?_⟩
  rintro ⟨k, h1, h2⟩
  by_cases hk : k ≤ 1
  · exact h2 1 (by decide) hk (by decide)
  · exact absurd (h1 0 (by decide) (by omega)) (by decide)

/-- C15, amended.  For every `n ≥ 1` and every `p > n`, the empty ranges
produced by the partition step belong to the leading workers: every worker
`i < p - 1` has the empty range `[0, 0)`, and the last worker `p - 1` has the
whole range `[0, n)`, which is not empty. -/
theorem empty_ranges_leading (n p : Nat) (hn : 1 ≤ n) (hp : n < p) :
    (∀ i, i < p - 1 → local_start p n i = 0 ∧ local_end p n i = 0) ∧
      local_start p n (p - 1) = 0 ∧ local_end p n (p - 1) = n ∧
      local_start p n (p - 1) < local_end p n (p - 1) := by
  have have0 : n / p = 0 := Nat.div_eq_of_lt hp
  have hs : ∀ i, local_start p n i = 0 := by
    intro i
    unfold local_start
    rw [have0, Nat.zero_mul]
  have he : local_end p n (p - 1) = n := by simp [local_end]
  refine ⟨?_, hs _, he, ?_⟩
  · intro i hi
    refine ⟨hs i, ?_⟩
    unfold local_end
    rw [if_neg (by omega), have0, Nat.zero_mul]
  · rw [hs, he]
    exact hn

/-- The amended C15 at `n = 2`, `p = 5`: the ranges are four times `[0, 0)`,
then `[0, 2)`. -/
theorem empty_ranges_leading_witness :
    1 ≤ 2 ∧ 2 < 5 ∧
      (List.range 5).map (fun i => (local_start 5 2 i, local_end 5 2 i)) =
        [(0, 0), (0, 0), (0, 0), (0, 0), (0, 2)] ∧
      local_start 5 2 (5 - 1) < local_end 5 2 (5 - 1) :=
  ⟨by decide, by decide, by decide,
    (empty_ranges_leading 2 5 (by decide) (by decide)).2.2.2⟩


/-! ## The number of scans -/

/-- C16.  For every `n ≥ 1` and every `n × n` matrix, a run of `bellman_ford`,
serial or OpenMP with any worker count and any interleaving of the workers'
steps, whatever the addition of two `int`s does on an overflow, executes at most
`n - 1` relaxation rounds (the OpenMP `iter_num` never exceeds `n - 1`) and at
most one detection scan, at most `n` scans in total, and a detection scan only
after `n - 1` relaxation rounds; the array the serial loop ends with is the
result of exactly the counted rounds. -/
theorem scans_bounded (add : Int → Int → Int) (n : Nat) (mat : List Int) (hn : 1 ≤ n)
    (hmat : mat.length = n * n) :
    ((serial_scans add n mat).1 ≤ n - 1 ∧ (serial_scans add n mat).2 ≤ 1 ∧
        (serial_scans add n mat).1 + (serial_scans add n mat).2 ≤ n ∧
        ((serial_scans add n mat).2 = 1 → (serial_scans add n mat).1 = n - 1) ∧
        (bellman_ford add n mat).1 =
          (fun d => (relax_round add n mat d).1)^[(serial_scans add n mat).1]
            ((List.replicate n INF).set 0 0)) ∧
      ∀ (sched : Nat → List Step) (p : Nat),
        (omp_scans add sched p n mat).1 ≤ n - 1 ∧ (omp_scans add sched p n mat).2 ≤ 1 ∧
          (omp_scans add sched p n mat).1 + (omp_scans add sched p n mat).2 ≤ n ∧
          ((omp_scans add sched p n mat).2 = 1 →
            (omp_scans add sched p n mat).1 = n - 1) := by
  constructor
  · obtain ⟨h1, h2, h3⟩ :=
      relax_loop_rounds_le add n mat (n - 1) ((List.replicate n INF).set 0 0)
    have hd : (bellman_ford add n mat).1 =
        (relax_loop add n mat (n - 1) ((List.replicate n INF).set 0 0)).1 := by
      unfold bellman_ford
      simp only
      split <;> rfl
    unfold serial_scans
    simp only
    cases hb : (relax_loop add n mat (n - 1) ((List.replicate n INF).set 0 0)).2
    · simp only [Bool.false_eq_true, if_false]
      exact ⟨h1, le_refl 1, by rw [h2 hb]; omega, fun _ => h2 hb, by rw [hd, h3]⟩
    · simp only [if_true]
      exact ⟨h1, by omega, by omega, fun h => absurd h (by decide), by rw [hd, h3]⟩
  · intro sched p
    have h := omp_loop_iter_le add sched p n mat (n - 1) 0
      ((List.replicate n INF).set 0 0, List.replicate p false)
    rw [Nat.zero_add] at h
    unfold omp_scans
    simp only
    by_cases hc : (omp_loop add sched p n mat (n - 1) 0
        ((List.replicate n INF).set 0 0, List.replicate p false)).2 = n - 1
    · simp only [hc, if_true]
      exact ⟨le_refl _, le_refl 1, by omega, fun _ => trivial⟩
    · simp only [hc, if_false]
      exact ⟨h, by omega, by omega, fun h0 => absurd h0 (by decide)⟩

/-- C16 at the scenario `N = 3`, edges `0→1 = 1`, `1→2 = 1`, `2→0 = -3` (two
rounds, then the detection scan) and at the scenario `N = 4`, edges `0→1 = 2`,
`1→2 = 2`, `2→3 = 2` (two rounds of the three allowed, no detection scan), with
the 32-bit addition. -/
theorem scans_bounded_witness :
    1 ≤ 3 ∧ negCycle3.length = 3 * 3 ∧ serial_scans add32 3 negCycle3 = (2, 1) ∧
      omp_scans add32 (seqSched 2 3) 2 3 negCycle3 = (2, 1) ∧
      serial_scans add32 4 pathGraph4 = (2, 0) ∧
      (serial_scans add32 3 negCycle3).1 + (serial_scans add32 3 negCycle3).2 ≤ 3 :=
  ⟨by decide, by decide, by decide, by decide, by decide,
    (scans_bounded add32 3 negCycle3 (by decide) (by decide)).1.2.2.1⟩

/-! ## What a worker writes -/

/-- C17.  In the OpenMP variant, for every worker rank `r` and every state at
the start of its phase-1 scan, the scan leaves `dist[v]` as it was for every
`v` outside `[local_start[r], local_end[r])`, leaves the size of `dist`, and
leaves the change flag of every other worker as it was, whatever the addition
of two `int`s does on an overflow.  The same holds step by step when the scans
of the workers are interleaved: a step of worker `r` on the pair `(u, v)`
changes no entry of `dist` other than `dist[v]` and no flag other than that of
`r`, and in a round of `p` workers every such `v` lies in the range of `r`. -/
theorem worker_writes_own_range (add : Int → Int → Int) (p n : Nat) (mat : List Int)
    (r : Nat) (st : List Int × List Bool) :
    (∀ v, ¬ (local_start p n r ≤ v ∧ v < local_end p n r) →
        (omp_phase1 add p n mat r st).1.getD v 0 = st.1.getD v 0) ∧
      (omp_phase1 add p n mat r st).1.length = st.1.length ∧
      (∀ r2, r2 ≠ r →
        (omp_phase1 add p n mat r st).2.getD r2 false = st.2.getD r2 false) ∧
      (omp_phase1 add p n mat r st).2.length = st.2.length ∧
      (∀ (h : List (List Int) × List Bool) (s : Step),
        (∀ x, s.v ≠ x →
          ((omp_step add n mat h s).1.headD []).getD x 0 = (h.1.headD []).getD x 0) ∧
        (∀ r2, r2 ≠ s.rank →
          (omp_step add n mat h s).2.getD r2 false = h.2.getD r2 false)) ∧
      (∀ trace : List Step, ValidTrace p n trace → ∀ s ∈ trace,
        local_start p n s.rank ≤ s.v ∧ s.v < local_end p n s.rank) := by
  refine ⟨?_, ?_, fun r2 h => omp_phase1_other add p n mat r st r2 h,
    omp_phase1_flags_length add p n mat r st, ?_, ?_⟩
  · intro v hv
    rw [omp_phase1_fst]
    apply foldl_relax_frame
    intro e he hev
    have := (mem_worker_pairs p n r e.1 e.2).1 he
    rw [hev] at this
    exact hv this.2
  · rw [omp_phase1_fst, foldl_relax_length]
  · intro h s
    constructor
    · intro x hx
      rw [omp_step_hist]
      exact relax_seen_frame add n mat _ _ s.u s.v x hx
    · intro r2 hr2
      exact omp_step_flags_other add n mat h s r2 hr2
  · intro trace hv s hs
    exact (validTrace_step p n trace hv s hs).2.2.2

/-- C17 at `strayCycle3` with three workers: the scan of worker 1, whose range
is `[1, 2)`, lowers `dist[1]` and sets its own flag; `dist[2]` and the flags of
the workers 0 and 2 keep their values. -/
theorem worker_writes_own_range_witness :
    omp_phase1 add32 3 3 strayCycle3 1 ([0, INF, INF], [true, false, false]) =
        ([0, 999999, INF], [true, true, false]) ∧
      (local_start 3 3 1, local_end 3 3 1) = (1, 2) ∧
      (omp_phase1 add32 3 3 strayCycle3 1 ([0, INF, INF], [true, false, false])).1.getD 2 0 =
        ([0, INF, INF] : List Int).getD 2 0 ∧
      (omp_phase1 add32 3 3 strayCycle3 1 ([0, INF, INF], [true, false, false])).2.getD 0
          false =
        ([true, false, false] : List Bool).getD 0 false :=
  ⟨by decide, by decide,
    (worker_writes_own_range add32 3 3 strayCycle3 1
      ([0, INF, INF], [true, false, false])).1 2 (by decide),
    (worker_writes_own_range add32 3 3 strayCycle3 1
      ([0, INF, INF], [true, false, false])).2.2.1 0 (by decide)⟩

/-! ## Matrices without negative entries -/

/-- C18.  For every `n ≥ 1` and every `n × n` matrix all of whose entries are
`≥ 0`, the serial program, with any addition of two `int`s that is right
whenever the sum fits in an `int`, ends with `has_negative_cycle = false`, the
least weight of a path from vertex 0 to itself is 0, and for every vertex `v`:
`dist[v] = INF` when no path through entries below `INF` leads from vertex 0 to
`v`, and otherwise the least weight `d` of such a path exists and
`dist[v] = min(INF, d)`. -/
theorem serial_nonneg_distances (add : Int → Int → Int) (hadd : Exact add) (n : Nat)
    (mat : List Int) (hn : 1 ≤ n) (hmat : mat.length = n * n)
    (hnonneg : ∀ x ∈ mat, 0 ≤ x) :
    (bellman_ford add n mat).2 = false ∧
      IsLeastPathWeight (adjCode n mat) n mat 0 0 ∧
      ∀ v, v < n →
        (¬ Reachable (adjCode n mat) n v → (bellman_ford add n mat).1.getD v 0 = INF) ∧
        (Reachable (adjCode n mat) n v →
          ∃ d, IsLeastPathWeight (adjCode n mat) n mat v d ∧
            (bellman_ford add n mat).1.getD v 0 = min INF d) := by
  have hF := serial_final_exact add hadd n mat 0 (inRange_of_nonneg n mat hnonneg) hn
  have hno : ¬ HasNegCycle (adjCode n mat) n mat := no_neg_cycle_of_nonneg _ n mat hnonneg
  have hflag := final_flag_false n mat _ hF hno
  have hbelow := final_below n mat _ hF hflag
  refine ⟨hflag, ⟨⟨[0], walkFromTo_singleton _ n 0 hn, by simp, rfl⟩,
    fun q _ _ => walkWeight_nonneg n mat hnonneg q⟩, ?_⟩
  intro v hv
  obtain ⟨u, p0, hp0, hd0⟩ := hF.2.1 v hv
  have hw0 := walkWeight_nonneg n mat hnonneg p0
  have hle : (bellman_ford add n mat).1.getD v 0 ≤ INF :=
    le_trans (hF.2.2.1 v hv) (init_le_INF v)
  have hfrom0 : ∀ q, WalkFromTo (adjCode n mat) n 0 v q →
      (bellman_ford add n mat).1.getD v 0 ≤ walkWeight n mat q := by
    intro q hq
    have := hbelow q.length 0 v q hq (Nat.le_succ _)
    have h0 : init 0 = 0 := rfl
    rw [h0] at this
    omega
  constructor
  · intro hnr
    have hu : u ≠ 0 := by
      intro h
      rw [h] at hp0
      exact hnr ⟨p0, hp0⟩
    simp only [init, if_neg hu] at hd0
    omega
  · rintro ⟨p, hp⟩
    by_cases hu : u = 0
    · rw [hu] at hp0 hd0
      obtain ⟨q, hq1, hq2, hq3⟩ :=
        walk_shorten _ n mat hno 0 v p0.length p0 (le_refl _) hp0
      have h0 : init 0 = 0 := rfl
      rw [h0] at hd0
      have hq4 := hfrom0 q hq1
      refine ⟨(bellman_ford add n mat).1.getD v 0, ⟨⟨q, hq1, hq2, by omega⟩,
        fun q2 hq2 _ => hfrom0 q2 hq2⟩, ?_⟩
      rw [min_eq_right hle]
    · simp only [init, if_neg hu] at hd0
      have hINF : (bellman_ford add n mat).1.getD v 0 = INF := by omega
      obtain ⟨q, hq1, hq2, _⟩ := walk_shorten _ n mat hno 0 v p.length p (le_refl _) hp
      obtain ⟨d, ⟨q0, hq01, hq02, hq03⟩, hd2⟩ :=
        Int.exists_least_of_bdd
          (P := fun w => ∃ q, WalkFromTo (adjCode n mat) n 0 v q ∧ q.Nodup ∧
            walkWeight n mat q = w)
          ⟨0, fun z ⟨q2, _, _, e⟩ => by rw [← e]; exact walkWeight_nonneg n mat hnonneg q2⟩
          ⟨walkWeight n mat q, q, hq1, hq2, rfl⟩
      refine ⟨d, ⟨⟨q0, hq01, hq02, hq03⟩, fun q2 h1 h2 => hd2 _ ⟨q2, h1, h2, rfl⟩⟩, ?_⟩
      have := hfrom0 q0 hq01
      rw [hINF, min_eq_left (by omega)]

/-- C18 at `farGraph3` (edges `0→1 = 999999`, `1→2 = 5`), with the 32-bit
addition: vertex 2 is reachable, at a distance above `INF`, and
`dist[2] = INF`. -/
theorem serial_nonneg_distances_witness :
    Exact add32 ∧ 1 ≤ 3 ∧ farGraph3.length = 3 * 3 ∧ (∀ x ∈ farGraph3, 0 ≤ x) ∧
      bellman_ford add32 3 farGraph3 = ([0, 999999, 1000000], false) ∧
      Reachable (adjCode 3 farGraph3) 3 2 ∧
      ∃ d, IsLeastPathWeight (adjCode 3 farGraph3) 3 farGraph3 2 d ∧
        (bellman_ford add32 3 farGraph3).1.getD 2 0 = min INF d := by
  have hreach : Reachable (adjCode 3 farGraph3) 3 2 :=
    ⟨[0, 1, 2], walk_build _ 3 0 1 2 [2] (by decide) (by decide)
      (walk_build _ 3 1 2 2 [] (by decide) (by decide)
        (walkFromTo_singleton _ 3 2 (by decide)))⟩
  exact ⟨exact_add32, by decide, by decide, by decide, by decide, hreach,
    ((serial_nonneg_distances add32 exact_add32 3 farGraph3 (by decide) (by decide)
      (by decide)).2.2 2 (by decide)).2 hreach⟩

/-! ## A set flag means a negative cycle -/

/-- C19.  For every `n ≥ 1` and every `n × n` integer matrix (unbounded
integers), if `bellman_ford`, serial or OpenMP, sets `has_negative_cycle = true`
then the graph formed by the entries below `INF` contains a simple cycle of
strictly negative total weight, reachable from vertex 0 or not; and on a graph
without any negative cycle the serial program ends with the flag false after at
most `n - 1` relaxation rounds.  The same holds of the serial program with any
addition of two `int`s that is right whenever the sum fits in an `int`, on the
matrices that are in range for a bound `B` (no entry below `-B`, and
`((n - 1) * n * n + 1) * B ≤ 2^31`). -/
theorem flag_implies_neg_cycle (n : Nat) (mat : List Int) (hn : 1 ≤ n)
    (hmat : mat.length = n * n) :
    ((bellman_ford addZ n mat).2 = true → HasNegSimpleCycle (adjCode n mat) n mat) ∧
      (∀ (sched : Nat → List Step) (p : Nat), 1 ≤ p → ValidSched p n sched →
        (bellman_ford_omp addZ sched p n mat).2 = true →
          HasNegSimpleCycle (adjCode n mat) n mat) ∧
      (¬ HasNegCycle (adjCode n mat) n mat →
        (bellman_ford addZ n mat).2 = false ∧ (serial_scans addZ n mat).1 ≤ n - 1) ∧
      (∀ (add : Int → Int → Int) (B : Int), Exact add → InRange n mat B →
        ((bellman_ford add n mat).2 = true → HasNegSimpleCycle (adjCode n mat) n mat) ∧
        (¬ HasNegCycle (adjCode n mat) n mat →
          (bellman_ford add n mat).2 = false ∧ (serial_scans add n mat).1 ≤ n - 1)) := by
  refine ⟨?_, ?_, ?_, ?_⟩
  · intro hf
    exact (hasNegCycle_iff_simple _ n mat).1
      ((final_flag_iff n mat _ (serial_final n mat hn)).1 hf)
  · intro sched p hp hs hf
    exact (hasNegCycle_iff_simple _ n mat).1
      ((final_flag_iff n mat _ (omp_final sched p n mat hn hp hs)).1 hf)
  · intro hno
    exact ⟨final_flag_false n mat _ (serial_final n mat hn) hno,
      (relax_loop_rounds_le addZ n mat (n - 1) ((List.replicate n INF).set 0 0)).1⟩
  · intro add B hadd hr
    have hF := serial_final_exact add hadd n mat B hr hn
    exact ⟨fun hf => (hasNegCycle_iff_simple _ n mat).1 ((final_flag_iff n mat _ hF).1 hf),
      fun hno => ⟨final_flag_false n mat _ hF hno,
        (relax_loop_rounds_le add n mat (n - 1) ((List.replicate n INF).set 0 0)).1⟩⟩

/-- C19 at `strayCycle3` (edges `1→2 = -1`, `2→1 = -1`): the flag is set, the
graph has a negative simple cycle, and no negative cycle is reachable from
vertex 0. -/
theorem flag_implies_neg_cycle_witness :
    1 ≤ 3 ∧ strayCycle3.length = 3 * 3 ∧ (bellman_ford addZ 3 strayCycle3).2 = true ∧
      HasNegSimpleCycle (adjCode 3 strayCycle3) 3 strayCycle3 ∧
      ¬ HasReachableNegCycle (adjSpec 3 strayCycle3) 3 strayCycle3 :=
  ⟨by decide, by decide, by decide,
    (flag_implies_neg_cycle 3 strayCycle3 (by decide) (by decide)).1 (by decide),
    no_reachable_cycle_of_isolated _ 3 strayCycle3 strayCycle3_isolated⟩
